import Mathlib

/-!
Verification of the definition-to-graph layout engine
(`parseStateMachine` in `src/utils/stateMachineParser.js`, bundled in the
repository sources next to `EndpointContext.js`).

The engine turns an AWS-Step-Functions-style state machine definition into a
list of positioned nodes and a list of directed edges.  This file contains a
shallow embedding of that routine and theorems about it.

Modelling conventions:
* JavaScript objects holding the `States` maps are modelled as association
  lists `List (String × _)`; `states[name]` is `jsLookup`.
* JavaScript truthiness tests on optional string fields (`state.Next`,
  `choice.Next`, `state.Default`, `branch.StartAt`, `catchBlock.Next`,
  `definition.StartAt`) treat both an absent field and the empty string as
  false; `jsField` normalises `some ""` to `none` accordingly.
* Numeric coordinates are `Int`.  Every division in the source divides an
  even number by 2 (`totalWidth` is a multiple of 240 or 200), so integer
  division agrees exactly with JavaScript float division.
* Purely presentational edge/node attributes (`type: "smoothstep"`, css
  `style`, `label`, handle names, `animated`, `hasCatch`, `isBranch`) carry
  no information about graph structure or positions and are omitted; a node
  is its id, position and rendered `type` string, an edge is its id, source
  and target.
* The recursion of `processState` is expressed with an explicit fuel
  parameter; `none` means the fuel ran out.  The engine's inner Parallel
  branch walk (`while (currentBranchState && currentBranchState.Next)`) has
  no visited set, and `chainF` gives it `branch.states.length + 1` steps:
  a walk that runs longer revisits a state and hence never stops, so `none`
  from `chainF` is exactly the runs on which the JavaScript loops forever.
  For the outer recursion we prove that the fuel passed by
  `parseStateMachineCore` is always sufficient.
-/

/-- Spacing constant `HORIZONTAL_SPACING` from the source. -/
def HORIZONTAL_SPACING : Int := 240

/-- Spacing constant `VERTICAL_SPACING` from the source. -/
def VERTICAL_SPACING : Int := 100

/-- Spacing constant `PARALLEL_BRANCH_SPACING` from the source. -/
def PARALLEL_BRANCH_SPACING : Int := 200

/-- A positioned node of the produced graph: id, coordinates and the
`data.type` string shown by the renderer. -/
structure Node where
  id : String
  x : Int
  y : Int
  type : Option String
deriving Repr, DecidableEq

/-- A value stored in the `nodePositions` map: a position object
`{ x, y }` (stored under every pushed node's id) or a node-id string
(stored under the `\x7bstateName\x7d_branch_\x7bindex\x7d_end` bookkeeping keys). -/
inductive NPVal where
  | pos : Int → Int → NPVal
  | nid : String → NPVal
deriving Repr, DecidableEq

/-- JavaScript truthiness of a `nodePositions` value: objects are always
truthy, a string is truthy when non-empty. -/
def npTruthy : NPVal → Bool
  | NPVal.pos _ _ => true
  | NPVal.nid m => !(m == "")

/-- JavaScript string interpolation of a `nodePositions` value, as used
in the rejoin edge's template-literal id: a string interpolates to
itself, a plain object to `[object Object]`. -/
def npToString : NPVal → String
  | NPVal.pos _ _ => "[object Object]"
  | NPVal.nid m => m

/-- A directed edge of the produced graph: id, source, target.  The
source field holds whatever value the push wrote: every push but the
Parallel rejoin writes a node-id string; the rejoin loop writes the raw
`nodePositions` value it read, which is a position object when the
bookkeeping key was polluted by an equally named node. -/
structure Edge where
  id : String
  source : NPVal
  target : String
deriving Repr, DecidableEq

/-- The result value `{ nodes, edges }` of `parseStateMachine`. -/
structure Graph where
  nodes : List Node
  edges : List Edge
deriving Repr, DecidableEq

/-- One element of a state's `Catch` array; only its `Next` field is read. -/
structure CatchRule where
  next : Option String
deriving Repr, DecidableEq

/-- One element of a Choice state's `Choices` array; only its `Next` field
affects nodes and edges (the condition fields only feed the edge label). -/
structure ChoiceRule where
  next : Option String
deriving Repr, DecidableEq

/-- A state inside a Parallel branch.  The branch walk only ever reads the
`Type` (for the node data) and `Next` fields of branch states. -/
structure BranchState where
  type : Option String
  next : Option String
deriving Repr, DecidableEq

/-- One element of a Parallel state's `Branches` array: `StartAt` plus a
`States` map. -/
structure Branch where
  startAt : Option String
  states : List (String × BranchState)
deriving Repr, DecidableEq

/-- A state of the main `States` map, with exactly the fields the engine
reads: `Type`, `Next`, `End`, `Catch`, `Choices`, `Default`, `Branches`.
An absent `Catch` array behaves like an empty one (the source only iterates
over it), so `catchRules` is a plain list. -/
structure StateSpec where
  type : Option String
  next : Option String
  endFlag : Bool
  catchRules : List CatchRule
  choices : Option (List ChoiceRule)
  default : Option String
  branches : Option (List Branch)
deriving Repr, DecidableEq

/-- A parsed state machine definition: `StartAt` and `States`.  An absent
`States` field behaves as the empty map. -/
structure StateMachineDef where
  startAt : Option String
  states : List (String × StateSpec)
deriving Repr, DecidableEq

/-- JavaScript truthiness of an optional string field: an absent field and
the empty string are both falsy. -/
def jsField : Option String → Option String
  | none => none
  | some s => if s = "" then none else some s

/-- `map[key]` on a JavaScript object modelled as an association list. -/
def jsLookup {α : Type} (l : List (String × α)) (k : String) : Option α :=
  (l.find? (fun p => p.1 == k)).map (fun p => p.2)

/-- Lookup in the main `States` map. -/
def lookupState (states : List (String × StateSpec)) (k : String) :
    Option StateSpec :=
  jsLookup states k

/-- The synthesized id `${stateName}_branch_${index}_${innerName}` of a node
inside a Parallel branch. -/
def branchNodeId (stateName : String) (index : Nat) (inner : String) :
    String :=
  stateName ++ "_branch_" ++ toString index ++ "_" ++ inner

/-- The synthesized id `__END_${stateName}__` of an exit marker node. -/
def endNodeId (stateName : String) : String :=
  "__END_" ++ stateName ++ "__"

/-- The `\x7bstateName\x7d_branch_\x7bindex\x7d_end` key of the shared
`nodePositions` map under which a valid branch's last node id is stored
for the rejoin loop. -/
def endKey (stateName : String) (index : Nat) : String :=
  stateName ++ "_branch_" ++ toString index ++ "_end"

/-- The working state of one layout invocation: the node list, the edge
list, the `processedStates` visited set and the shared `nodePositions`
map.  `Map.set` overwrites, so the map is modelled as an association
list onto which every `set` prepends its entry and `get` takes the
first match. -/
structure LState where
  nodes : List Node
  edges : List Edge
  processed : Finset String
  positions : List (String × NPVal)

/-- The Parallel branch walk
(`while (currentBranchState && currentBranchState.Next)`) as a chain of
`(name, state)` steps after the branch's start state.  The source loop has
no visited set, so it is given explicit fuel; `none` means the fuel ran
out, i.e. the walk revisited states and the JavaScript loop never stops. -/
def chainF (bs : List (String × BranchState)) :
    Nat → BranchState → Option (List (String × BranchState))
  | 0, _ => none
  | fuel+1, cur =>
    match jsField cur.next with
    | none => some []
    | some nextName =>
      match jsLookup bs nextName with
      | none => some []
      | some st =>
        (chainF bs fuel st).map (fun rest => (nextName, st) :: rest)

/-- The accumulated output of the `state.Branches.forEach` loop of a
Parallel state: branch nodes, branch edges, the running
`maxBranchY`, and the `nodePositions` entries the loop wrote (most
recent first): a position object per pushed branch node and, per valid
branch, its last node id under the `_end` bookkeeping key. -/
structure BuiltBranches where
  nodes : List Node
  edges : List Edge
  maxY : Int
  poss : List (String × NPVal)
deriving Repr, DecidableEq

/-- The `state.Branches.forEach` loop of the Parallel case: for each branch
with a valid `StartAt`, push the branch start node, the edge from the
Parallel state to it, then walk the branch's `Next` chain pushing a node
and an edge per step.  `none` propagates a diverging branch walk. -/
def buildBranchesF (stateName : String) (startX nextY : Int) :
    List Branch → Nat → Int → Option BuiltBranches
  | [], _, maxY => some ⟨[], [], maxY, []⟩
  | branch :: rest, index, maxY =>
    let branchX := startX + (index : Int) * PARALLEL_BRANCH_SPACING
    match jsField branch.startAt with
    | none => buildBranchesF stateName startX nextY rest (index+1) maxY
    | some s =>
      match jsLookup branch.states s with
      | none => buildBranchesF stateName startX nextY rest (index+1) maxY
      | some st =>
        let bid := branchNodeId stateName index s
        match chainF branch.states (branch.states.length + 1) st with
        | none => none
        | some chain =>
          let chainNodes := chain.enum.map (fun p =>
            { id := branchNodeId stateName index p.2.1, x := branchX,
              y := nextY + ((p.1 : Int) + 1) * VERTICAL_SPACING,
              type := p.2.2.type : Node })
          let ids := chain.map (fun q => branchNodeId stateName index q.1)
          let chainEdges := ((bid :: ids).zip ids).map (fun pr =>
            { id := pr.1 ++ "-to-" ++ pr.2, source := NPVal.nid pr.1,
              target := pr.2 : Edge })
          let lastId := ids.getLastD bid
          let chainPoss := chain.enum.map (fun p =>
            (branchNodeId stateName index p.2.1,
             NPVal.pos branchX (nextY + ((p.1 : Int) + 1) * VERTICAL_SPACING)))
          let branchYFinal :=
            nextY + ((chain.length : Int) + 1) * VERTICAL_SPACING
          match buildBranchesF stateName startX nextY rest (index+1)
              (max maxY branchYFinal) with
          | none => none
          | some built =>
            some { nodes := ({ id := bid, x := branchX, y := nextY,
                               type := st.type : Node } :: chainNodes)
                     ++ built.nodes,
                   edges := ({ id := stateName ++ "-to-" ++ bid, source := NPVal.nid stateName, target := bid : Edge }
                     :: chainEdges) ++ built.edges,
                   maxY := built.maxY,
                   poss := built.poss ++
                     ((endKey stateName index, NPVal.nid lastId) ::
                       (chainPoss.reverse ++
                         [(bid, NPVal.pos branchX nextY)])) }

/-- The body of one iteration of the `state.Catch.forEach` loop for a rule
with truthy `Next` equal to `tgt`: push the error edge; if the target is a
`Fail`-typed state of the map and not yet processed, push its node at
`(x + HORIZONTAL_SPACING, y)` and mark it processed. -/
def catchStepF (states : List (String × StateSpec)) (stateName : String)
    (x y : Int) (index : Nat) (tgt : String) (σ : LState) : LState :=
  let σ2 : LState :=
    { σ with edges := σ.edges ++
        [{ id := stateName ++ "-catch-" ++ toString index ++ "-" ++ tgt, source := NPVal.nid stateName, target := tgt }] }
  match lookupState states tgt with
  | some ts =>
    if ts.type = some "Fail" ∧ tgt ∉ σ2.processed then
      { σ2 with
        nodes := σ2.nodes ++
          [{ id := tgt, x := x + HORIZONTAL_SPACING, y := y,
             type := ts.type }],
        processed := insert tgt σ2.processed,
        positions := (tgt, NPVal.pos (x + HORIZONTAL_SPACING) y) ::
          σ2.positions }
    else σ2
  | none => σ2

/-- The `state.Catch.forEach` loop: per catch rule with a truthy `Next`,
run `catchStepF`. -/
def processCatchF (states : List (String × StateSpec)) (stateName : String)
    (x y : Int) : List CatchRule → Nat → LState → LState
  | [], _, σ => σ
  | cb :: rest, index, σ =>
    match jsField cb.next with
    | none => processCatchF states stateName x y rest (index+1) σ
    | some tgt =>
      processCatchF states stateName x y rest (index+1)
        (catchStepF states stateName x y index tgt σ)

/-- The `if (state.End)` block at the end of the regular path: push the exit
marker node at `(x, nextY)` and the exit edge, advancing `nextY`. -/
def endBlockF (stateName : String) (endFlag : Bool) (x nextY : Int)
    (σ : LState) : Int × LState :=
  if endFlag then
    (nextY + VERTICAL_SPACING,
     { σ with
       nodes := σ.nodes ++
         [{ id := endNodeId stateName, x := x, y := nextY,
            type := some "End" }],
       edges := σ.edges ++
         [{ id := stateName ++ "-" ++ endNodeId stateName, source := NPVal.nid stateName, target := endNodeId stateName }] })
  else (nextY, σ)

/-- The dispatch test `state.Type === "Parallel" && state.Branches`. -/
def isParallelPath (s : StateSpec) : Bool :=
  s.type == some "Parallel" && s.branches.isSome

/-- The dispatch test `state.Type === "Choice" && state.Choices`. -/
def isChoicePath (s : StateSpec) : Bool :=
  s.type == some "Choice" && s.choices.isSome

/-- The `state.Choices.forEach` loop of the Choice case, parameterised by
the recursive call `child` used for unprocessed targets: per choice with a
truthy `Next` not already in `choiceTargets`, push the labelled edge and,
if the target is unprocessed, recurse into it at the choice's column.
Returns the final `choiceTargets`, `maxChoiceY` and working state. -/
def processChoicesGo
    (child : String → Int → Int → LState → Option (Int × LState))
    (stateName : String) (startX nextY : Int) :
    List ChoiceRule → Nat → List String → Int → LState →
    Option (List String × Int × LState)
  | [], _, targets, maxY, σ => some (targets, maxY, σ)
  | choice :: rest, index, targets, maxY, σ =>
    match jsField choice.next with
    | none =>
      processChoicesGo child stateName startX nextY rest (index+1)
        targets maxY σ
    | some tgt =>
      if targets.contains tgt then
        processChoicesGo child stateName startX nextY rest (index+1)
          targets maxY σ
      else
        let targets2 := targets ++ [tgt]
        let choiceX := startX + (index : Int) * HORIZONTAL_SPACING
        let σ2 : LState :=
          { σ with edges := σ.edges ++
              [{ id := stateName ++ "-choice-" ++ toString index ++ "-"
                   ++ tgt,
                 source := NPVal.nid stateName, target := tgt }] }
        if tgt ∈ σ2.processed then
          processChoicesGo child stateName startX nextY rest (index+1)
            targets2 maxY σ2
        else
          match child tgt choiceX nextY σ2 with
          | none => none
          | some (choiceY, σ3) =>
            processChoicesGo child stateName startX nextY rest
              (index+1) targets2 (max maxY choiceY) σ3

/-- The Parallel dispatch arm of `processState`
(`state.Type === "Parallel" && state.Branches`), parameterised by the
recursive call `child` used for the state's `Next`. -/
def doParallelF
    (child : String → Int → Int → LState → Option (Int × LState))
    (stateName : String) (x nextY : Int) (state : StateSpec)
    (σ1 : LState) : Option (Int × LState) :=
  let branches := state.branches.getD []
  let totalWidth :=
    ((branches.length : Int) - 1) * PARALLEL_BRANCH_SPACING
  let startX := x - totalWidth / 2
  match buildBranchesF stateName startX nextY branches 0 nextY with
  | none => none
  | some built =>
    let σ2 : LState :=
      { nodes := σ1.nodes ++ built.nodes,
        edges := σ1.edges ++ built.edges,
        processed := σ1.processed,
        positions := built.poss ++ σ1.positions }
    match jsField state.next with
    | none => some (built.maxY, σ2)
    | some nxt =>
      let σ3 : LState :=
        { σ2 with edges := σ2.edges ++
            (List.range branches.length).filterMap (fun index =>
              match jsLookup σ2.positions (endKey stateName index) with
              | none => none
              | some v =>
                if npTruthy v then
                  some { id := npToString v ++ "-to-" ++ nxt, source := v,
                         target := nxt }
                else none) }
      child nxt x built.maxY σ3

/-- The Choice dispatch arm of `processState`
(`state.Type === "Choice" && state.Choices`): the choice loop followed by
the `state.Default` handling. -/
def doChoiceF
    (child : String → Int → Int → LState → Option (Int × LState))
    (stateName : String) (x nextY : Int) (state : StateSpec)
    (σ1 : LState) : Option (Int × LState) :=
  let choices := state.choices.getD []
  let choiceCount : Int :=
    (choices.length : Int) +
      (if (jsField state.default).isSome then 1 else 0)
  let totalWidth := (choiceCount - 1) * HORIZONTAL_SPACING
  let startX := x - totalWidth / 2
  match processChoicesGo child stateName startX nextY choices
      0 [] nextY σ1 with
  | none => none
  | some (targets, maxChoiceY, σ2) =>
    match jsField state.default with
    | none => some (maxChoiceY, σ2)
    | some dflt =>
      if targets.contains dflt then some (maxChoiceY, σ2)
      else
        let defaultX :=
          startX + (choices.length : Int) * HORIZONTAL_SPACING
        let σ3 : LState :=
          { σ2 with edges := σ2.edges ++
              [{ id := stateName ++ "-default-" ++ dflt, source := NPVal.nid stateName, target := dflt }] }
        if dflt ∈ σ3.processed then some (maxChoiceY, σ3)
        else
          match child dflt defaultX nextY σ3 with
          | none => none
          | some (defaultY, σ4) => some (max maxChoiceY defaultY, σ4)

/-- The regular dispatch arm of `processState` (every other state kind):
the `Catch` loop, the sequential `Next` edge and recursion, and the `End`
exit marker. -/
def doRegularF (states : List (String × StateSpec))
    (child : String → Int → Int → LState → Option (Int × LState))
    (stateName : String) (x y nextY : Int) (state : StateSpec)
    (σ1 : LState) : Option (Int × LState) :=
  let σ2 := processCatchF states stateName x y state.catchRules 0 σ1
  match jsField state.next with
  | none => some (endBlockF stateName state.endFlag x nextY σ2)
  | some nxt =>
    let σ3 : LState :=
      { σ2 with edges := σ2.edges ++
          [{ id := stateName ++ "-" ++ nxt, source := NPVal.nid stateName,
             target := nxt }] }
    if nxt ∈ σ3.processed then
      some (endBlockF stateName state.endFlag x nextY σ3)
    else
      match child nxt x nextY σ3 with
      | none => none
      | some (nextY2, σ4) =>
        some (endBlockF stateName state.endFlag x nextY2 σ4)

/-- `processState(stateName, x, y)` of the source, with explicit fuel for
the recursion (the fuel passed by `parseStateMachineCore` is proved
sufficient below) and the working state threaded explicitly.  Returns the
`nextY` result and the updated working state. -/
def processStateF (states : List (String × StateSpec)) :
    Nat → String → Int → Int → LState → Option (Int × LState)
  | 0, _, _, _, _ => none
  | fuel+1, stateName, x, y, σ =>
    if stateName ∈ σ.processed then some (y, σ)
    else
      match lookupState states stateName with
      | none => some (y, σ)
      | some state =>
        let σ1 : LState :=
          { nodes := σ.nodes ++
              [{ id := stateName, x := x, y := y, type := state.type }],
            edges := σ.edges,
            processed := insert stateName σ.processed,
            positions := (stateName, NPVal.pos x y) :: σ.positions }
        let nextY := y + VERTICAL_SPACING
        if isParallelPath state then
          doParallelF (processStateF states fuel) stateName x nextY state σ1
        else if isChoicePath state then
          doChoiceF (processStateF states fuel) stateName x nextY state σ1
        else
          doRegularF states (processStateF states fuel) stateName x y nextY
            state σ1

/-- The fuel `parseStateMachineCore` hands to `processStateF`; proved
sufficient for the visited-set-bounded recursion below. -/
def suffFuel (states : List (String × StateSpec)) : Nat :=
  states.length + 1

/-- The body of `parseStateMachine` once a parsed definition object is at
hand: the malformed-input check, the synthesized `__START__` node, the
entry edge, and the traversal from `StartAt`.  `none` means the engine
does not terminate (a Parallel branch walk diverges). -/
def parseStateMachineCore (d : StateMachineDef) : Option Graph :=
  match jsField d.startAt with
  | none => some ⟨[], []⟩
  | some startAt =>
    if d.states.length = 0 then some ⟨[], []⟩
    else
      let σ0 : LState :=
        { nodes := [{ id := "__START__", x := 0, y := 0,
                      type := some "Start" }],
          edges := [{ id := "__START__" ++ "-" ++ startAt, source := NPVal.nid "__START__", target := startAt }],
          processed := ∅,
          positions := [] }
      match processStateF d.states (suffFuel d.states) startAt 0
          VERTICAL_SPACING σ0 with
      | none => none
      | some (_, σ) => some ⟨σ.nodes, σ.edges⟩

/-- `σ'` extends `σ`: nodes and edges have only been appended and the
visited set has only grown. -/
def Grows (σ σ' : LState) : Prop :=
  (∃ t, σ'.nodes = σ.nodes ++ t) ∧ (∃ t, σ'.edges = σ.edges ++ t) ∧
    σ.processed ⊆ σ'.processed

/-- The key set of the `States` map. -/
def keysOf (states : List (String × StateSpec)) : Finset String :=
  (states.map Prod.fst).toFinset

/-- What a processed name in a traversal result tells us: either it was
already processed, or it is a key of the map and a node with that id is in
the result. -/
def ProcOut (states : List (String × StateSpec)) (σ σ' : LState) : Prop :=
  ∀ k ∈ σ'.processed, k ∈ σ.processed ∨
    (k ∈ keysOf states ∧ ∃ n ∈ σ'.nodes, n.id = k)

/-- The number of `States` keys not yet in the visited set. -/
def unprocCard (states : List (String × StateSpec)) (σ : LState) : Nat :=
  (keysOf states \ σ.processed).card

/-- One Parallel branch's walk halts: if the branch has a valid start
state, its `Next` chain stops within the number of branch states (by the
pigeonhole argument, a longer walk revisits a state and the source's
`while` loop never stops). -/
def branchWalkOk (branch : Branch) : Bool :=
  match jsField branch.startAt with
  | none => true
  | some s =>
    match jsLookup branch.states s with
    | none => true
    | some st => (chainF branch.states (branch.states.length + 1) st).isSome

/-- All Parallel branch walks appearing in the `States` map halt. -/
def BranchesOk (states : List (String × StateSpec)) : Prop :=
  ∀ p ∈ states, ∀ branch ∈ p.2.branches.getD [], branchWalkOk branch = true

instance : DecidablePred BranchesOk := fun states =>
  List.decidableBAll _ states

/-! ### Concrete definitions used by counterexamples and witnesses -/

/-- The transition targets the engine follows out of a state, by its
dispatch path: the choice targets and the default for a Choice state with
a `Choices` field, the `Next` successor otherwise (including the rejoin
successor of a Parallel state). -/
def followedTargets (s : StateSpec) : List String :=
  if isParallelPath s then (jsField s.next).toList
  else if isChoicePath s then
    ((s.choices.getD []).filterMap (fun c => jsField c.next)) ++
      (jsField s.default).toList
  else (jsField s.next).toList

/-- The catch targets the engine follows (the `Catch` loop only runs on
the regular dispatch path). -/
def catchTargets (s : StateSpec) : List String :=
  if isParallelPath s then []
  else if isChoicePath s then []
  else s.catchRules.filterMap (fun cb => jsField cb.next)

/-- Every transition target the engine follows is a key of the `States`
map, and so is the start state. -/
def TargetsOk (d : StateMachineDef) : Prop :=
  (∀ s ∈ (jsField d.startAt).toList, s ∈ keysOf d.states) ∧
  ∀ p ∈ d.states, ∀ t ∈ followedTargets p.2, t ∈ keysOf d.states

/-- Every catch target the engine follows is a key whose state kind is
`Fail`. -/
def CatchOk (d : StateMachineDef) : Prop :=
  ∀ p ∈ d.states, ∀ t ∈ catchTargets p.2,
    (lookupState d.states t).map StateSpec.type = some (some "Fail")

instance (d : StateMachineDef) : Decidable (TargetsOk d) := by
  unfold TargetsOk
  infer_instance

instance (d : StateMachineDef) : Decidable (CatchOk d) := by
  unfold CatchOk
  infer_instance

/-- Fail-kind states carry no `Next` transition (the spec's data model
stipulates `next` is absent on terminal kinds). -/
def FailInert (states : List (String × StateSpec)) : Prop :=
  ∀ p ∈ states, p.2.type = some "Fail" → jsField p.2.next = none

instance : DecidablePred FailInert := fun states => by
  unfold FailInert
  infer_instance

/-- Reachability from the start state by following the engine's
transitions (`next`, choice targets, `defaultNext`, the Parallel rejoin
successor), restricted to states present in the map. -/
inductive Reach (d : StateMachineDef) : String → Prop where
  | start : ∀ s, jsField d.startAt = some s →
      (lookupState d.states s).isSome → Reach d s
  | step : ∀ p spec t, Reach d p → lookupState d.states p = some spec →
      t ∈ followedTargets spec → (lookupState d.states t).isSome →
      Reach d t

/-- Every newly processed name has all its followed key-targets processed
in the result. -/
def FollowOut (states : List (String × StateSpec)) (σ σ' : LState) :
    Prop :=
  ∀ m ∈ σ'.processed, m ∈ σ.processed ∨
    ∀ spec, lookupState states m = some spec →
      ∀ t ∈ followedTargets spec, (lookupState states t).isSome →
        t ∈ σ'.processed

/-- Every name in the visited set has a node with that id. -/
def ProcNodes (σ : LState) : Prop :=
  ∀ k ∈ σ.processed, ∃ nd ∈ σ.nodes, nd.id = k

/-- Does the character list start with the pattern? -/
def seqAt : List Char → List Char → Bool
  | [], _ => true
  | _ :: _, [] => false
  | p :: ps, c :: cs => p == c && seqAt ps cs

/-- Does the pattern occur contiguously anywhere in the character list? -/
def hasSeq (pat : List Char) : List Char → Bool
  | [] => seqAt pat []
  | c :: rest => seqAt pat (c :: rest) || hasSeq pat rest

/-- A state identifier that cannot collide with the engine's synthesized
ids: non-empty, not starting with an underscore (so distinct from
`__START__` and the `__END_..__` markers) and not containing the infix
`_branch_` (so distinct from Parallel branch node ids). -/
def cleanKey (k : String) : Bool :=
  (match k.data with
   | [] => false
   | c :: _ => !(c == '_')) && !(hasSeq "_branch_".data k.data)

/-- All keys of the `States` map are clean identifiers. -/
def CleanIds (states : List (String × StateSpec)) : Prop :=
  ∀ p ∈ states, cleanKey p.1 = true

instance : DecidablePred CleanIds := fun states => by
  unfold CleanIds
  infer_instance

/-- The number of nodes carrying the given id. -/
def nodeCount (nodes : List Node) (k : String) : Nat :=
  (nodes.filter (fun nd => nd.id == k)).length

/-- Per key of the `States` map: at most one node, and none before the key
is processed. -/
def NodesInv (states : List (String × StateSpec)) (σ : LState) : Prop :=
  ∀ k ∈ keysOf states,
    nodeCount σ.nodes k ≤ 1 ∧ (k ∉ σ.processed → nodeCount σ.nodes k = 0)

/-- All new edges of `σ'` relative to `σ` have both endpoints among the
nodes of `σ'`. -/
def ClosedOut (σ σ' : LState) : Prop :=
  ∀ e ∈ σ'.edges, e ∈ σ.edges ∨
    ((∃ nd ∈ σ'.nodes, NPVal.nid nd.id = e.source) ∧
     (∃ nd ∈ σ'.nodes, nd.id = e.target))

/-- The invariant of the shared `nodePositions` map: every stored node-id
string names a pushed node, and every stored position object sits under a
key that is either a clean state identifier or a branch node id of an
already-visited Parallel state. -/
def PosInv (σ : LState) : Prop :=
  ∀ kv ∈ σ.positions,
    (∀ m, kv.2 = NPVal.nid m → ∃ nd ∈ σ.nodes, nd.id = m) ∧
    (∀ a b, kv.2 = NPVal.pos a b → cleanKey kv.1 = true ∨
      ∃ p j inner, kv.1 = branchNodeId p j inner ∧ cleanKey p = true ∧
        p ∈ σ.processed)

/-- A plain `Task` state with the given `Next` and `End` fields. -/
def mkTask (next : Option String) (endFlag : Bool) : StateSpec :=
  { type := some "Task", next := next, endFlag := endFlag,
    catchRules := [], choices := none, default := none, branches := none }

/-- A `Task` branch state with the given `Next`. -/
def mkBranchTask (next : Option String) : BranchState :=
  { type := some "Task", next := next }

/-- The `nodePositions` pollution scenario: a state literally named
`P_branch_0_end` is visited first and stores its position object in the
shared `nodePositions` map under that key; the Parallel state `P` has a
single invalid branch (falsy `StartAt`), so the branch loop writes no
`_end` entry of its own and the rejoin loop reads the stale position
object. -/
def dPolluted : StateMachineDef :=
  { startAt := some "P_branch_0_end",
    states :=
      [("P_branch_0_end", mkTask (some "P") false),
       ("P", { type := some "Parallel", next := some "S", endFlag := false,
               catchRules := [], choices := none, default := none,
               branches := some [ { startAt := none, states := [] } ] }),
       ("S", mkTask none true)] }

/-- The two states of a Parallel branch whose `Next` chain is the cycle
`A -> B -> A`. -/
def cycBranchStates : List (String × BranchState) :=
  [("A", mkBranchTask (some "B")), ("B", mkBranchTask (some "A"))]

/-- A definition whose single Parallel state has one branch with the
internal `Next` cycle `A -> B -> A`. -/
def dBranchCycle : StateMachineDef :=
  { startAt := some "P",
    states :=
      [("P", { type := some "Parallel", next := none, endFlag := false,
               catchRules := [], choices := none, default := none,
               branches := some
                 [{ startAt := some "A", states := cycBranchStates }] })] }

/-- A two-state definition with the main-graph cycle `A -> B -> A`
(the spec's cycle-termination scenario). -/
def dCycle : StateMachineDef :=
  { startAt := some "A",
    states := [("A", mkTask (some "B") false),
               ("B", mkTask (some "A") false)] }

/-- A definition whose `StartAt` is not a key of its non-empty `States`
map. -/
def dBadStart : StateMachineDef :=
  { startAt := some "X", states := [("A", mkTask none true)] }

/-- A definition whose single state has a `Next` that is not a key of the
`States` map. -/
def dDangling : StateMachineDef :=
  { startAt := some "A", states := [("A", mkTask (some "GHOST") false)] }

/-- A definition in which a `Fail` state carries its own `Next`: `A` has a
catch rule and a `Next` both pointing at the Fail state `F`, whose `Next`
is `G`.  The catch handling marks `F` processed without following its
transitions, so `G` is reachable but never laid out. -/
def dFailNext : StateMachineDef :=
  { startAt := some "A",
    states :=
      [("A", { type := some "Task", next := some "F", endFlag := false,
               catchRules := [{ next := some "F" }], choices := none,
               default := none, branches := none }),
       ("F", { type := some "Fail", next := some "G", endFlag := false,
               catchRules := [], choices := none, default := none,
               branches := none }),
       ("G", mkTask none true)] }

/-- The Parallel-rejoin scenario: a Parallel state with two branches of two
states each, followed by a shared successor `S`. -/
def dParallel : StateMachineDef :=
  { startAt := some "P",
    states :=
      [("P", { type := some "Parallel", next := some "S", endFlag := false,
               catchRules := [], choices := none, default := none,
               branches := some
                 [ { startAt := some "A1",
                     states := [("A1", mkBranchTask (some "A2")),
                                ("A2", mkBranchTask none)] },
                   { startAt := some "B1",
                     states := [("B1", mkBranchTask (some "B2")),
                                ("B2", mkBranchTask none)] } ] }),
       ("S", mkTask none true)] }

/-- The graph the engine produces for `dParallel`. -/
def gParallel : Graph :=
  { nodes :=
      [ { id := "__START__", x := 0, y := 0, type := some "Start" },
        { id := "P", x := 0, y := 100, type := some "Parallel" },
        { id := "P_branch_0_A1", x := -100, y := 200, type := some "Task" },
        { id := "P_branch_0_A2", x := -100, y := 300, type := some "Task" },
        { id := "P_branch_1_B1", x := 100, y := 200, type := some "Task" },
        { id := "P_branch_1_B2", x := 100, y := 300, type := some "Task" },
        { id := "S", x := 0, y := 400, type := some "Task" },
        { id := "__END_S__", x := 0, y := 500, type := some "End" } ],
    edges :=
      [ { id := "__START__-P", source := NPVal.nid "__START__", target := "P" },
        { id := "P-to-P_branch_0_A1", source := NPVal.nid "P", target := "P_branch_0_A1" },
        { id := "P_branch_0_A1-to-P_branch_0_A2", source := NPVal.nid "P_branch_0_A1", target := "P_branch_0_A2" },
        { id := "P-to-P_branch_1_B1", source := NPVal.nid "P", target := "P_branch_1_B1" },
        { id := "P_branch_1_B1-to-P_branch_1_B2", source := NPVal.nid "P_branch_1_B1", target := "P_branch_1_B2" },
        { id := "P_branch_0_A2-to-S", source := NPVal.nid "P_branch_0_A2", target := "S" },
        { id := "P_branch_1_B2-to-S", source := NPVal.nid "P_branch_1_B2", target := "S" },
        { id := "S-__END_S__", source := NPVal.nid "S", target := "__END_S__" } ] }

/-- The possible arguments of `parseStateMachine(definition)`.  A string
argument is represented together with the outcome of the runtime's
`JSON.parse` on it: `jsonStr none` is a string on which `JSON.parse`
throws (e.g. `"{not json"`), `jsonStr (some d)` a string parsing to the
definition object `d`.  `undef` is `undefined`, for which
`JSON.parse(undefined)` throws as well. -/
inductive LayoutInput where
  | undef : LayoutInput
  | jsonStr : Option StateMachineDef → LayoutInput
  | objInput : StateMachineDef → LayoutInput

/-- `parseStateMachine` including its argument normalisation: falsy or
string arguments go through `JSON.parse`, a parse failure yields the empty
graph. -/
def parseStateMachine : LayoutInput → Option Graph
  | .undef => some ⟨[], []⟩
  | .jsonStr none => some ⟨[], []⟩
  | .jsonStr (some d) => parseStateMachineCore d
  | .objInput d => parseStateMachineCore d

/-- The exit-marker artifact for state `s`: a node with id `s`, an exit
marker node in the same column strictly below it, and the exit edge from
`s` to the marker. -/
def MarkerFor (s : String) (σ : LState) : Prop :=
  ∃ nd ∈ σ.nodes, nd.id = s ∧
    ∃ me ∈ σ.nodes, me.id = endNodeId s ∧ me.x = nd.x ∧ nd.y < me.y ∧
      ∃ e ∈ σ.edges, e.source = NPVal.nid s ∧ e.target = endNodeId s

/-- Every processed state outside the pending set `P` (the in-progress
states of the call stack) that the engine dispatches on the regular path
(kind neither Parallel-with-branches nor Choice-with-choices, and not a
catch-created `Fail` node) and whose `End` flag is truthy has its
exit-marker artifact. -/
def EndOkP (states : List (String × StateSpec)) (P : Finset String)
    (σ : LState) : Prop :=
  ∀ s ∈ σ.processed, s ∉ P →
    ∀ spec, lookupState states s = some spec →
      isParallelPath spec = false → isChoicePath spec = false →
      spec.type ≠ some "Fail" → spec.endFlag = true → MarkerFor s σ

/-- The two ways a name other than the traversal root can enter
`processedStates`: as a followed transition target of some state of the
map, or as a `Fail`-kind catch target (the only targets the catch loop
marks processed). -/
def ProvT (states : List (String × StateSpec)) (t : String) : Prop :=
  (∃ p ∈ states, t ∈ followedTargets p.2) ∨
    ∃ ts, lookupState states t = some ts ∧ ts.type = some "Fail"

/-- No node of the working state is the exit marker of state `s`. -/
def NoEndNode (s : String) (σ : LState) : Prop :=
  ∀ nd ∈ σ.nodes, nd.id ≠ endNodeId s

/-- The body of `parseStateMachine` with the traversal recursion budget
exposed as a parameter, to state that the budget `parseStateMachineCore`
uses lies in the region where the result no longer depends on it. -/
def parseStateMachineFuel (fuel : Nat) (d : StateMachineDef) :
    Option Graph :=
  match jsField d.startAt with
  | none => some ⟨[], []⟩
  | some startAt =>
    if d.states.length = 0 then some ⟨[], []⟩
    else
      let σ0 : LState :=
        { nodes := [{ id := "__START__", x := 0, y := 0,
                      type := some "Start" }],
          edges := [{ id := "__START__" ++ "-" ++ startAt, source := NPVal.nid "__START__", target := startAt }],
          processed := ∅,
          positions := [] }
      match processStateF d.states fuel startAt 0 VERTICAL_SPACING σ0 with
      | none => none
      | some (_, σ) => some ⟨σ.nodes, σ.edges⟩

/-- A Parallel state with a truthy `End` flag: the Parallel dispatch arm
returns before the `if (state.End)` block, so no exit marker is created. -/
def dParallelEnd : StateMachineDef :=
  { startAt := some "P",
    states :=
      [("P", { type := some "Parallel", next := none, endFlag := true,
               catchRules := [], choices := none, default := none,
               branches := some
                 [ { startAt := some "A",
                     states := [("A", mkBranchTask none)] } ] })] }

/-- A Choice state two of whose rules target the same state `T`. -/
def dChoiceDup : StateMachineDef :=
  { startAt := some "CH",
    states :=
      [("CH", { type := some "Choice", next := none, endFlag := false,
                catchRules := [],
                choices := some [{ next := some "T" }, { next := some "T" }],
                default := none, branches := none }),
       ("T", mkTask none true)] }

/-- The catch side-lane scenario: a Task state `T` with a catch rule
targeting the `Fail` state `F`, which is referenced nowhere else. -/
def dCatch : StateMachineDef :=
  { startAt := some "T",
    states :=
      [("T", { type := some "Task", next := none, endFlag := true,
               catchRules := [{ next := some "F" }], choices := none,
               default := none, branches := none }),
       ("F", { type := some "Fail", next := none, endFlag := false,
               catchRules := [], choices := none, default := none,
               branches := none })] }

/-- A non-Fail state `H` that exists in the map but is referenced only as
the target of a catch rule. -/
def dCatchTask : StateMachineDef :=
  { startAt := some "A",
    states :=
      [("A", { type := some "Task", next := none, endFlag := true,
               catchRules := [{ next := some "H" }], choices := none,
               default := none, branches := none }),
       ("H", mkTask none true)] }

/-! ### Monotonicity of the traversal

`processState` only ever pushes onto `nodes` and `edges` and only ever adds
to `processedStates`; `Grows σ σ'` captures that `σ'` is `σ` after some
such pushes. -/

theorem Grows_refl (σ : LState) : Grows σ σ :=
  ⟨⟨[], by simp⟩, ⟨[], by simp⟩, Finset.Subset.refl _⟩

theorem Grows_trans {a b c : LState} (h1 : Grows a b) (h2 : Grows b c) :
    Grows a c := by
  obtain ⟨⟨t1, ht1⟩, ⟨u1, hu1⟩, hp1⟩ := h1
  obtain ⟨⟨t2, ht2⟩, ⟨u2, hu2⟩, hp2⟩ := h2
  exact ⟨⟨t1 ++ t2, by simp [ht2, ht1]⟩, ⟨u1 ++ u2, by simp [hu2, hu1]⟩,
    Finset.Subset.trans hp1 hp2⟩

theorem Grows.node_mem {σ σ' : LState} (h : Grows σ σ') {n : Node}
    (hn : n ∈ σ.nodes) : n ∈ σ'.nodes := by
  obtain ⟨⟨t, ht⟩, _, _⟩ := h
  simp [ht, hn]

theorem Grows.edge_mem {σ σ' : LState} (h : Grows σ σ') {e : Edge}
    (he : e ∈ σ.edges) : e ∈ σ'.edges := by
  obtain ⟨_, ⟨u, hu⟩, _⟩ := h
  simp [hu, he]

theorem Grows.processed_mem {σ σ' : LState} (h : Grows σ σ') {k : String}
    (hk : k ∈ σ.processed) : k ∈ σ'.processed := h.2.2 hk

/-- One step of the catch loop only appends and only grows the visited
set. -/
theorem catchStepF_grows (states : List (String × StateSpec))
    (stateName : String) (x y : Int) (index : Nat) (tgt : String)
    (σ : LState) :
    Grows σ (catchStepF states stateName x y index tgt σ) := by
  unfold catchStepF
  dsimp only
  split
  · split
    · exact ⟨⟨_, rfl⟩, ⟨_, rfl⟩, Finset.subset_insert _ _⟩
    · exact ⟨⟨[], by simp⟩, ⟨_, rfl⟩, Finset.Subset.refl _⟩
  · exact ⟨⟨[], by simp⟩, ⟨_, rfl⟩, Finset.Subset.refl _⟩

theorem processCatchF_grows (states : List (String × StateSpec))
    (stateName : String) (x y : Int) :
    ∀ (rules : List CatchRule) (index : Nat) (σ : LState),
      Grows σ (processCatchF states stateName x y rules index σ)
  | [], _, σ => Grows_refl σ
  | cb :: rest, index, σ => by
    unfold processCatchF
    cases hn : jsField cb.next with
    | none =>
      exact processCatchF_grows states stateName x y rest (index+1) σ
    | some tgt =>
      exact Grows_trans (catchStepF_grows states stateName x y index tgt σ)
        (processCatchF_grows states stateName x y rest (index+1) _)

theorem endBlockF_grows (stateName : String) (endFlag : Bool)
    (x nextY : Int) (σ : LState) :
    Grows σ (endBlockF stateName endFlag x nextY σ).2 := by
  unfold endBlockF
  split
  · exact ⟨⟨_, rfl⟩, ⟨_, rfl⟩, Finset.Subset.refl _⟩
  · exact Grows_refl σ

theorem processChoicesGo_grows
    {child : String → Int → Int → LState → Option (Int × LState)}
    (hchild : ∀ n x y σ r, child n x y σ = some r → Grows σ r.2)
    (stateName : String) (startX nextY : Int) :
    ∀ (cs : List ChoiceRule) (index : Nat) (targets : List String)
      (maxY : Int) (σ : LState) (res : List String × Int × LState),
      processChoicesGo child stateName startX nextY cs index targets maxY σ
        = some res → Grows σ res.2.2
  | [], index, targets, maxY, σ, res => by
    intro h
    unfold processChoicesGo at h
    cases h
    exact Grows_refl σ
  | choice :: rest, index, targets, maxY, σ, res => by
    intro h
    unfold processChoicesGo at h
    dsimp only at h
    split at h
    · exact processChoicesGo_grows hchild stateName startX nextY rest
        (index+1) targets maxY σ res h
    · split at h
      · exact processChoicesGo_grows hchild stateName startX nextY rest
          (index+1) targets maxY σ res h
      · split at h
        · refine Grows_trans ?_
            (processChoicesGo_grows hchild stateName startX nextY rest
              (index+1) _ _ _ res h)
          exact ⟨⟨[], by simp⟩, ⟨_, rfl⟩, Finset.Subset.refl _⟩
        · split at h
          · simp at h
          · rename_i choiceY σ3 hc
            refine Grows_trans ?_
              (Grows_trans (hchild _ _ _ _ _ hc)
                (processChoicesGo_grows hchild stateName startX nextY rest
                  (index+1) _ _ _ res h))
            exact ⟨⟨[], by simp⟩, ⟨_, rfl⟩, Finset.Subset.refl _⟩

theorem doParallelF_grows
    {child : String → Int → Int → LState → Option (Int × LState)}
    (hchild : ∀ n x y σ r, child n x y σ = some r → Grows σ r.2)
    (stateName : String) (x nextY : Int) (state : StateSpec) (σ1 : LState)
    (res : Int × LState)
    (h : doParallelF child stateName x nextY state σ1 = some res) :
    Grows σ1 res.2 := by
  unfold doParallelF at h
  dsimp only at h
  split at h
  · simp at h
  · rename_i built hb
    split at h
    · cases h
      exact ⟨⟨_, rfl⟩, ⟨_, rfl⟩, Finset.Subset.refl _⟩
    · rename_i nxt hnx
      refine Grows_trans ?_ (hchild _ _ _ _ _ h)
      exact ⟨⟨_, rfl⟩, ⟨_, List.append_assoc _ _ _⟩, Finset.Subset.refl _⟩

theorem doChoiceF_grows
    {child : String → Int → Int → LState → Option (Int × LState)}
    (hchild : ∀ n x y σ r, child n x y σ = some r → Grows σ r.2)
    (stateName : String) (x nextY : Int) (state : StateSpec) (σ1 : LState)
    (res : Int × LState)
    (h : doChoiceF child stateName x nextY state σ1 = some res) :
    Grows σ1 res.2 := by
  unfold doChoiceF at h
  dsimp only at h
  split at h
  · simp at h
  · rename_i targets maxChoiceY σ2 hgo
    have hg2 : Grows σ1 σ2 :=
      processChoicesGo_grows hchild _ _ _ _ _ _ _ _ _ hgo
    split at h
    · cases h
      exact hg2
    · rename_i dflt hd
      split at h
      · cases h
        exact hg2
      · split at h
        · cases h
          exact Grows_trans hg2
            ⟨⟨[], by simp⟩, ⟨_, rfl⟩, Finset.Subset.refl _⟩
        · split at h
          · simp at h
          · rename_i defaultY σ4 hc
            cases h
            refine Grows_trans hg2
              (Grows_trans ?_ (hchild _ _ _ _ (defaultY, σ4) hc))
            exact ⟨⟨[], by simp⟩, ⟨_, rfl⟩, Finset.Subset.refl _⟩

theorem doRegularF_grows (states : List (String × StateSpec))
    {child : String → Int → Int → LState → Option (Int × LState)}
    (hchild : ∀ n x y σ r, child n x y σ = some r → Grows σ r.2)
    (stateName : String) (x y nextY : Int) (state : StateSpec)
    (σ1 : LState) (res : Int × LState)
    (h : doRegularF states child stateName x y nextY state σ1 = some res) :
    Grows σ1 res.2 := by
  unfold doRegularF at h
  dsimp only at h
  have hg2 : Grows σ1
      (processCatchF states stateName x y state.catchRules 0 σ1) :=
    processCatchF_grows states stateName x y state.catchRules 0 σ1
  split at h
  · cases h
    exact Grows_trans hg2 (endBlockF_grows _ _ _ _ _)
  · rename_i nxt hnx
    split at h
    · cases h
      refine Grows_trans hg2 (Grows_trans ?_
        (endBlockF_grows stateName state.endFlag x nextY _))
      exact ⟨⟨[], by simp⟩, ⟨_, rfl⟩, Finset.Subset.refl _⟩
    · split at h
      · simp at h
      · rename_i nextY2 σ4 hc
        cases h
        refine Grows_trans hg2 (Grows_trans ?_
          (Grows_trans (hchild _ _ _ _ (nextY2, σ4) hc)
            (endBlockF_grows stateName state.endFlag x nextY2 σ4)))
        exact ⟨⟨[], by simp⟩, ⟨_, rfl⟩, Finset.Subset.refl _⟩

theorem processStateF_grows (states : List (String × StateSpec)) :
    ∀ (fuel : Nat) (stateName : String) (x y : Int) (σ : LState)
      (res : Int × LState),
      processStateF states fuel stateName x y σ = some res → Grows σ res.2
  | 0, stateName, x, y, σ, res => by intro h; cases h
  | fuel+1, stateName, x, y, σ, res => by
    intro h
    have hchild : ∀ n x y σ r,
        processStateF states fuel n x y σ = some r → Grows σ r.2 :=
      fun n x y σ r hr => processStateF_grows states fuel n x y σ r hr
    unfold processStateF at h
    split at h
    · cases h
      exact Grows_refl σ
    · rename_i hproc
      split at h
      · cases h
        exact Grows_refl σ
      · rename_i state hl
        dsimp only at h
        have hg1 : Grows σ (LState.mk
            (σ.nodes ++
              [{ id := stateName, x := x, y := y, type := state.type }])
            σ.edges (insert stateName σ.processed)
            ((stateName, NPVal.pos x y) :: σ.positions)) :=
          ⟨⟨_, rfl⟩, ⟨[], by simp⟩, Finset.subset_insert _ _⟩
        split at h
        · exact Grows_trans hg1 (doParallelF_grows hchild _ _ _ _ _ _ h)
        · split at h
          · exact Grows_trans hg1 (doChoiceF_grows hchild _ _ _ _ _ _ h)
          · exact Grows_trans hg1
              (doRegularF_grows states hchild _ _ _ _ _ _ _ h)

/-! ### Processed names are keys and have nodes

Every name ever added to `processedStates` is a key of the `States` map
(both additions are guarded by a successful lookup) and a node with that
id is pushed at the moment the name is added. -/

theorem jsLookup_mem {α : Type} {l : List (String × α)} {k : String}
    {v : α} (h : jsLookup l k = some v) : (k, v) ∈ l := by
  unfold jsLookup at h
  cases hf : l.find? (fun p => p.1 == k) with
  | none => rw [hf] at h; cases h
  | some p =>
    rw [hf] at h
    cases h
    have hp := List.find?_some hf
    have hm := List.mem_of_find?_eq_some hf
    have : p.1 = k := by simpa using hp
    obtain ⟨p1, p2⟩ := p
    simp only at this
    rw [this] at hm
    exact hm

theorem lookupState_mem_keys {states : List (String × StateSpec)}
    {k : String} {v : StateSpec} (h : lookupState states k = some v) :
    k ∈ keysOf states := by
  have := jsLookup_mem h
  simp only [keysOf, List.mem_toFinset, List.mem_map]
  exact ⟨(k, v), this, rfl⟩

theorem endBlockF_processed (stateName : String) (endFlag : Bool)
    (x nextY : Int) (σ : LState) :
    ((endBlockF stateName endFlag x nextY σ).2).processed = σ.processed := by
  unfold endBlockF
  split <;> rfl

theorem ProcOut_refl (states : List (String × StateSpec)) (σ : LState) :
    ProcOut states σ σ := fun k hk => Or.inl hk

/-- `ProcOut` composes along a `Grows` tail. -/
theorem ProcOut_trans {states : List (String × StateSpec)} {a b c : LState}
    (h1 : ProcOut states a b) (h2 : ProcOut states b c) (hg : Grows b c) :
    ProcOut states a c := by
  intro k hk
  rcases h2 k hk with hb | ⟨hkey, n, hn, hid⟩
  · rcases h1 k hb with ha | ⟨hkey, n, hn, hid⟩
    · exact Or.inl ha
    · exact Or.inr ⟨hkey, n, hg.node_mem hn, hid⟩
  · exact Or.inr ⟨hkey, n, hn, hid⟩

theorem catchStepF_procOut (states : List (String × StateSpec))
    (stateName : String) (x y : Int) (index : Nat) (tgt : String)
    (σ : LState) :
    ProcOut states σ (catchStepF states stateName x y index tgt σ) := by
  unfold catchStepF
  dsimp only
  split
  · rename_i ts hts
    split
    · intro k hk
      rcases Finset.mem_insert.mp hk with hkt | hkσ
      · subst hkt
        exact Or.inr ⟨lookupState_mem_keys hts,
          ⟨{ id := k, x := x + HORIZONTAL_SPACING, y := y, type := ts.type },
            by simp, rfl⟩⟩
      · exact Or.inl hkσ
    · exact fun k hk => Or.inl hk
  · exact fun k hk => Or.inl hk

theorem processCatchF_procOut (states : List (String × StateSpec))
    (stateName : String) (x y : Int) :
    ∀ (rules : List CatchRule) (index : Nat) (σ : LState),
      ProcOut states σ (processCatchF states stateName x y rules index σ)
  | [], _, σ => ProcOut_refl states σ
  | cb :: rest, index, σ => by
    unfold processCatchF
    cases hn : jsField cb.next with
    | none =>
      exact processCatchF_procOut states stateName x y rest (index+1) σ
    | some tgt =>
      exact ProcOut_trans (catchStepF_procOut states stateName x y index
          tgt σ)
        (processCatchF_procOut states stateName x y rest (index+1) _)
        (processCatchF_grows states stateName x y rest (index+1) _)

theorem processChoicesGo_procOut
    {states : List (String × StateSpec)}
    {child : String → Int → Int → LState → Option (Int × LState)}
    (hgrow : ∀ n x y σ r, child n x y σ = some r → Grows σ r.2)
    (hchild : ∀ n x y σ r, child n x y σ = some r →
      ProcOut states σ r.2)
    (stateName : String) (startX nextY : Int) :
    ∀ (cs : List ChoiceRule) (index : Nat) (targets : List String)
      (maxY : Int) (σ : LState) (res : List String × Int × LState),
      processChoicesGo child stateName startX nextY cs index targets maxY σ
        = some res → ProcOut states σ res.2.2
  | [], index, targets, maxY, σ, res => by
    intro h
    unfold processChoicesGo at h
    cases h
    exact ProcOut_refl states σ
  | choice :: rest, index, targets, maxY, σ, res => by
    intro h
    unfold processChoicesGo at h
    dsimp only at h
    split at h
    · exact processChoicesGo_procOut hgrow hchild stateName startX nextY
        rest (index+1) targets maxY σ res h
    · split at h
      · exact processChoicesGo_procOut hgrow hchild stateName startX nextY
          rest (index+1) targets maxY σ res h
      · split at h
        · intro k hk
          rcases processChoicesGo_procOut hgrow hchild stateName startX
              nextY rest (index+1) _ _ _ res h k hk with h1 | h2
          · exact Or.inl h1
          · exact Or.inr h2
        · split at h
          · simp at h
          · rename_i choiceY σ3 hc
            refine ProcOut_trans
              (ProcOut_trans ?_
                (hchild _ _ _ _ (choiceY, σ3) hc)
                (hgrow _ _ _ _ (choiceY, σ3) hc))
              (processChoicesGo_procOut hgrow hchild stateName startX nextY
                rest (index+1) _ _ _ res h)
              (processChoicesGo_grows hgrow stateName startX nextY rest
                (index+1) _ _ _ res h)
            exact fun k hk => Or.inl hk

theorem doParallelF_procOut
    {states : List (String × StateSpec)}
    {child : String → Int → Int → LState → Option (Int × LState)}
    (hgrow : ∀ n x y σ r, child n x y σ = some r → Grows σ r.2)
    (hchild : ∀ n x y σ r, child n x y σ = some r → ProcOut states σ r.2)
    (stateName : String) (x nextY : Int) (state : StateSpec) (σ1 : LState)
    (res : Int × LState)
    (h : doParallelF child stateName x nextY state σ1 = some res) :
    ProcOut states σ1 res.2 := by
  unfold doParallelF at h
  dsimp only at h
  split at h
  · simp at h
  · rename_i built hb
    split at h
    · cases h
      exact fun k hk => Or.inl hk
    · rename_i nxt hnx
      intro k hk
      rcases hchild _ _ _ _ _ h k hk with h1 | h2
      · exact Or.inl h1
      · exact Or.inr h2

theorem doChoiceF_procOut
    {states : List (String × StateSpec)}
    {child : String → Int → Int → LState → Option (Int × LState)}
    (hgrow : ∀ n x y σ r, child n x y σ = some r → Grows σ r.2)
    (hchild : ∀ n x y σ r, child n x y σ = some r → ProcOut states σ r.2)
    (stateName : String) (x nextY : Int) (state : StateSpec) (σ1 : LState)
    (res : Int × LState)
    (h : doChoiceF child stateName x nextY state σ1 = some res) :
    ProcOut states σ1 res.2 := by
  unfold doChoiceF at h
  dsimp only at h
  split at h
  · simp at h
  · rename_i targets maxChoiceY σ2 hgo
    have hgo2 : ProcOut states σ1 σ2 :=
      processChoicesGo_procOut hgrow hchild _ _ _ _ _ _ _ _ _ hgo
    have hgo2g : Grows σ1 σ2 :=
      processChoicesGo_grows hgrow _ _ _ _ _ _ _ _ _ hgo
    split at h
    · cases h
      exact hgo2
    · rename_i dflt hd
      split at h
      · cases h
        exact hgo2
      · split at h
        · cases h
          intro k hk
          rcases hgo2 k hk with h1 | ⟨hkey, n, hn, hid⟩
          · exact Or.inl h1
          · exact Or.inr ⟨hkey, n, by simp [hn], hid⟩
        · split at h
          · simp at h
          · rename_i defaultY σ4 hc
            cases h
            refine ProcOut_trans hgo2
              (ProcOut_trans ?_
                (hchild _ _ _ _ (defaultY, σ4) hc)
                (hgrow _ _ _ _ (defaultY, σ4) hc))
              (Grows_trans ?_ (hgrow _ _ _ _ (defaultY, σ4) hc))
            · exact fun k hk => Or.inl hk
            · exact ⟨⟨[], by simp⟩, ⟨_, rfl⟩, Finset.Subset.refl _⟩

theorem doRegularF_procOut
    (states : List (String × StateSpec))
    {child : String → Int → Int → LState → Option (Int × LState)}
    (hgrow : ∀ n x y σ r, child n x y σ = some r → Grows σ r.2)
    (hchild : ∀ n x y σ r, child n x y σ = some r → ProcOut states σ r.2)
    (stateName : String) (x y nextY : Int) (state : StateSpec)
    (σ1 : LState) (res : Int × LState)
    (h : doRegularF states child stateName x y nextY state σ1 = some res) :
    ProcOut states σ1 res.2 := by
  unfold doRegularF at h
  dsimp only at h
  have hcat : ProcOut states σ1
      (processCatchF states stateName x y state.catchRules 0 σ1) :=
    processCatchF_procOut states stateName x y state.catchRules 0 σ1
  split at h
  · cases h
    refine ProcOut_trans hcat ?_ (endBlockF_grows _ _ _ _ _)
    intro k hk
    rw [endBlockF_processed] at hk
    exact Or.inl hk
  · rename_i nxt hnx
    split at h
    · cases h
      refine ProcOut_trans hcat ?_
        (Grows_trans ?_ (endBlockF_grows stateName state.endFlag x nextY _))
      · intro k hk
        rw [endBlockF_processed] at hk
        exact Or.inl hk
      · exact ⟨⟨[], by simp⟩, ⟨_, rfl⟩, Finset.Subset.refl _⟩
    · split at h
      · simp at h
      · rename_i nextY2 σ4 hc
        cases h
        refine ProcOut_trans hcat ?_
          (Grows_trans ?_
            (Grows_trans (hgrow _ _ _ _ (nextY2, σ4) hc)
              (endBlockF_grows stateName state.endFlag x nextY2 σ4)))
        · intro k hk
          rw [endBlockF_processed] at hk
          rcases hchild _ _ _ _ (nextY2, σ4) hc k hk with
            h1 | ⟨hkey, n, hn, hid⟩
          · exact Or.inl h1
          · exact Or.inr ⟨hkey, n,
              (endBlockF_grows stateName state.endFlag x nextY2 σ4).node_mem
                hn, hid⟩
        · exact ⟨⟨[], by simp⟩, ⟨_, rfl⟩, Finset.Subset.refl _⟩

theorem processStateF_procOut (states : List (String × StateSpec)) :
    ∀ (fuel : Nat) (stateName : String) (x y : Int) (σ : LState)
      (res : Int × LState),
      processStateF states fuel stateName x y σ = some res →
        ProcOut states σ res.2
  | 0, stateName, x, y, σ, res => by intro h; cases h
  | fuel+1, stateName, x, y, σ, res => by
    intro h
    have hgrow : ∀ n x y σ r,
        processStateF states fuel n x y σ = some r → Grows σ r.2 :=
      fun n x y σ r hr => processStateF_grows states fuel n x y σ r hr
    have hchild : ∀ n x y σ r,
        processStateF states fuel n x y σ = some r → ProcOut states σ r.2 :=
      fun n x y σ r hr => processStateF_procOut states fuel n x y σ r hr
    unfold processStateF at h
    split at h
    · cases h
      exact ProcOut_refl states σ
    · rename_i hproc
      split at h
      · cases h
        exact ProcOut_refl states σ
      · rename_i state hl
        dsimp only at h
        have hg1 : ProcOut states σ (LState.mk
            (σ.nodes ++
              [{ id := stateName, x := x, y := y, type := state.type }])
            σ.edges (insert stateName σ.processed)
            ((stateName, NPVal.pos x y) :: σ.positions)) := by
          intro k hk
          rcases Finset.mem_insert.mp hk with hkt | hkσ
          · subst hkt
            exact Or.inr ⟨lookupState_mem_keys hl,
              ⟨{ id := k, x := x, y := y, type := state.type }, by simp,
                rfl⟩⟩
          · exact Or.inl hkσ
        split at h
        · exact ProcOut_trans hg1 (doParallelF_procOut hgrow hchild
              _ _ _ _ _ _ h)
            (doParallelF_grows hgrow _ _ _ _ _ _ h)
        · split at h
          · exact ProcOut_trans hg1 (doChoiceF_procOut hgrow hchild
                _ _ _ _ _ _ h)
              (doChoiceF_grows hgrow _ _ _ _ _ _ h)
          · exact ProcOut_trans hg1 (doRegularF_procOut states hgrow hchild
                _ _ _ _ _ _ _ h)
              (doRegularF_grows states hgrow _ _ _ _ _ _ _ h)

/-! ### Fuel sufficiency

The recursion of `processState` is bounded by the visited set: every
recursive call either returns immediately or adds a fresh key to
`processedStates`.  Hence the fuel `suffFuel` provided by
`parseStateMachineCore` is never exhausted, and the only way the model
returns `none` is a diverging Parallel branch walk. -/

theorem unprocCard_mono {states : List (String × StateSpec)}
    {σ σ' : LState} (h : σ.processed ⊆ σ'.processed) :
    unprocCard states σ' ≤ unprocCard states σ :=
  Finset.card_le_card
    (Finset.sdiff_subset_sdiff (Finset.Subset.refl _) h)

theorem unprocCard_insert_lt {states : List (String × StateSpec)}
    {σ : LState} {k : String} (hk : k ∈ keysOf states)
    (hp : k ∉ σ.processed) {σ' : LState}
    (h : insert k σ.processed ⊆ σ'.processed) :
    unprocCard states σ' < unprocCard states σ := by
  have h1 : keysOf states \ σ'.processed ⊆
      (keysOf states \ σ.processed).erase k := by
    intro a ha
    rcases Finset.mem_sdiff.mp ha with ⟨hak, hap⟩
    refine Finset.mem_erase.mpr ⟨?_, Finset.mem_sdiff.mpr ⟨hak, ?_⟩⟩
    · rintro rfl
      exact hap (h (Finset.mem_insert_self _ _))
    · intro hmem
      exact hap (h (Finset.mem_insert.mpr (Or.inr hmem)))
  calc unprocCard states σ'
      ≤ ((keysOf states \ σ.processed).erase k).card :=
        Finset.card_le_card h1
    _ < (keysOf states \ σ.processed).card :=
        Finset.card_erase_lt_of_mem (Finset.mem_sdiff.mpr ⟨hk, hp⟩)

theorem branchWalkOk_chain {branch : Branch} {s : String}
    {st : BranchState} (hok : branchWalkOk branch = true)
    (hs : jsField branch.startAt = some s)
    (hst : jsLookup branch.states s = some st) :
    (chainF branch.states (branch.states.length + 1) st).isSome := by
  unfold branchWalkOk at hok
  rw [hs] at hok
  dsimp only at hok
  rw [hst] at hok
  exact hok

theorem buildBranchesF_isSome (stateName : String) (startX nextY : Int) :
    ∀ (bs : List Branch) (index : Nat) (maxY : Int),
      (∀ branch ∈ bs, ∀ s st, jsField branch.startAt = some s →
        jsLookup branch.states s = some st →
        (chainF branch.states (branch.states.length + 1) st).isSome) →
      (buildBranchesF stateName startX nextY bs index maxY).isSome
  | [], _, maxY, _ => by
    unfold buildBranchesF
    rfl
  | branch :: rest, index, maxY, hw => by
    unfold buildBranchesF
    have hrest : ∀ b ∈ rest, ∀ s st, jsField b.startAt = some s →
        jsLookup b.states s = some st →
        (chainF b.states (b.states.length + 1) st).isSome :=
      fun b hb => hw b (List.mem_cons_of_mem _ hb)
    cases hs : jsField branch.startAt with
    | none =>
      exact buildBranchesF_isSome stateName startX nextY rest (index+1)
        maxY hrest
    | some s =>
      dsimp only
      cases hst : jsLookup branch.states s with
      | none =>
        exact buildBranchesF_isSome stateName startX nextY rest (index+1)
          maxY hrest
      | some st =>
        dsimp only
        cases hch : chainF branch.states (branch.states.length + 1) st with
        | none =>
          have := hw branch (List.mem_cons_self _ _) s st hs hst
          rw [hch] at this
          cases this
        | some chain =>
          dsimp only
          have := buildBranchesF_isSome stateName startX nextY rest
            (index+1) (max maxY
              (nextY + ((chain.length : Int) + 1) * VERTICAL_SPACING)) hrest
          cases hrec : buildBranchesF stateName startX nextY rest (index+1)
              (max maxY
                (nextY + ((chain.length : Int) + 1) * VERTICAL_SPACING)) with
          | none => rw [hrec] at this; cases this
          | some built => rfl

theorem processChoicesGo_isSome
    {child : String → Int → Int → LState → Option (Int × LState)}
    {base : Finset String}
    (hgrow : ∀ n x y σ r, child n x y σ = some r → Grows σ r.2)
    (hchild : ∀ n x y σ', base ⊆ σ'.processed → (child n x y σ').isSome)
    (stateName : String) (startX nextY : Int) :
    ∀ (cs : List ChoiceRule) (index : Nat) (targets : List String)
      (maxY : Int) (σ : LState), base ⊆ σ.processed →
      (processChoicesGo child stateName startX nextY cs index targets maxY
        σ).isSome
  | [], index, targets, maxY, σ, hbase => by
    unfold processChoicesGo
    rfl
  | choice :: rest, index, targets, maxY, σ, hbase => by
    unfold processChoicesGo
    cases hn : jsField choice.next with
    | none =>
      exact processChoicesGo_isSome hgrow hchild stateName startX nextY
        rest (index+1) targets maxY σ hbase
    | some tgt =>
      dsimp only
      split
      · exact processChoicesGo_isSome hgrow hchild stateName startX nextY
          rest (index+1) targets maxY σ hbase
      · split
        · exact processChoicesGo_isSome hgrow hchild stateName startX nextY
            rest (index+1) _ maxY _ hbase
        · have hc := hchild tgt (startX + (index : Int) * HORIZONTAL_SPACING)
            nextY
            (LState.mk σ.nodes
              (σ.edges ++
                [{ id := stateName ++ "-choice-" ++ toString index ++ "-"
                     ++ tgt,
                   source := NPVal.nid stateName, target := tgt }])
              σ.processed σ.positions) hbase
          cases hcc : child tgt (startX + (index : Int) * HORIZONTAL_SPACING)
              nextY
              (LState.mk σ.nodes
                (σ.edges ++
                  [{ id := stateName ++ "-choice-" ++ toString index ++ "-"
                       ++ tgt,
                     source := NPVal.nid stateName, target := tgt }])
                σ.processed σ.positions) with
          | none => rw [hcc] at hc; cases hc
          | some r =>
            obtain ⟨choiceY, σ3⟩ := r
            dsimp only
            exact processChoicesGo_isSome hgrow hchild stateName startX
              nextY rest (index+1) _ _ σ3
              (Finset.Subset.trans hbase
                (hgrow _ _ _ _ (choiceY, σ3) hcc).2.2)

theorem doParallelF_isSome
    {child : String → Int → Int → LState → Option (Int × LState)}
    {σ1 : LState}
    (hchild : ∀ n x y σ', σ1.processed ⊆ σ'.processed →
      (child n x y σ').isSome)
    (stateName : String) (x nextY : Int) (state : StateSpec)
    (hwalk : ∀ branch ∈ state.branches.getD [], ∀ s st,
      jsField branch.startAt = some s →
      jsLookup branch.states s = some st →
      (chainF branch.states (branch.states.length + 1) st).isSome) :
    (doParallelF child stateName x nextY state σ1).isSome := by
  unfold doParallelF
  dsimp only
  have hb := buildBranchesF_isSome stateName
    (x - ((state.branches.getD []).length - 1) * PARALLEL_BRANCH_SPACING / 2)
    nextY (state.branches.getD []) 0 nextY hwalk
  split
  · rename_i hbb
    rw [hbb] at hb
    cases hb
  · rename_i built hbb
    split
    · rfl
    · rename_i nxt hnx
      exact hchild nxt x built.maxY _ (Finset.Subset.refl _)

theorem doChoiceF_isSome
    {child : String → Int → Int → LState → Option (Int × LState)}
    {σ1 : LState}
    (hgrow : ∀ n x y σ r, child n x y σ = some r → Grows σ r.2)
    (hchild : ∀ n x y σ', σ1.processed ⊆ σ'.processed →
      (child n x y σ').isSome)
    (stateName : String) (x nextY : Int) (state : StateSpec) :
    (doChoiceF child stateName x nextY state σ1).isSome := by
  unfold doChoiceF
  dsimp only
  have hgo := processChoicesGo_isSome hgrow hchild stateName
    (x - (((state.choices.getD []).length : Int) +
        (if (jsField state.default).isSome then 1 else 0) - 1) *
      HORIZONTAL_SPACING / 2)
    nextY (state.choices.getD []) 0 [] nextY σ1 (Finset.Subset.refl _)
  split
  · rename_i hgo2
    rw [hgo2] at hgo
    cases hgo
  · rename_i targets maxChoiceY σ2 hgo2
    have hg2 : Grows σ1 σ2 :=
      processChoicesGo_grows hgrow _ _ _ _ _ _ _ _ _ hgo2
    split
    · rfl
    · rename_i dflt hd
      split
      · rfl
      · have hc := hchild dflt
          (x - (((state.choices.getD []).length : Int) +
              (if (jsField state.default).isSome then 1 else 0) - 1) *
            HORIZONTAL_SPACING / 2 +
            ((state.choices.getD []).length : Int) * HORIZONTAL_SPACING)
          nextY
          (LState.mk σ2.nodes
            (σ2.edges ++
              [{ id := stateName ++ "-default-" ++ dflt, source := NPVal.nid stateName, target := dflt }])
            σ2.processed σ2.positions)
          (Finset.Subset.trans hg2.2.2 (Finset.Subset.refl _))
        split
        · rfl
        · split
          · rename_i hnone
            rw [hnone] at hc
            cases hc
          · rfl

theorem doRegularF_isSome (states : List (String × StateSpec))
    {child : String → Int → Int → LState → Option (Int × LState)}
    {σ1 : LState}
    (hchild : ∀ n x y σ', σ1.processed ⊆ σ'.processed →
      (child n x y σ').isSome)
    (stateName : String) (x y nextY : Int) (state : StateSpec) :
    (doRegularF states child stateName x y nextY state σ1).isSome := by
  unfold doRegularF
  dsimp only
  have hcat : Grows σ1
      (processCatchF states stateName x y state.catchRules 0 σ1) :=
    processCatchF_grows states stateName x y state.catchRules 0 σ1
  split
  · rfl
  · rename_i nxt hnx
    split
    · rfl
    · have hc := hchild nxt x nextY
        (LState.mk
          (processCatchF states stateName x y state.catchRules 0 σ1).nodes
          ((processCatchF states stateName x y state.catchRules 0
              σ1).edges ++
            [{ id := stateName ++ "-" ++ nxt, source := NPVal.nid stateName,
               target := nxt }])
          (processCatchF states stateName x y state.catchRules 0
            σ1).processed
          (processCatchF states stateName x y state.catchRules 0
            σ1).positions)
        (Finset.Subset.trans hcat.2.2 (Finset.Subset.refl _))
      split
      · rename_i hnone
        rw [hnone] at hc
        cases hc
      · rfl

theorem processStateF_isSome (states : List (String × StateSpec))
    (hb : BranchesOk states) :
    ∀ (fuel : Nat) (stateName : String) (x y : Int) (σ : LState),
      unprocCard states σ + 1 ≤ fuel →
      (processStateF states fuel stateName x y σ).isSome
  | 0, stateName, x, y, σ, hf => by omega
  | fuel+1, stateName, x, y, σ, hf => by
    unfold processStateF
    split
    · rfl
    · rename_i hproc
      cases hl : lookupState states stateName with
      | none => rfl
      | some state =>
        dsimp only
        have hkey : stateName ∈ keysOf states := lookupState_mem_keys hl
        have hσ1lt : unprocCard states
            (LState.mk
              (σ.nodes ++
                [{ id := stateName, x := x, y := y, type := state.type }])
              σ.edges (insert stateName σ.processed) ((stateName, NPVal.pos x y) :: σ.positions)) < unprocCard states σ :=
          unprocCard_insert_lt hkey hproc (Finset.Subset.refl _)
        have hchild : ∀ n x' y' σ',
            (LState.mk
              (σ.nodes ++
                [{ id := stateName, x := x, y := y, type := state.type }])
              σ.edges (insert stateName σ.processed) ((stateName, NPVal.pos x y) :: σ.positions)).processed ⊆
              σ'.processed →
            (processStateF states fuel n x' y' σ').isSome := by
          intro n x' y' σ' hsub
          refine processStateF_isSome states hb fuel n x' y' σ' ?_
          have h1 : unprocCard states σ' ≤ unprocCard states
              (LState.mk
                (σ.nodes ++
                  [{ id := stateName, x := x, y := y, type := state.type }])
                σ.edges (insert stateName σ.processed) ((stateName, NPVal.pos x y) :: σ.positions)) :=
            unprocCard_mono hsub
          omega
        have hgrow : ∀ n x' y' σ' r,
            processStateF states fuel n x' y' σ' = some r → Grows σ' r.2 :=
          fun n x' y' σ' r hr => processStateF_grows states fuel n x' y' σ' r hr
        split
        · rename_i hpar
          exact doParallelF_isSome hchild stateName x (y + VERTICAL_SPACING)
            state (fun branch hbr s st hs hst =>
              branchWalkOk_chain
                (hb (stateName, state) (jsLookup_mem hl) branch hbr) hs hst)
        · split
          · exact doChoiceF_isSome hgrow hchild stateName x
              (y + VERTICAL_SPACING) state
          · exact doRegularF_isSome states hchild stateName x y
              (y + VERTICAL_SPACING) state

/-- If all Parallel branch walks in the map halt, the traversal from any
state completes with the fuel supplied by `parseStateMachineCore`. -/
theorem parseStateMachineCore_isSome (d : StateMachineDef)
    (hb : BranchesOk d.states) : (parseStateMachineCore d).isSome := by
  unfold parseStateMachineCore
  cases hs : jsField d.startAt with
  | none => rfl
  | some startAt =>
    dsimp only
    split
    · rfl
    · have hcard : unprocCard d.states
          (LState.mk
            [{ id := "__START__", x := 0, y := 0, type := some "Start" }]
            [{ id := "__START__" ++ "-" ++ startAt, source := NPVal.nid "__START__",
               target := startAt }] ∅ []) + 1 ≤ suffFuel d.states := by
        unfold unprocCard suffFuel
        have h1 : (keysOf d.states \ ∅).card ≤ d.states.length := by
          rw [Finset.sdiff_empty]
          calc (keysOf d.states).card
              ≤ (d.states.map Prod.fst).length := List.toFinset_card_le _
            _ = d.states.length := List.length_map _ _
        exact Nat.add_le_add_right h1 1
      have := processStateF_isSome d.states hb (suffFuel d.states) startAt
        0 VERTICAL_SPACING _ hcard
      split
      · rename_i hnone
        rw [hnone] at this
        cases this
      · rfl

/-- The branch walk of the cyclic branch never stops: for every amount of
fuel, `chainF` still wants more.  This is the formal counterpart of the
source's `while (currentBranchState && currentBranchState.Next)` loop
running forever on this input. -/
theorem chainF_cycle_diverges :
    ∀ fuel : Nat,
      chainF cycBranchStates fuel (mkBranchTask (some "B")) = none ∧
      chainF cycBranchStates fuel (mkBranchTask (some "A")) = none
  | 0 => ⟨rfl, rfl⟩
  | fuel+1 => by
    obtain ⟨ihA, ihB⟩ := chainF_cycle_diverges fuel
    constructor
    · show (chainF cycBranchStates fuel (mkBranchTask (some "A"))).map _
        = none
      rw [ihB]
      rfl
    · show (chainF cycBranchStates fuel (mkBranchTask (some "B"))).map _
        = none
      rw [ihA]
      rfl

/-! ### Claim theorems -/

/-- C2, counterexample: `layout` does not complete on every input
definition.  On `dBranchCycle` — a Parallel state whose single branch has
the internal `Next` cycle `A -> B -> A` — the branch walk runs forever
(`chainF_cycle_diverges`) and the model returns `none` instead of a
graph. -/
theorem layout_none_on_branch_cycle :
    parseStateMachineCore dBranchCycle = none := by decide

/-- C2 (amended): `layout` completes and returns a result on every input
definition whose Parallel branch walks halt — in particular on every
definition with cycles among main-graph states, which only ever add an
edge for an already-visited state and never cause re-processing. -/
theorem layout_terminates_of_branchesOk (d : StateMachineDef)
    (hb : BranchesOk d.states) : (parseStateMachineCore d).isSome :=
  parseStateMachineCore_isSome d hb

/-- Witness for `layout_terminates_of_branchesOk`: the main-graph cycle
`A -> B -> A` terminates. -/
theorem layout_terminates_witness :
    BranchesOk dCycle.states ∧ (parseStateMachineCore dCycle).isSome :=
  ⟨by decide, layout_terminates_of_branchesOk dCycle (by decide)⟩

/-- C3, counterexample: a definition whose `StartAt` is not a key of its
non-empty `States` map does *not* yield the empty graph — the engine still
emits the `__START__` node and a dangling entry edge. -/
theorem layout_badStart_not_empty :
    parseStateMachineCore dBadStart ≠ some { nodes := [], edges := [] } :=
  by decide

/-- C3 (amended): the engine returns the empty graph on an `undefined`
argument, on an unparseable JSON string, and on any definition whose
`StartAt` is absent (or the empty string) or whose `States` map is empty;
a `StartAt` that is merely not a key of a non-empty map does not produce
an empty graph. -/
theorem layout_empty_on_malformed :
    parseStateMachine .undef = some { nodes := [], edges := [] } ∧
    parseStateMachine (.jsonStr none) = some { nodes := [], edges := [] } ∧
    ∀ d : StateMachineDef, (jsField d.startAt = none ∨ d.states = []) →
      parseStateMachine (.objInput d) = some { nodes := [], edges := [] } := by
  refine ⟨rfl, rfl, ?_⟩
  intro d hd
  show parseStateMachineCore d = some { nodes := [], edges := [] }
  unfold parseStateMachineCore
  rcases hd with hd | hd
  · rw [hd]
  · cases hs : jsField d.startAt with
    | none => rfl
    | some s =>
      dsimp only
      rw [if_pos (by rw [hd]; rfl)]

/-- Witness for `layout_empty_on_malformed`: `{States:{}, StartAt:"X"}`
yields the empty graph. -/
theorem layout_empty_on_malformed_witness :
    parseStateMachine (.objInput { startAt := some "X", states := [] })
      = some { nodes := [], edges := [] } :=
  layout_empty_on_malformed.2.2 { startAt := some "X", states := [] }
    (Or.inr rfl)

/-! ### Edge closure -/

theorem lookupState_isSome {states : List (String × StateSpec)}
    {k : String} (h : k ∈ keysOf states) :
    (lookupState states k).isSome := by
  simp only [keysOf, List.mem_toFinset, List.mem_map] at h
  obtain ⟨p, hp, hpk⟩ := h
  unfold lookupState jsLookup
  have : (states.find? (fun q => q.1 == k)).isSome :=
    List.find?_isSome.mpr ⟨p, hp, by simp [hpk]⟩
  cases hf : states.find? (fun q => q.1 == k) with
  | none => rw [hf] at this; cases this
  | some q => rfl

/-- If the processed name is a key, the traversal leaves it processed. -/
theorem processStateF_ensure (states : List (String × StateSpec)) :
    ∀ (fuel : Nat) (n : String) (x y : Int) (σ : LState)
      (r : Int × LState), n ∈ keysOf states →
      processStateF states fuel n x y σ = some r → n ∈ r.2.processed
  | 0, n, x, y, σ, r, hk, h => by cases h
  | fuel+1, n, x, y, σ, r, hk, h => by
    unfold processStateF at h
    split at h
    · rename_i hproc
      cases h
      exact hproc
    · rename_i hproc
      cases hl : lookupState states n with
      | none =>
        have := lookupState_isSome hk
        rw [hl] at this
        cases this
      | some state =>
        rw [hl] at h
        dsimp only at h
        have hchild : ∀ n' x' y' σ' r',
            processStateF states fuel n' x' y' σ' = some r' →
            Grows σ' r'.2 :=
          fun n' x' y' σ' r' hr =>
            processStateF_grows states fuel n' x' y' σ' r' hr
        have hmem : n ∈ (LState.mk
            (σ.nodes ++ [{ id := n, x := x, y := y, type := state.type }])
            σ.edges (insert n σ.processed)
            ((n, NPVal.pos x y) :: σ.positions)).processed :=
          Finset.mem_insert_self _ _
        split at h
        · exact (doParallelF_grows hchild _ _ _ _ _ _ h).processed_mem hmem
        · split at h
          · exact (doChoiceF_grows hchild _ _ _ _ _ _ h).processed_mem hmem
          · exact (doRegularF_grows states hchild _ _ _ _ _ _ _
              h).processed_mem hmem

theorem procNodes_out {states : List (String × StateSpec)} {σ r : LState}
    (po : ProcOut states σ r) (g : Grows σ r) (h : ProcNodes σ) :
    ProcNodes r := by
  intro k hk
  rcases po k hk with hold | ⟨_, nd, hnd, hid⟩
  · obtain ⟨nd, hnd, hid⟩ := h k hold
    exact ⟨nd, g.node_mem hnd, hid⟩
  · exact ⟨nd, hnd, hid⟩

theorem ClosedOut_refl (σ : LState) : ClosedOut σ σ :=
  fun e he => Or.inl he

theorem ClosedOut_trans {a b c : LState} (h1 : ClosedOut a b)
    (h2 : ClosedOut b c) (hg : Grows b c) : ClosedOut a c := by
  intro e he
  rcases h2 e he with hb | hcl
  · rcases h1 e hb with ha | ⟨⟨n1, hn1, hi1⟩, ⟨n2, hn2, hi2⟩⟩
    · exact Or.inl ha
    · exact Or.inr ⟨⟨n1, hg.node_mem hn1, hi1⟩, ⟨n2, hg.node_mem hn2, hi2⟩⟩
  · exact Or.inr hcl

theorem catchStepF_edges (states : List (String × StateSpec))
    (stateName : String) (x y : Int) (index : Nat) (tgt : String)
    (σ : LState) :
    (catchStepF states stateName x y index tgt σ).edges = σ.edges ++
      [{ id := stateName ++ "-catch-" ++ toString index ++ "-" ++ tgt, source := NPVal.nid stateName, target := tgt }] := by
  unfold catchStepF
  dsimp only
  split
  · split <;> rfl
  · rfl

theorem catchStepF_target_processed (states : List (String × StateSpec))
    (stateName : String) (x y : Int) (index : Nat) {tgt : String}
    (hfail : (lookupState states tgt).map StateSpec.type
      = some (some "Fail")) (σ : LState) :
    tgt ∈ (catchStepF states stateName x y index tgt σ).processed := by
  unfold catchStepF
  dsimp only
  cases hl : lookupState states tgt with
  | none => rw [hl] at hfail; cases hfail
  | some ts =>
    rw [hl] at hfail
    have hty : ts.type = some "Fail" := by
      simpa using hfail
    dsimp only
    split
    · exact Finset.mem_insert_self _ _
    · rename_i hcond
      rw [Classical.not_and_iff_or_not_not] at hcond
      rcases hcond with hc | hc
      · exact absurd hty hc
      · exact Classical.not_not.mp hc

/-- New edges of the catch loop are the error edges; in the final state
their sources are the throwing state's node and their targets are
processed `Fail` nodes. -/
theorem processCatchF_closed (states : List (String × StateSpec))
    (stateName : String) (x y : Int) :
    ∀ (rules : List CatchRule) (index : Nat) (σ : LState),
      ProcNodes σ → (∃ nd ∈ σ.nodes, nd.id = stateName) →
      (∀ cb ∈ rules, ∀ t, jsField cb.next = some t →
        (lookupState states t).map StateSpec.type = some (some "Fail")) →
      ClosedOut σ (processCatchF states stateName x y rules index σ)
  | [], index, σ, hPN, hsn, hr => ClosedOut_refl σ
  | cb :: rest, index, σ, hPN, hsn, hr => by
    unfold processCatchF
    cases hn : jsField cb.next with
    | none =>
      exact processCatchF_closed states stateName x y rest (index+1) σ hPN
        hsn (fun cb' hcb' => hr cb' (List.mem_cons_of_mem _ hcb'))
    | some tgt =>
      have hfail := hr cb (List.mem_cons_self _ _) tgt hn
      have hstep := catchStepF_grows states stateName x y index tgt σ
      have hrest := processCatchF_grows states stateName x y rest (index+1)
        (catchStepF states stateName x y index tgt σ)
      have hPNs : ProcNodes (catchStepF states stateName x y index tgt σ) :=
        procNodes_out (catchStepF_procOut states stateName x y index tgt σ)
          hstep hPN
      have hPNfin : ProcNodes (processCatchF states stateName x y rest
          (index+1) (catchStepF states stateName x y index tgt σ)) :=
        procNodes_out (processCatchF_procOut states stateName x y rest
            (index+1) _) hrest hPNs
      have hcl := processCatchF_closed states stateName x y rest (index+1)
        (catchStepF states stateName x y index tgt σ) hPNs
        (hsn.imp (fun nd hnd => ⟨hstep.node_mem hnd.1, hnd.2⟩))
        (fun cb' hcb' => hr cb' (List.mem_cons_of_mem _ hcb'))
      intro e he
      rcases hcl e he with hes | hclosed
      · rw [catchStepF_edges] at hes
        rcases List.mem_append.mp hes with heσ | hee
        · exact Or.inl heσ
        · have hee' : e = { id := stateName ++ "-catch-" ++ toString index
              ++ "-" ++ tgt, source := NPVal.nid stateName, target := tgt } := by
            simpa using hee
          subst hee'
          refine Or.inr ⟨?_, ?_⟩
          · obtain ⟨nd, hnd, hid⟩ := hsn
            exact ⟨nd, hrest.node_mem (hstep.node_mem hnd), by rw [hid]⟩
          · exact hPNfin tgt (hrest.processed_mem
              (catchStepF_target_processed states stateName x y index hfail
                σ))
      · exact Or.inr hclosed

theorem mem_cons_getLastD {α : Type} :
    ∀ (l : List α) (a : α), l.getLastD a ∈ a :: l
  | [], a => by simp
  | x :: xs, a => by
    rw [List.getLastD_cons]
    exact List.mem_cons_of_mem _ (mem_cons_getLastD xs x)

/-- The ids of the chain nodes materialised for one branch. -/
theorem chainNodes_map_id (stateName : String) (index : Nat)
    (branchX nextY : Int) (chain : List (String × BranchState)) :
    (chain.enum.map (fun p =>
      { id := branchNodeId stateName index p.2.1, x := branchX,
        y := nextY + ((p.1 : Int) + 1) * VERTICAL_SPACING,
        type := p.2.2.type : Node })).map Node.id =
      chain.map (fun q => branchNodeId stateName index q.1) := by
  rw [List.map_map]
  conv_rhs => rw [← List.enum_map_snd chain]
  rw [List.map_map]
  rfl

/-! ### Digit strings and the branch bookkeeping keys

`toString` of a `Nat` is a non-empty string of decimal digit characters;
since neither a digit nor a clean identifier contains `_branch_` or an
underscore in the wrong place, the `_end` bookkeeping keys cannot collide
with other `nodePositions` keys except as analysed below. -/

theorem seqAt_append_self : ∀ (pat rest : List Char),
    seqAt pat (pat ++ rest) = true
  | [], rest => rfl
  | p :: ps, rest => by
    unfold seqAt
    simp [seqAt_append_self ps rest]

theorem hasSeq_middle : ∀ (pre pat post : List Char),
    hasSeq pat (pre ++ (pat ++ post)) = true
  | [], pat, post => by
    rw [List.nil_append]
    cases hp : pat ++ post with
    | nil =>
      have : pat = [] := by
        cases pat with
        | nil => rfl
        | cons a l => simp at hp
      subst this
      simp [hasSeq, seqAt]
    | cons c rest =>
      unfold hasSeq
      have hseq : seqAt pat (c :: rest) = true :=
        hp ▸ seqAt_append_self pat post
      simp [hseq]
  | a :: pre, pat, post => by
    unfold hasSeq
    simp [hasSeq_middle pre pat post]

theorem branchNodeId_data (stateName : String) (index : Nat)
    (inner : String) :
    (branchNodeId stateName index inner).data =
      stateName.data ++ ("_branch_".data ++
        ((toString index).data ++ ("_".data ++ inner.data))) := by
  unfold branchNodeId
  simp [String.data_append]

theorem digitChar_isDigit {n : Nat} (h : n < 10) :
    (Nat.digitChar n).isDigit = true := by
  interval_cases n <;> decide

theorem toDigitsCore_digits :
    ∀ (fuel n : Nat) (acc : List Char), (∀ c ∈ acc, c.isDigit = true) →
      ∀ c ∈ Nat.toDigitsCore 10 fuel n acc, c.isDigit = true
  | 0, n, acc, hacc => by
    unfold Nat.toDigitsCore
    exact hacc
  | fuel+1, n, acc, hacc => by
    unfold Nat.toDigitsCore
    dsimp only
    have hd : (Nat.digitChar (n % 10)).isDigit = true :=
      digitChar_isDigit (Nat.mod_lt _ (by omega))
    have hacc2 : ∀ c ∈ Nat.digitChar (n % 10) :: acc, c.isDigit = true := by
      intro c hc
      rcases List.mem_cons.mp hc with rfl | hc
      · exact hd
      · exact hacc c hc
    split
    · exact hacc2
    · exact toDigitsCore_digits fuel (n / 10) _ hacc2

theorem toDigitsCore_append :
    ∀ (fuel n : Nat) (acc : List Char),
      ∃ l, Nat.toDigitsCore 10 fuel n acc = l ++ acc
  | 0, n, acc => by
    unfold Nat.toDigitsCore
    exact ⟨[], rfl⟩
  | fuel+1, n, acc => by
    unfold Nat.toDigitsCore
    dsimp only
    split
    · exact ⟨[Nat.digitChar (n % 10)], rfl⟩
    · obtain ⟨l, hl⟩ :=
        toDigitsCore_append fuel (n / 10) (Nat.digitChar (n % 10) :: acc)
      exact ⟨l ++ [Nat.digitChar (n % 10)], by
        rw [hl, List.append_assoc, List.singleton_append]⟩

theorem toString_nat_data (n : Nat) :
    (toString n).data = Nat.toDigits 10 n := rfl

theorem toString_nat_digits (n : Nat) :
    ∀ c ∈ (toString n).data, c.isDigit = true := by
  rw [toString_nat_data]
  exact toDigitsCore_digits (n+1) n [] (fun c hc => by cases hc)

theorem toString_nat_head (n : Nat) :
    ∃ c cs, (toString n).data = c :: cs ∧ c.isDigit = true := by
  have hne : (toString n).data ≠ [] := by
    rw [toString_nat_data]
    unfold Nat.toDigits
    unfold Nat.toDigitsCore
    dsimp only
    split
    · exact fun h => by cases h
    · obtain ⟨l, hl⟩ :=
        toDigitsCore_append n (n / 10) (Nat.digitChar (n % 10) :: [])
      rw [hl]
      intro h
      cases List.append_eq_nil.mp h with
      | intro h1 h2 => cases h2
  cases hd : (toString n).data with
  | nil => exact absurd hd hne
  | cons c cs =>
    refine ⟨c, cs, rfl, ?_⟩
    have := toString_nat_digits n c
    rw [hd] at this
    exact this (List.mem_cons_self _ _)

theorem isDigit_ne_underscore {c : Char} (h : c.isDigit = true) :
    c ≠ '_' := by
  intro heq
  rw [heq] at h
  exact absurd h (by decide)

theorem underscore_split :
    ∀ (u₁ u₂ : List Char) {t₁ t₂ : List Char},
      (∀ c ∈ u₁, c ≠ '_') → (∀ c ∈ u₂, c ≠ '_') →
      u₁ ++ '_' :: t₁ = u₂ ++ '_' :: t₂ → u₁ = u₂ ∧ t₁ = t₂
  | [], [], t₁, t₂ => by
    intro h1 h2 h
    injection h with _ h
    exact ⟨rfl, h⟩
  | [], c :: u₂, t₁, t₂ => by
    intro h1 h2 h
    injection h with hc h
    exact absurd hc.symm (h2 c (List.mem_cons_self _ _))
  | c :: u₁, [], t₁, t₂ => by
    intro h1 h2 h
    injection h with hc h
    exact absurd hc (h1 c (List.mem_cons_self _ _))
  | c :: u₁, d :: u₂, t₁, t₂ => by
    intro h1 h2 h
    injection h with hc h
    obtain ⟨he, ht⟩ := underscore_split u₁ u₂
      (fun x hx => h1 x (List.mem_cons_of_mem _ hx))
      (fun x hx => h2 x (List.mem_cons_of_mem _ hx)) h
    exact ⟨by rw [hc, he], ht⟩

theorem pat_offset_nil (u v t : List Char)
    (hu : ∃ c cs, u = c :: cs ∧ c.isDigit = true)
    (h : "_branch_".data ++ u = t ++ ("_branch_".data ++ v)) :
    t = [] ∨ ∃ t2, t = "_branch_".data ++ t2 := by
  obtain ⟨c, cs, hucons, hdig⟩ := hu
  subst hucons
  rw [show "_branch_".data =
    '_' :: 'b' :: 'r' :: 'a' :: 'n' :: 'c' :: 'h' :: '_' :: [] from rfl]
    at h ⊢
  rcases t with _ | ⟨c0, t⟩
  · exact Or.inl rfl
  simp only [List.cons_append, List.nil_append, List.cons.injEq] at h
  obtain ⟨rfl, h⟩ := h
  rcases t with _ | ⟨c1, t⟩
  · simp only [List.nil_append, List.cons.injEq] at h
    exact absurd h.1 (by decide)
  simp only [List.cons_append, List.cons.injEq] at h
  obtain ⟨rfl, h⟩ := h
  rcases t with _ | ⟨c2, t⟩
  · simp only [List.nil_append, List.cons.injEq] at h
    exact absurd h.1 (by decide)
  simp only [List.cons_append, List.cons.injEq] at h
  obtain ⟨rfl, h⟩ := h
  rcases t with _ | ⟨c3, t⟩
  · simp only [List.nil_append, List.cons.injEq] at h
    exact absurd h.1 (by decide)
  simp only [List.cons_append, List.cons.injEq] at h
  obtain ⟨rfl, h⟩ := h
  rcases t with _ | ⟨c4, t⟩
  · simp only [List.nil_append, List.cons.injEq] at h
    exact absurd h.1 (by decide)
  simp only [List.cons_append, List.cons.injEq] at h
  obtain ⟨rfl, h⟩ := h
  rcases t with _ | ⟨c5, t⟩
  · simp only [List.nil_append, List.cons.injEq] at h
    exact absurd h.1 (by decide)
  simp only [List.cons_append, List.cons.injEq] at h
  obtain ⟨rfl, h⟩ := h
  rcases t with _ | ⟨c6, t⟩
  · simp only [List.nil_append, List.cons.injEq] at h
    exact absurd h.1 (by decide)
  simp only [List.cons_append, List.cons.injEq] at h
  obtain ⟨rfl, h⟩ := h
  rcases t with _ | ⟨c7, t⟩
  · simp only [List.nil_append, List.cons.injEq] at h
    have hc : c = 'b' := by
      simpa using h.2.1
    rw [hc] at hdig
    exact absurd hdig (by decide)
  simp only [List.cons_append, List.cons.injEq] at h
  obtain ⟨rfl, h⟩ := h
  exact Or.inr ⟨t, rfl⟩

theorem hasSeq_of_data_append {b : String} {t2 : List Char}
    (hb : b.data = "_branch_".data ++ t2) :
    hasSeq "_branch_".data b.data = true := by
  rw [hb]
  have := hasSeq_middle [] "_branch_".data t2
  simpa using this

theorem cleanKey_no_pat {k : String} (h : cleanKey k = true) :
    hasSeq "_branch_".data k.data = false := by
  unfold cleanKey at h
  rw [Bool.and_eq_true] at h
  have h2 := h.2
  cases hs : hasSeq "_branch_".data k.data
  · rfl
  · rw [hs] at h2
    cases h2

theorem clean_append_pat_inj {a b : String} (ha : cleanKey a = true)
    (hb : cleanKey b = true) {u v : List Char}
    (hu : ∃ c cs, u = c :: cs ∧ c.isDigit = true)
    (hv : ∃ c cs, v = c :: cs ∧ c.isDigit = true)
    (h : a.data ++ ("_branch_".data ++ u) =
      b.data ++ ("_branch_".data ++ v)) :
    a = b := by
  rcases List.append_eq_append_iff.mp h with ⟨t, hbt, h2⟩ | ⟨t, hat, h2⟩
  · rcases pat_offset_nil u v t hu h2 with rfl | ⟨t2, rfl⟩
    · rw [List.append_nil] at hbt
      cases a
      cases b
      exact congrArg String.mk hbt.symm
    · exfalso
      have : hasSeq "_branch_".data b.data = true := by
        rw [hbt]
        have := hasSeq_middle a.data "_branch_".data t2
        simpa [List.append_assoc] using this
      rw [cleanKey_no_pat hb] at this
      cases this
  · rcases pat_offset_nil v u t hv h2 with rfl | ⟨t2, rfl⟩
    · rw [List.append_nil] at hat
      cases a
      cases b
      exact congrArg String.mk hat
    · exfalso
      have : hasSeq "_branch_".data a.data = true := by
        rw [hat]
        have := hasSeq_middle b.data "_branch_".data t2
        simpa [List.append_assoc] using this
      rw [cleanKey_no_pat ha] at this
      cases this

theorem endKey_data (s : String) (i : Nat) :
    (endKey s i).data =
      s.data ++ ("_branch_".data ++
        ((toString i).data ++ ('_' :: 'e' :: 'n' :: 'd' :: []))) := by
  unfold endKey
  simp [String.data_append]

theorem branchNodeId_eq_endKey {p s : String} (hp : cleanKey p = true)
    (hs : cleanKey s = true) {j i : Nat} {inner : String}
    (h : branchNodeId p j inner = endKey s i) : p = s := by
  have hd := congrArg String.data h
  rw [branchNodeId_data, endKey_data] at hd
  obtain ⟨c, cs, hc, hcd⟩ := toString_nat_head j
  obtain ⟨c2, cs2, hc2, hcd2⟩ := toString_nat_head i
  exact clean_append_pat_inj hp hs
    ⟨c, cs ++ ("_".data ++ inner.data), by rw [hc]; rfl, hcd⟩
    ⟨c2, cs2 ++ ('_' :: 'e' :: 'n' :: 'd' :: []), by rw [hc2]; rfl, hcd2⟩
    hd

theorem string_data_inj {a b : String} (h : a.data = b.data) : a = b := by
  cases a
  cases b
  exact congrArg String.mk h

theorem branchNodeId_eq_endKey_same {s : String} {j i : Nat}
    {inner : String} (h : branchNodeId s j inner = endKey s i) :
    toString j = toString i ∧ inner = "end" := by
  have hd := congrArg String.data h
  rw [branchNodeId_data, endKey_data] at hd
  have h2 := List.append_cancel_left hd
  have h3 := List.append_cancel_left h2
  rw [show "_".data ++ inner.data = '_' :: inner.data from rfl] at h3
  obtain ⟨hts, htl⟩ := underscore_split (toString j).data (toString i).data
    (fun c hc => isDigit_ne_underscore (toString_nat_digits j c hc))
    (fun c hc => isDigit_ne_underscore (toString_nat_digits i c hc))
    (by rw [h3])
  exact ⟨string_data_inj hts, @string_data_inj inner "end" htl⟩

theorem cleanKey_ne_endKey {k : String} (h : cleanKey k = true)
    (s : String) (i : Nat) : k ≠ endKey s i := by
  intro hk
  have h2 := cleanKey_no_pat h
  rw [hk] at h2
  rw [endKey_data] at h2
  have : hasSeq "_branch_".data (s.data ++ ("_branch_".data ++
      ((toString i).data ++ ('_' :: 'e' :: 'n' :: 'd' :: [])))) = true :=
    hasSeq_middle s.data "_branch_".data _
  rw [this] at h2
  cases h2

theorem keysOf_of_isSome {states : List (String × StateSpec)} {t : String}
    (h : (lookupState states t).isSome) : t ∈ keysOf states := by
  cases hl : lookupState states t with
  | none => rw [hl] at h; cases h
  | some v => exact lookupState_mem_keys hl


theorem cleanKey_of_mem_keys {states : List (String × StateSpec)}
    (hClean : CleanIds states) {k : String} (hk : k ∈ keysOf states) :
    cleanKey k = true := by
  simp only [keysOf, List.mem_toFinset, List.mem_map] at hk
  obtain ⟨p, hp, rfl⟩ := hk
  exact hClean p hp


/-! ### The `nodePositions` invariant -/

theorem jsLookup_append {α : Type} (l1 l2 : List (String × α))
    (k : String) :
    jsLookup (l1 ++ l2) k =
      (jsLookup l1 k).or (jsLookup l2 k) := by
  unfold jsLookup
  rw [List.find?_append]
  cases l1.find? (fun p => p.1 == k) with
  | none => rfl
  | some p => rfl

theorem PosInv_mono {σ σ' : LState} (hg : Grows σ σ')
    (hp : σ'.positions = σ.positions) (h : PosInv σ) : PosInv σ' := by
  intro kv hkv
  rw [hp] at hkv
  obtain ⟨h1, h2⟩ := h kv hkv
  constructor
  · intro m hm
    obtain ⟨nd, hnd, hid⟩ := h1 m hm
    exact ⟨nd, hg.node_mem hnd, hid⟩
  · intro a b hab
    rcases h2 a b hab with hc | ⟨p, j, inner, hk, hpc, hpp⟩
    · exact Or.inl hc
    · exact Or.inr ⟨p, j, inner, hk, hpc, hg.processed_mem hpp⟩

theorem posInv_entry_mono {σ σ2 : LState} (hg : Grows σ σ2)
    {kv : String × NPVal}
    (h : (∀ m, kv.2 = NPVal.nid m → ∃ nd ∈ σ.nodes, nd.id = m) ∧
      (∀ a b, kv.2 = NPVal.pos a b → cleanKey kv.1 = true ∨
        ∃ p j inner, kv.1 = branchNodeId p j inner ∧ cleanKey p = true ∧
          p ∈ σ.processed)) :
    (∀ m, kv.2 = NPVal.nid m → ∃ nd ∈ σ2.nodes, nd.id = m) ∧
    (∀ a b, kv.2 = NPVal.pos a b → cleanKey kv.1 = true ∨
      ∃ p j inner, kv.1 = branchNodeId p j inner ∧ cleanKey p = true ∧
        p ∈ σ2.processed) := by
  obtain ⟨h1, h2⟩ := h
  constructor
  · intro m hm
    obtain ⟨nd, hnd, hid⟩ := h1 m hm
    exact ⟨nd, hg.node_mem hnd, hid⟩
  · intro a b hab
    rcases h2 a b hab with hc | ⟨p, j, inner, hk, hpc, hpp⟩
    · exact Or.inl hc
    · exact Or.inr ⟨p, j, inner, hk, hpc, hg.processed_mem hpp⟩

theorem catchStepF_posInv {states : List (String × StateSpec)}
    (hClean : CleanIds states) (stateName : String) (x y : Int)
    (index : Nat) (tgt : String) (σ : LState) (h : PosInv σ) :
    PosInv (catchStepF states stateName x y index tgt σ) := by
  have hg := catchStepF_grows states stateName x y index tgt σ
  unfold catchStepF at hg ⊢
  cases hlk : lookupState states tgt with
  | none =>
    rw [hlk] at hg
    intro kv hkv
    exact posInv_entry_mono hg (h kv hkv)
  | some ts =>
    rw [hlk] at hg
    dsimp only at hg ⊢
    by_cases hcond : ts.type = some "Fail" ∧ tgt ∉ σ.processed
    · rw [if_pos hcond] at hg ⊢
      intro kv hkv
      rcases List.mem_cons.mp hkv with rfl | hkv2
      · refine ⟨(fun m hm => by cases hm), ?_⟩
        intro a b _
        exact Or.inl (cleanKey_of_mem_keys hClean
          (keysOf_of_isSome (hlk ▸ rfl)))
      · exact posInv_entry_mono hg (h kv hkv2)
    · rw [if_neg hcond] at hg ⊢
      intro kv hkv
      exact posInv_entry_mono hg (h kv hkv)

theorem processCatchF_posInv {states : List (String × StateSpec)}
    (hClean : CleanIds states) (stateName : String) (x y : Int) :
    ∀ (rules : List CatchRule) (index : Nat) (σ : LState), PosInv σ →
      PosInv (processCatchF states stateName x y rules index σ)
  | [], index, σ, h => h
  | cb :: rest, index, σ, h => by
    unfold processCatchF
    split
    · exact processCatchF_posInv hClean stateName x y rest (index+1) σ h
    · exact processCatchF_posInv hClean stateName x y rest (index+1) _
        (catchStepF_posInv hClean stateName x y index _ σ h)

theorem endBlockF_posInv (stateName : String) (endFlag : Bool)
    (x nextY : Int) (σ : LState) (h : PosInv σ) :
    PosInv (endBlockF stateName endFlag x nextY σ).2 := by
  refine PosInv_mono (endBlockF_grows _ _ _ _ _) ?_ h
  unfold endBlockF
  split
  · rfl
  · rfl

/-- The node materialised for a branch walk's last id. -/
theorem buildBranch_lastId_node (stateName : String) (index : Nat)
    (s : String) (st : BranchState) (branchX nextY : Int)
    (chain : List (String × BranchState)) :
    ∃ nd ∈ (({ id := branchNodeId stateName index s, x := branchX, y := nextY, type := st.type } : Node) ::
        chain.enum.map (fun p =>
          ({ id := branchNodeId stateName index p.2.1, x := branchX, y := nextY + ((p.1 : Int) + 1) * VERTICAL_SPACING, type := p.2.2.type } : Node))),
      nd.id =
        (chain.map (fun q => branchNodeId stateName index q.1)).getLastD
          (branchNodeId stateName index s) := by
  have hl := mem_cons_getLastD
    (chain.map (fun q => branchNodeId stateName index q.1))
    (branchNodeId stateName index s)
  rcases List.mem_cons.mp hl with hl | hl
  · exact ⟨_, List.mem_cons_self _ _, hl.symm⟩
  · obtain ⟨q, hq, hfq⟩ := List.mem_map.mp hl
    have hin : branchNodeId stateName index q.1 ∈
        (chain.enum.map (fun p =>
          ({ id := branchNodeId stateName index p.2.1, x := branchX, y := nextY + ((p.1 : Int) + 1) * VERTICAL_SPACING, type := p.2.2.type } : Node))).map Node.id := by
      rw [chainNodes_map_id]
      exact List.mem_map_of_mem _ hq
    obtain ⟨nd, hnd, hndid⟩ := List.mem_map.mp hin
    exact ⟨nd, List.mem_cons_of_mem _ hnd, by rw [hndid, hfq]⟩

/-- A branch-node key of the loop's own entries never equals an `_end`
bookkeeping key of a different index (digit strings contain no
underscore), unless the whole keys coincide. -/
theorem branch_key_ne_endKey {stateName : String} {index i : Nat}
    (hkey : endKey stateName index ≠ endKey stateName i)
    (inner : String) :
    branchNodeId stateName index inner ≠ endKey stateName i := by
  intro hb
  obtain ⟨hts, _⟩ := branchNodeId_eq_endKey_same hb
  apply hkey
  unfold endKey
  rw [hts]

/-- The map entries written by the branch loop: node-id strings name
built nodes, position objects sit under branch node ids of the Parallel
state. -/
theorem buildBranchesF_poss (stateName : String) (startX nextY : Int) :
    ∀ (bs : List Branch) (index : Nat) (maxY : Int)
      (built : BuiltBranches),
      buildBranchesF stateName startX nextY bs index maxY = some built →
      ∀ kv ∈ built.poss,
        (∀ m, kv.2 = NPVal.nid m → ∃ nd ∈ built.nodes, nd.id = m) ∧
        (∀ a b, kv.2 = NPVal.pos a b →
          ∃ j inner, kv.1 = branchNodeId stateName j inner)
  | [], index, maxY, built => by
    intro h kv hkv
    unfold buildBranchesF at h
    cases h
    cases hkv
  | branch :: rest, index, maxY, built => by
    intro h kv hkv
    unfold buildBranchesF at h
    cases hs : jsField branch.startAt with
    | none =>
      rw [hs] at h
      exact buildBranchesF_poss stateName startX nextY rest (index+1)
        maxY built h kv hkv
    | some s =>
      rw [hs] at h
      dsimp only at h
      cases hst : jsLookup branch.states s with
      | none =>
        rw [hst] at h
        exact buildBranchesF_poss stateName startX nextY rest (index+1)
          maxY built h kv hkv
      | some st =>
        rw [hst] at h
        dsimp only at h
        cases hch : chainF branch.states (branch.states.length + 1) st with
        | none => rw [hch] at h; cases h
        | some chain =>
          rw [hch] at h
          dsimp only at h
          split at h
          · cases h
          · rename_i rec hrec
            cases h
            have ih := buildBranchesF_poss stateName startX nextY rest
              (index+1) _ rec hrec
            dsimp only at hkv
            rcases List.mem_append.mp hkv with hkv | hkv
            · obtain ⟨ih1, ih2⟩ := ih kv hkv
              refine ⟨?_, ih2⟩
              intro m hm
              obtain ⟨nd, hnd, hid⟩ := ih1 m hm
              exact ⟨nd, by simp [hnd], hid⟩
            · rcases List.mem_cons.mp hkv with rfl | hkv
              · constructor
                · intro m hm
                  cases hm
                  obtain ⟨nd, hnd, hid⟩ := buildBranch_lastId_node
                    stateName index s st
                    (startX + (index : Int) * PARALLEL_BRANCH_SPACING)
                    nextY chain
                  exact ⟨nd, List.mem_append_left _ hnd, hid⟩
                · intro a b hab
                  cases hab
              · rcases List.mem_append.mp hkv with hkv | hkv
                · rw [List.mem_reverse] at hkv
                  obtain ⟨q, hq, hqe⟩ := List.mem_map.mp hkv
                  subst hqe
                  refine ⟨(fun m hm => by cases hm), ?_⟩
                  intro a b hab
                  exact ⟨index, q.2.1, rfl⟩
                · have : kv = (branchNodeId stateName index s,
                      NPVal.pos
                        (startX + (index : Int) * PARALLEL_BRANCH_SPACING)
                        nextY) := by
                    simpa using hkv
                  subst this
                  refine ⟨(fun m hm => by cases hm), ?_⟩
                  intro a b hab
                  exact ⟨index, s, rfl⟩

/-- Looking any `_end` bookkeeping key up in the entries the branch loop
wrote yields nothing or a recorded last-node id of a valid branch, never
a position object. -/
theorem buildBranchesF_end_lookup (stateName : String)
    (startX nextY : Int) :
    ∀ (bs : List Branch) (index : Nat) (maxY : Int)
      (built : BuiltBranches),
      buildBranchesF stateName startX nextY bs index maxY = some built →
      ∀ i : Nat,
        jsLookup built.poss (endKey stateName i) = none ∨
        ∃ m, jsLookup built.poss (endKey stateName i) =
            some (NPVal.nid m) ∧ ∃ nd ∈ built.nodes, nd.id = m
  | [], index, maxY, built => by
    intro h i
    unfold buildBranchesF at h
    cases h
    exact Or.inl rfl
  | branch :: rest, index, maxY, built => by
    intro h i
    unfold buildBranchesF at h
    cases hs : jsField branch.startAt with
    | none =>
      rw [hs] at h
      exact buildBranchesF_end_lookup stateName startX nextY rest
        (index+1) maxY built h i
    | some s =>
      rw [hs] at h
      dsimp only at h
      cases hst : jsLookup branch.states s with
      | none =>
        rw [hst] at h
        exact buildBranchesF_end_lookup stateName startX nextY rest
          (index+1) maxY built h i
      | some st =>
        rw [hst] at h
        dsimp only at h
        cases hch : chainF branch.states (branch.states.length + 1) st with
        | none => rw [hch] at h; cases h
        | some chain =>
          rw [hch] at h
          dsimp only at h
          split at h
          · cases h
          · rename_i rec hrec
            cases h
            have ih := buildBranchesF_end_lookup stateName startX nextY
              rest (index+1) _ rec hrec i
            dsimp only
            rw [jsLookup_append]
            rcases ih with hnone | ⟨m, hm, nd, hnd, hid⟩
            · rw [hnone, Option.none_or]
              by_cases hkey : endKey stateName index = endKey stateName i
              · refine Or.inr ⟨(chain.map (fun q =>
                    branchNodeId stateName index q.1)).getLastD
                    (branchNodeId stateName index s), ?_, ?_⟩
                · unfold jsLookup
                  rw [List.find?_cons_of_pos]
                  · rfl
                  · simp [hkey]
                · obtain ⟨nd, hnd, hid⟩ := buildBranch_lastId_node
                    stateName index s st
                    (startX + (index : Int) * PARALLEL_BRANCH_SPACING)
                    nextY chain
                  exact ⟨nd, List.mem_append_left _ hnd, hid⟩
              · refine Or.inl ?_
                unfold jsLookup
                rw [List.find?_cons_of_neg]
                · rw [List.find?_eq_none.mpr ?_]
                  · rfl
                  · intro kv hkv
                    rcases List.mem_append.mp hkv with hkv | hkv
                    · rw [List.mem_reverse] at hkv
                      obtain ⟨q, hq, hqe⟩ := List.mem_map.mp hkv
                      subst hqe
                      simp only [Bool.not_eq_true, beq_eq_false_iff_ne,
                        ne_eq]
                      exact branch_key_ne_endKey hkey q.2.1
                    · have : kv = (branchNodeId stateName index s,
                          NPVal.pos (startX +
                            (index : Int) * PARALLEL_BRANCH_SPACING)
                            nextY) := by
                        simpa using hkv
                      subst this
                      simp only [Bool.not_eq_true, beq_eq_false_iff_ne,
                        ne_eq]
                      exact branch_key_ne_endKey hkey s
                · simp [hkey]
            · rw [hm]
              exact Or.inr ⟨m, rfl, nd, by simp [hnd], hid⟩

/-- A branch-walk id of the chain names one of the chain's nodes. -/
theorem chain_id_node (stateName : String) (index : Nat)
    (branchX nextY : Int) (chain : List (String × BranchState))
    {idv : String}
    (h : idv ∈ chain.map (fun q => branchNodeId stateName index q.1)) :
    ∃ nd ∈ chain.enum.map (fun p =>
      ({ id := branchNodeId stateName index p.2.1, x := branchX, y := nextY + ((p.1 : Int) + 1) * VERTICAL_SPACING, type := p.2.2.type } : Node)),
      nd.id = idv := by
  rw [← chainNodes_map_id stateName index branchX nextY chain] at h
  obtain ⟨nd, hnd, hid⟩ := List.mem_map.mp h
  exact ⟨nd, hnd, hid⟩

/-- Every edge the branch loop contributes is sourced at the Parallel
state itself or at a node the loop pushed, and targets a node the loop
pushed. -/
theorem buildBranchesF_closed (stateName : String) (startX nextY : Int) :
    ∀ (bs : List Branch) (index : Nat) (maxY : Int)
      (built : BuiltBranches),
      buildBranchesF stateName startX nextY bs index maxY = some built →
      ∀ e ∈ built.edges,
        (e.source = NPVal.nid stateName ∨
          ∃ nd ∈ built.nodes, NPVal.nid nd.id = e.source) ∧
        ∃ nd ∈ built.nodes, nd.id = e.target
  | [], index, maxY, built => by
    intro h e he
    unfold buildBranchesF at h
    cases h
    cases he
  | branch :: rest, index, maxY, built => by
    intro h e he
    unfold buildBranchesF at h
    cases hs : jsField branch.startAt with
    | none =>
      rw [hs] at h
      exact buildBranchesF_closed stateName startX nextY rest (index+1)
        maxY built h e he
    | some s =>
      rw [hs] at h
      dsimp only at h
      cases hst : jsLookup branch.states s with
      | none =>
        rw [hst] at h
        exact buildBranchesF_closed stateName startX nextY rest (index+1)
          maxY built h e he
      | some st =>
        rw [hst] at h
        dsimp only at h
        cases hch : chainF branch.states (branch.states.length + 1) st with
        | none => rw [hch] at h; cases h
        | some chain =>
          rw [hch] at h
          dsimp only at h
          split at h
          · cases h
          · rename_i rec hrec
            cases h
            have ih := buildBranchesF_closed stateName startX nextY rest
              (index+1) _ rec hrec
            dsimp only at he ⊢
            rcases List.mem_append.mp he with he | he
            · rcases List.mem_cons.mp he with rfl | he
              · refine ⟨Or.inl rfl, ?_⟩
                exact ⟨_, List.mem_append_left _ (List.mem_cons_self _ _),
                  rfl⟩
              · obtain ⟨pr, hpr, hpre⟩ := List.mem_map.mp he
                subst hpre
                obtain ⟨hpr1, hpr2⟩ := List.of_mem_zip hpr
                constructor
                · refine Or.inr ?_
                  rcases List.mem_cons.mp hpr1 with hb | hin
                  · exact ⟨_, List.mem_append_left _
                      (List.mem_cons_self _ _), by rw [hb]⟩
                  · obtain ⟨nd, hnd, hid⟩ := chain_id_node stateName index
                      (startX + (index : Int) * PARALLEL_BRANCH_SPACING)
                      nextY chain hin
                    exact ⟨nd, List.mem_append_left _
                      (List.mem_cons_of_mem _ hnd), by rw [hid]⟩
                · obtain ⟨nd, hnd, hid⟩ := chain_id_node stateName index
                    (startX + (index : Int) * PARALLEL_BRANCH_SPACING)
                    nextY chain hpr2
                  exact ⟨nd, List.mem_append_left _
                    (List.mem_cons_of_mem _ hnd), hid⟩
            · obtain ⟨hsrc, nd2, hnd2, hid2⟩ := ih e he
              refine ⟨?_, ⟨nd2, by simp [hnd2], hid2⟩⟩
              rcases hsrc with hsrc | ⟨nd, hnd, hid⟩
              · exact Or.inl hsrc
              · exact Or.inr ⟨nd, by simp [hnd], hid⟩

/-- The choice loop preserves the `nodePositions` invariant, given that
the recursive call does. -/
theorem processChoicesGo_posInv
    {child : String → Int → Int → LState → Option (Int × LState)}
    (hcpos : ∀ n x y σ r, PosInv σ → child n x y σ = some r →
      PosInv r.2)
    (stateName : String) (startX nextY : Int) :
    ∀ (cs : List ChoiceRule) (index : Nat) (targets : List String)
      (maxY : Int) (σ : LState) (res : List String × Int × LState),
      processChoicesGo child stateName startX nextY cs index targets maxY σ
        = some res →
      PosInv σ → PosInv res.2.2
  | [], index, targets, maxY, σ, res => by
    intro h hp
    unfold processChoicesGo at h
    cases h
    exact hp
  | choice :: rest, index, targets, maxY, σ, res => by
    intro h hp
    unfold processChoicesGo at h
    dsimp only at h
    split at h
    · exact processChoicesGo_posInv hcpos stateName startX nextY rest
        (index+1) targets maxY σ res h hp
    · rename_i tgt hn
      split at h
      · exact processChoicesGo_posInv hcpos stateName startX nextY rest
          (index+1) targets maxY σ res h hp
      · split at h
        · exact processChoicesGo_posInv hcpos stateName startX nextY rest
            (index+1) _ maxY _ res h (fun kv hkv => hp kv hkv)
        · split at h
          · simp at h
          · rename_i choiceY σ3 hc
            refine processChoicesGo_posInv hcpos stateName startX nextY
              rest (index+1) _ _ σ3 res h
              (hcpos _ _ _ _ (choiceY, σ3) ?_ hc)
            exact fun kv hkv => hp kv hkv

/-- The Parallel arm preserves the `nodePositions` invariant: the branch
loop's entries sit under branch keys of the (clean, already-visited)
Parallel state or record pushed last-node ids. -/
theorem doParallelF_posInv
    {child : String → Int → Int → LState → Option (Int × LState)}
    (hcpos : ∀ n x y σ r, PosInv σ → child n x y σ = some r →
      PosInv r.2)
    (stateName : String) (x nextY : Int) (state : StateSpec) (σ1 : LState)
    (res : Int × LState)
    (h : doParallelF child stateName x nextY state σ1 = some res)
    (hck : cleanKey stateName = true) (hsp : stateName ∈ σ1.processed)
    (hp : PosInv σ1) : PosInv res.2 := by
  unfold doParallelF at h
  dsimp only at h
  split at h
  · simp at h
  · rename_i built hb
    have hposs := buildBranchesF_poss stateName _ _ _ _ _ built hb
    have hpos2 : PosInv (LState.mk (σ1.nodes ++ built.nodes)
        (σ1.edges ++ built.edges) σ1.processed
        (built.poss ++ σ1.positions)) := by
      intro kv hkv
      rcases List.mem_append.mp hkv with hkv | hkv
      · obtain ⟨h1, h2⟩ := hposs kv hkv
        constructor
        · intro m hm
          obtain ⟨nd, hnd, hid⟩ := h1 m hm
          exact ⟨nd, by simp [hnd], hid⟩
        · intro a b hab
          obtain ⟨j, inner, hk⟩ := h2 a b hab
          exact Or.inr ⟨stateName, j, inner, hk, hck, hsp⟩
      · refine posInv_entry_mono ?_ (hp kv hkv)
        exact ⟨⟨built.nodes, rfl⟩, ⟨built.edges, rfl⟩, fun a ha => ha⟩
    split at h
    · cases h
      exact hpos2
    · rename_i nxt hnx
      refine hcpos _ _ _ _ res ?_ h
      exact fun kv hkv => hpos2 kv hkv

/-- The Choice arm preserves the `nodePositions` invariant. -/
theorem doChoiceF_posInv
    {child : String → Int → Int → LState → Option (Int × LState)}
    (hcpos : ∀ n x y σ r, PosInv σ → child n x y σ = some r →
      PosInv r.2)
    (stateName : String) (x nextY : Int) (state : StateSpec) (σ1 : LState)
    (res : Int × LState)
    (h : doChoiceF child stateName x nextY state σ1 = some res)
    (hp : PosInv σ1) : PosInv res.2 := by
  unfold doChoiceF at h
  dsimp only at h
  split at h
  · simp at h
  · rename_i targets maxChoiceY σ2 hgo
    have hp2 : PosInv σ2 :=
      processChoicesGo_posInv hcpos stateName _ _ _ _ _ _ _ _ hgo hp
    split at h
    · cases h
      exact hp2
    · rename_i dflt hd
      split at h
      · cases h
        exact hp2
      · split at h
        · cases h
          exact fun kv hkv => hp2 kv hkv
        · split at h
          · simp at h
          · rename_i defaultY σ4 hc
            cases h
            refine hcpos _ _ _ _ (defaultY, σ4) ?_ hc
            exact fun kv hkv => hp2 kv hkv

/-- The regular arm preserves the `nodePositions` invariant. -/
theorem doRegularF_posInv {states : List (String × StateSpec)}
    (hClean : CleanIds states)
    {child : String → Int → Int → LState → Option (Int × LState)}
    (hcpos : ∀ n x y σ r, PosInv σ → child n x y σ = some r →
      PosInv r.2)
    (stateName : String) (x y nextY : Int) (state : StateSpec)
    (σ1 : LState) (res : Int × LState)
    (h : doRegularF states child stateName x y nextY state σ1 = some res)
    (hp : PosInv σ1) : PosInv res.2 := by
  unfold doRegularF at h
  dsimp only at h
  have hp2 : PosInv
      (processCatchF states stateName x y state.catchRules 0 σ1) :=
    processCatchF_posInv hClean stateName x y state.catchRules 0 σ1 hp
  split at h
  · cases h
    exact endBlockF_posInv stateName state.endFlag x nextY _ hp2
  · rename_i nxt hnx
    split at h
    · cases h
      refine endBlockF_posInv stateName state.endFlag x nextY _ ?_
      exact fun kv hkv => hp2 kv hkv
    · split at h
      · simp at h
      · rename_i nextY2 σ4 hc
        cases h
        refine endBlockF_posInv stateName state.endFlag x nextY2 σ4
          (hcpos _ _ _ _ (nextY2, σ4) ?_ hc)
        exact fun kv hkv => hp2 kv hkv

/-- `processState` preserves the `nodePositions` invariant: the only new
entry is the state's own position object under its (clean) key. -/
theorem processStateF_posInv (states : List (String × StateSpec))
    (hClean : CleanIds states) :
    ∀ (fuel : Nat) (stateName : String) (x y : Int) (σ : LState)
      (res : Int × LState),
      processStateF states fuel stateName x y σ = some res →
      PosInv σ → PosInv res.2
  | 0, stateName, x, y, σ, res => by intro h _; cases h
  | fuel+1, stateName, x, y, σ, res => by
    intro h hp
    have hcpos : ∀ n x y σ r, PosInv σ →
        processStateF states fuel n x y σ = some r → PosInv r.2 :=
      fun n x y σ r hpσ hr =>
        processStateF_posInv states hClean fuel n x y σ r hr hpσ
    unfold processStateF at h
    split at h
    · cases h
      exact hp
    · split at h
      · cases h
        exact hp
      · rename_i state hl
        dsimp only at h
        have hsome : (lookupState states stateName).isSome := by
          rw [hl]; rfl
        have hck : cleanKey stateName = true :=
          cleanKey_of_mem_keys hClean (keysOf_of_isSome hsome)
        have hp1 : PosInv (LState.mk
            (σ.nodes ++
              [{ id := stateName, x := x, y := y, type := state.type }])
            σ.edges (insert stateName σ.processed)
            ((stateName, NPVal.pos x y) :: σ.positions)) := by
          intro kv hkv
          rcases List.mem_cons.mp hkv with rfl | hkv2
          · refine ⟨(fun m hm => by cases hm), ?_⟩
            intro a b _
            exact Or.inl hck
          · refine posInv_entry_mono ?_ (hp kv hkv2)
            exact ⟨⟨_, rfl⟩, ⟨[], (List.append_nil _).symm⟩,
              fun a ha => Finset.mem_insert_of_mem ha⟩
        split at h
        · exact doParallelF_posInv hcpos stateName x _ state _ res h hck
            (Finset.mem_insert_self _ _) hp1
        · split at h
          · exact doChoiceF_posInv hcpos stateName x _ state _ res h hp1
          · exact doRegularF_posInv hClean hcpos stateName x y _ state _
              res h hp1

theorem endBlockF_closed (stateName : String) (endFlag : Bool)
    (x nextY : Int) (σ : LState) (hsn : ∃ nd ∈ σ.nodes, nd.id = stateName) :
    ClosedOut σ (endBlockF stateName endFlag x nextY σ).2 := by
  unfold endBlockF
  split
  · intro e he
    dsimp only at he
    rcases List.mem_append.mp he with he | he
    · exact Or.inl he
    · have he' : e = { id := stateName ++ "-" ++ endNodeId stateName, source := NPVal.nid stateName, target := endNodeId stateName } := by
        simpa using he
      subst he'
      refine Or.inr ⟨?_, ?_⟩
      · obtain ⟨nd, hnd, hid⟩ := hsn
        exact ⟨nd, by simp [hnd], by rw [hid]⟩
      · exact ⟨{ id := endNodeId stateName, x := x, y := nextY, type := some "End" }, by simp, rfl⟩
  · exact ClosedOut_refl σ

theorem processChoicesGo_closed
    {states : List (String × StateSpec)}
    {child : String → Int → Int → LState → Option (Int × LState)}
    (hgrow : ∀ n x y σ r, child n x y σ = some r → Grows σ r.2)
    (hPO : ∀ n x y σ r, child n x y σ = some r → ProcOut states σ r.2)
    (hens : ∀ n x y σ r, n ∈ keysOf states → child n x y σ = some r →
      n ∈ r.2.processed)
    (hcc : ∀ n x y σ r, ProcNodes σ → PosInv σ → child n x y σ = some r →
      ClosedOut σ r.2)
    (hcpos : ∀ n x y σ r, PosInv σ → child n x y σ = some r →
      PosInv r.2)
    (stateName : String) (startX nextY : Int) :
    ∀ (cs : List ChoiceRule) (index : Nat) (targets : List String)
      (maxY : Int) (σ : LState) (res : List String × Int × LState),
      processChoicesGo child stateName startX nextY cs index targets maxY σ
        = some res →
      ProcNodes σ → (∃ nd ∈ σ.nodes, nd.id = stateName) →
      (∀ c ∈ cs, ∀ t, jsField c.next = some t → t ∈ keysOf states) →
      PosInv σ → ClosedOut σ res.2.2
  | [], index, targets, maxY, σ, res => by
    intro h hPN hsn hcs hpos
    unfold processChoicesGo at h
    cases h
    exact ClosedOut_refl σ
  | choice :: rest, index, targets, maxY, σ, res => by
    intro h hPN hsn hcs hpos
    unfold processChoicesGo at h
    dsimp only at h
    have hcs' : ∀ c ∈ rest, ∀ t, jsField c.next = some t →
        t ∈ keysOf states :=
      fun c hc => hcs c (List.mem_cons_of_mem _ hc)
    split at h
    · exact processChoicesGo_closed hgrow hPO hens hcc hcpos stateName
        startX nextY rest (index+1) targets maxY σ res h hPN hsn hcs' hpos
    · rename_i tgt hn
      split at h
      · exact processChoicesGo_closed hgrow hPO hens hcc hcpos stateName
          startX nextY rest (index+1) targets maxY σ res h hPN hsn hcs'
          hpos
      · have htgtkey : tgt ∈ keysOf states :=
          hcs choice (List.mem_cons_self _ _) tgt hn
        split at h
        · rename_i hproc2
          have hrecg := processChoicesGo_grows hgrow stateName startX nextY
            rest (index+1) _ _ _ res h
          have hrecPN : ProcNodes res.2.2 :=
            procNodes_out (processChoicesGo_procOut hgrow hPO stateName
              startX nextY rest (index+1) _ _ _ res h) hrecg hPN
          have hcl := processChoicesGo_closed hgrow hPO hens hcc hcpos
            stateName startX nextY rest (index+1) _ _ _ res h hPN
            (hsn.imp (fun nd hnd => ⟨by simp [hnd.1], hnd.2⟩)) hcs'
            (fun kv hkv => hpos kv hkv)
          intro e he
          rcases hcl e he with he2 | hclosed
          · rcases List.mem_append.mp he2 with he2 | he2
            · exact Or.inl he2
            · have he' : e = { id := stateName ++ "-choice-" ++ toString index ++ "-" ++ tgt, source := NPVal.nid stateName, target := tgt } := by simpa using he2
              subst he'
              refine Or.inr ⟨?_, ?_⟩
              · obtain ⟨nd, hnd, hid⟩ := hsn
                exact ⟨nd, hrecg.node_mem (by simp [hnd]), by rw [hid]⟩
              · exact hrecPN tgt (hrecg.processed_mem hproc2)
          · exact Or.inr hclosed
        · split at h
          · simp at h
          · rename_i choiceY σ3 hc
            have hg23 : Grows _ σ3 := hgrow _ _ _ _ (choiceY, σ3) hc
            have hPN2 : ProcNodes (LState.mk σ.nodes
                (σ.edges ++
                  [{ id := stateName ++ "-choice-" ++ toString index ++ "-"
                      ++ tgt, source := NPVal.nid stateName, target := tgt }])
                σ.processed σ.positions) := fun k hk => by
              obtain ⟨nd, hnd, hid⟩ := hPN k hk
              exact ⟨nd, hnd, hid⟩
            have hpos2 : PosInv (LState.mk σ.nodes
                (σ.edges ++
                  [{ id := stateName ++ "-choice-" ++ toString index ++ "-"
                      ++ tgt, source := NPVal.nid stateName, target := tgt }])
                σ.processed σ.positions) := fun kv hkv => hpos kv hkv
            have hPN3 : ProcNodes σ3 :=
              procNodes_out (hPO _ _ _ _ (choiceY, σ3) hc) hg23 hPN2
            have hpos3 : PosInv σ3 :=
              hcpos _ _ _ _ (choiceY, σ3) hpos2 hc
            have hrecg := processChoicesGo_grows hgrow stateName startX
              nextY rest (index+1) _ _ _ res h
            have hrecPN : ProcNodes res.2.2 :=
              procNodes_out (processChoicesGo_procOut hgrow hPO stateName
                startX nextY rest (index+1) _ _ _ res h) hrecg hPN3
            have hsn3 : ∃ nd ∈ σ3.nodes, nd.id = stateName :=
              hsn.imp (fun nd hnd =>
                ⟨hg23.node_mem (by simp [hnd.1]), hnd.2⟩)
            have hcl := processChoicesGo_closed hgrow hPO hens hcc hcpos
              stateName startX nextY rest (index+1) _ _ σ3 res h hPN3 hsn3
              hcs' hpos3
            have hcc23 := hcc _ _ _ _ (choiceY, σ3) hPN2 hpos2 hc
            intro e he
            rcases hcl e he with he3 | hclosed
            · rcases hcc23 e he3 with he2 | ⟨⟨n1, hn1, hi1⟩, ⟨n2, hn2, hi2⟩⟩
              · rcases List.mem_append.mp he2 with he2 | he2
                · exact Or.inl he2
                · have he' : e = { id := stateName ++ "-choice-" ++ toString index ++ "-" ++ tgt, source := NPVal.nid stateName, target := tgt } := by
                    simpa using he2
                  subst he'
                  refine Or.inr ⟨?_, ?_⟩
                  · obtain ⟨nd, hnd, hid⟩ := hsn3
                    exact ⟨nd, hrecg.node_mem hnd, by rw [hid]⟩
                  · refine hrecPN tgt (hrecg.processed_mem ?_)
                    exact hens _ _ _ _ (choiceY, σ3) htgtkey hc
              · exact Or.inr ⟨⟨n1, hrecg.node_mem hn1, hi1⟩,
                  ⟨n2, hrecg.node_mem hn2, hi2⟩⟩
            · exact Or.inr hclosed

theorem doParallelF_closed
    {states : List (String × StateSpec)}
    {child : String → Int → Int → LState → Option (Int × LState)}
    (hgrow : ∀ n x y σ r, child n x y σ = some r → Grows σ r.2)
    (hPO : ∀ n x y σ r, child n x y σ = some r → ProcOut states σ r.2)
    (hens : ∀ n x y σ r, n ∈ keysOf states → child n x y σ = some r →
      n ∈ r.2.processed)
    (hcc : ∀ n x y σ r, ProcNodes σ → PosInv σ → child n x y σ = some r →
      ClosedOut σ r.2)
    (stateName : String) (x nextY : Int) (state : StateSpec) (σ1 : LState)
    (res : Int × LState)
    (h : doParallelF child stateName x nextY state σ1 = some res)
    (hPN : ProcNodes σ1) (hsn : ∃ nd ∈ σ1.nodes, nd.id = stateName)
    (hnext : ∀ t, jsField state.next = some t → t ∈ keysOf states)
    (hpos1 : PosInv σ1) (hck : cleanKey stateName = true)
    (hsp : stateName ∈ σ1.processed)
    (hfresh : ∀ kv ∈ σ1.positions, ∀ a b, kv.2 = NPVal.pos a b →
      ∀ i : Nat, kv.1 ≠ endKey stateName i) :
    ClosedOut σ1 res.2 := by
  unfold doParallelF at h
  dsimp only at h
  split at h
  · simp at h
  · rename_i built hb
    have hbe := buildBranchesF_closed stateName _ _ _ _ _ built hb
    have hposs := buildBranchesF_poss stateName _ _ _ _ _ built hb
    have hpos2 : PosInv (LState.mk (σ1.nodes ++ built.nodes)
        (σ1.edges ++ built.edges) σ1.processed
        (built.poss ++ σ1.positions)) := by
      intro kv hkv
      rcases List.mem_append.mp hkv with hkv | hkv
      · obtain ⟨h1, h2⟩ := hposs kv hkv
        constructor
        · intro m hm
          obtain ⟨nd, hnd, hid⟩ := h1 m hm
          exact ⟨nd, by simp [hnd], hid⟩
        · intro a b hab
          obtain ⟨j, inner, hk⟩ := h2 a b hab
          exact Or.inr ⟨stateName, j, inner, hk, hck, hsp⟩
      · refine posInv_entry_mono ?_ (hpos1 kv hkv)
        exact ⟨⟨built.nodes, rfl⟩, ⟨built.edges, rfl⟩, fun a ha => ha⟩
    split at h
    · cases h
      intro e he
      dsimp only at he
      rcases List.mem_append.mp he with he | he
      · exact Or.inl he
      · obtain ⟨hsrc, nd2, hnd2, hid2⟩ := hbe e he
        refine Or.inr ⟨?_, ⟨nd2, by simp [hnd2], hid2⟩⟩
        rcases hsrc with hsrc | ⟨nd, hnd, hid⟩
        · obtain ⟨nd, hnd, hid⟩ := hsn
          exact ⟨nd, by simp [hnd], by rw [hsrc, hid]⟩
        · exact ⟨nd, by simp [hnd], hid⟩
    · rename_i nxt hnx
      have htgtkey : nxt ∈ keysOf states := hnext nxt hnx
      have hgc := hgrow _ _ _ _ res h
      have hPNr : ProcNodes res.2 :=
        procNodes_out (hPO _ _ _ _ res h) hgc (fun k hk => by
          obtain ⟨nd, hnd, hid⟩ := hPN k hk
          exact ⟨nd, by simp [hnd], hid⟩)
      have hclc := hcc _ _ _ _ res
        (by
          intro k hk
          obtain ⟨nd, hnd, hid⟩ := hPN k hk
          exact ⟨nd, by simp [hnd], hid⟩)
        (by exact fun kv hkv => hpos2 kv hkv) h
      intro e he
      rcases hclc e he with he3 | hclosed
      · dsimp only at he3
        rcases List.mem_append.mp he3 with he3 | he3
        · rcases List.mem_append.mp he3 with he3 | he3
          · exact Or.inl he3
          · obtain ⟨hsrc, nd2, hnd2, hid2⟩ := hbe e he3
            refine Or.inr ⟨?_, ⟨nd2, hgc.node_mem (by simp [hnd2]),
              hid2⟩⟩
            rcases hsrc with hsrc | ⟨nd, hnd, hid⟩
            · obtain ⟨nd, hnd, hid⟩ := hsn
              exact ⟨nd, hgc.node_mem (by simp [hnd]), by rw [hsrc, hid]⟩
            · exact ⟨nd, hgc.node_mem (by simp [hnd]), hid⟩
        · obtain ⟨index, hidx, hfe⟩ := List.mem_filterMap.mp he3
          split at hfe
          · cases hfe
          · rename_i v heq
            by_cases htr : npTruthy v = true
            · rw [if_pos htr] at hfe
              cases hfe
              rw [jsLookup_append] at heq
              cases hlk1 : jsLookup built.poss (endKey stateName index)
                  with
              | some w =>
                rw [hlk1] at heq
                rw [show (Option.some w).or
                    (jsLookup σ1.positions (endKey stateName index)) =
                    some w from rfl] at heq
                have hwv := Option.some.inj heq
                rcases buildBranchesF_end_lookup stateName _ _ _ _ _ built
                    hb index with hnone | ⟨m, hm, nd, hnd, hid⟩
                · rw [hnone] at hlk1
                  cases hlk1
                · rw [hm] at hlk1
                  have hvm : v = NPVal.nid m := by
                    rw [← hwv]
                    exact (Option.some.inj hlk1).symm
                  subst hvm
                  refine Or.inr ⟨⟨nd, hgc.node_mem (by simp [hnd]),
                    by rw [hid]⟩,
                    hPNr nxt (hens _ _ _ _ res htgtkey h)⟩
              | none =>
                rw [hlk1, Option.none_or] at heq
                have hmem := jsLookup_mem heq
                obtain ⟨hc1, hc2⟩ := hpos1 _ hmem
                cases v with
                | pos a b =>
                  exact absurd rfl (hfresh _ hmem a b rfl index)
                | nid m =>
                  obtain ⟨nd, hnd, hid⟩ := hc1 m rfl
                  exact Or.inr ⟨⟨nd, hgc.node_mem (by simp [hnd]),
                    by rw [hid]⟩,
                    hPNr nxt (hens _ _ _ _ res htgtkey h)⟩
            · rw [if_neg htr] at hfe
              cases hfe
      · exact Or.inr hclosed

theorem doChoiceF_closed
    {states : List (String × StateSpec)}
    {child : String → Int → Int → LState → Option (Int × LState)}
    (hgrow : ∀ n x y σ r, child n x y σ = some r → Grows σ r.2)
    (hPO : ∀ n x y σ r, child n x y σ = some r → ProcOut states σ r.2)
    (hens : ∀ n x y σ r, n ∈ keysOf states → child n x y σ = some r →
      n ∈ r.2.processed)
    (hcc : ∀ n x y σ r, ProcNodes σ → PosInv σ → child n x y σ = some r →
      ClosedOut σ r.2)
    (hcpos : ∀ n x y σ r, PosInv σ → child n x y σ = some r →
      PosInv r.2)
    (stateName : String) (x nextY : Int) (state : StateSpec) (σ1 : LState)
    (res : Int × LState)
    (h : doChoiceF child stateName x nextY state σ1 = some res)
    (hPN : ProcNodes σ1) (hsn : ∃ nd ∈ σ1.nodes, nd.id = stateName)
    (hchoices : ∀ c ∈ state.choices.getD [], ∀ t,
      jsField c.next = some t → t ∈ keysOf states)
    (hdefault : ∀ t, jsField state.default = some t → t ∈ keysOf states)
    (hpos : PosInv σ1) :
    ClosedOut σ1 res.2 := by
  unfold doChoiceF at h
  dsimp only at h
  split at h
  · simp at h
  · rename_i targets maxChoiceY σ2 hgo
    have hg12 : Grows σ1 σ2 :=
      processChoicesGo_grows hgrow _ _ _ _ _ _ _ _ _ hgo
    have hPN2 : ProcNodes σ2 :=
      procNodes_out (processChoicesGo_procOut hgrow hPO _ _ _ _ _ _ _ _ _
        hgo) hg12 hPN
    have hp2 : PosInv σ2 :=
      processChoicesGo_posInv hcpos _ _ _ _ _ _ _ _ _ hgo hpos
    have hcl12 : ClosedOut σ1 σ2 :=
      processChoicesGo_closed hgrow hPO hens hcc hcpos stateName _ _ _ _ _
        _ _ _ hgo hPN hsn hchoices hpos
    have hsn2 : ∃ nd ∈ σ2.nodes, nd.id = stateName :=
      hsn.imp (fun nd hnd => ⟨hg12.node_mem hnd.1, hnd.2⟩)
    split at h
    · cases h
      exact hcl12
    · rename_i dflt hd
      have hdkey : dflt ∈ keysOf states := hdefault dflt hd
      split at h
      · cases h
        exact hcl12
      · split at h
        · rename_i hproc3
          cases h
          intro e he
          dsimp only at he
          rcases List.mem_append.mp he with he | he
          · rcases hcl12 e he with he1 | ⟨⟨n1, hn1, hi1⟩, ⟨n2, hn2, hi2⟩⟩
            · exact Or.inl he1
            · exact Or.inr ⟨⟨n1, by simp [hn1], hi1⟩,
                ⟨n2, by simp [hn2], hi2⟩⟩
          · have he' : e = { id := stateName ++ "-default-" ++ dflt, source := NPVal.nid stateName, target := dflt } := by
              simpa using he
            subst he'
            refine Or.inr ⟨?_, ?_⟩
            · obtain ⟨nd, hnd, hid⟩ := hsn2
              exact ⟨nd, by simp [hnd], by rw [hid]⟩
            · obtain ⟨nd, hnd, hid⟩ := hPN2 dflt hproc3
              exact ⟨nd, by simp [hnd], hid⟩
        · split at h
          · simp at h
          · rename_i defaultY σ4 hc
            cases h
            have hg34 : Grows _ σ4 := hgrow _ _ _ _ (defaultY, σ4) hc
            have hPN3 : ProcNodes (LState.mk σ2.nodes
                (σ2.edges ++ [{ id := stateName ++ "-default-" ++ dflt, source := NPVal.nid stateName, target := dflt }])
                σ2.processed σ2.positions) := fun k hk => by
              obtain ⟨nd, hnd, hid⟩ := hPN2 k hk
              exact ⟨nd, hnd, hid⟩
            have hpos3 : PosInv (LState.mk σ2.nodes
                (σ2.edges ++ [{ id := stateName ++ "-default-" ++ dflt, source := NPVal.nid stateName, target := dflt }])
                σ2.processed σ2.positions) := fun kv hkv => hp2 kv hkv
            have hPN4 : ProcNodes σ4 :=
              procNodes_out (hPO _ _ _ _ (defaultY, σ4) hc) hg34 hPN3
            have hcl34 := hcc _ _ _ _ (defaultY, σ4) hPN3 hpos3 hc
            intro e he
            rcases hcl34 e he with he3 | hclosed
            · rcases List.mem_append.mp he3 with he3 | he3
              · rcases hcl12 e he3 with he1 | ⟨⟨n1, hn1, hi1⟩, ⟨n2, hn2, hi2⟩⟩
                · exact Or.inl he1
                · exact Or.inr ⟨⟨n1, hg34.node_mem hn1, hi1⟩,
                    ⟨n2, hg34.node_mem hn2, hi2⟩⟩
              · have he' : e = { id := stateName ++ "-default-" ++ dflt, source := NPVal.nid stateName, target := dflt } := by
                  simpa using he3
                subst he'
                refine Or.inr ⟨?_, ?_⟩
                · obtain ⟨nd, hnd, hid⟩ := hsn2
                  exact ⟨nd, hg34.node_mem hnd, by rw [hid]⟩
                · exact hPN4 dflt (hens _ _ _ _ (defaultY, σ4) hdkey hc)
            · exact Or.inr hclosed

theorem doRegularF_closed
    (states : List (String × StateSpec))
    {child : String → Int → Int → LState → Option (Int × LState)}
    (hgrow : ∀ n x y σ r, child n x y σ = some r → Grows σ r.2)
    (hPO : ∀ n x y σ r, child n x y σ = some r → ProcOut states σ r.2)
    (hens : ∀ n x y σ r, n ∈ keysOf states → child n x y σ = some r →
      n ∈ r.2.processed)
    (hcc : ∀ n x y σ r, ProcNodes σ → PosInv σ → child n x y σ = some r →
      ClosedOut σ r.2)
    (stateName : String) (x y nextY : Int) (state : StateSpec)
    (σ1 : LState) (res : Int × LState)
    (h : doRegularF states child stateName x y nextY state σ1 = some res)
    (hPN : ProcNodes σ1) (hsn : ∃ nd ∈ σ1.nodes, nd.id = stateName)
    (hcatch : ∀ cb ∈ state.catchRules, ∀ t, jsField cb.next = some t →
      (lookupState states t).map StateSpec.type = some (some "Fail"))
    (hnext : ∀ t, jsField state.next = some t → t ∈ keysOf states)
    (hClean : CleanIds states) (hpos : PosInv σ1) :
    ClosedOut σ1 res.2 := by
  unfold doRegularF at h
  dsimp only at h
  have hp2 : PosInv
      (processCatchF states stateName x y state.catchRules 0 σ1) :=
    processCatchF_posInv hClean stateName x y state.catchRules 0 σ1 hpos
  have hg12 : Grows σ1
      (processCatchF states stateName x y state.catchRules 0 σ1) :=
    processCatchF_grows states stateName x y state.catchRules 0 σ1
  have hPN2 : ProcNodes
      (processCatchF states stateName x y state.catchRules 0 σ1) :=
    procNodes_out (processCatchF_procOut states stateName x y
      state.catchRules 0 σ1) hg12 hPN
  have hcl12 : ClosedOut σ1
      (processCatchF states stateName x y state.catchRules 0 σ1) :=
    processCatchF_closed states stateName x y state.catchRules 0 σ1 hPN hsn
      hcatch
  have hsn2 : ∃ nd ∈
      (processCatchF states stateName x y state.catchRules 0 σ1).nodes,
      nd.id = stateName :=
    hsn.imp (fun nd hnd => ⟨hg12.node_mem hnd.1, hnd.2⟩)
  split at h
  · cases h
    exact ClosedOut_trans hcl12
      (endBlockF_closed stateName state.endFlag x nextY _ hsn2)
      (endBlockF_grows _ _ _ _ _)
  · rename_i nxt hnx
    have hnkey : nxt ∈ keysOf states := hnext nxt hnx
    split at h
    · rename_i hproc3
      cases h
      have hsn3 : ∃ nd ∈ (LState.mk
          (processCatchF states stateName x y state.catchRules 0 σ1).nodes
          ((processCatchF states stateName x y state.catchRules 0
            σ1).edges ++ [{ id := stateName ++ "-" ++ nxt, source := NPVal.nid stateName, target := nxt }])
          (processCatchF states stateName x y state.catchRules 0
            σ1).processed
          (processCatchF states stateName x y state.catchRules 0
            σ1).positions).nodes, nd.id = stateName := hsn2
      have hcl3e := endBlockF_closed stateName state.endFlag x nextY _ hsn3
      have hge := endBlockF_grows stateName state.endFlag x nextY
        (LState.mk
          (processCatchF states stateName x y state.catchRules 0 σ1).nodes
          ((processCatchF states stateName x y state.catchRules 0
            σ1).edges ++ [{ id := stateName ++ "-" ++ nxt, source := NPVal.nid stateName, target := nxt }])
          (processCatchF states stateName x y state.catchRules 0
            σ1).processed
          (processCatchF states stateName x y state.catchRules 0
            σ1).positions)
      intro e he
      rcases hcl3e e he with he3 | hclosed
      · rcases List.mem_append.mp he3 with he3 | he3
        · rcases hcl12 e he3 with he1 | ⟨⟨n1, hn1, hi1⟩, ⟨n2, hn2, hi2⟩⟩
          · exact Or.inl he1
          · exact Or.inr ⟨⟨n1, hge.node_mem hn1, hi1⟩,
              ⟨n2, hge.node_mem hn2, hi2⟩⟩
        · have he' : e = { id := stateName ++ "-" ++ nxt, source := NPVal.nid stateName, target := nxt } := by
            simpa using he3
          subst he'
          refine Or.inr ⟨?_, ?_⟩
          · obtain ⟨nd, hnd, hid⟩ := hsn2
            exact ⟨nd, hge.node_mem hnd, by rw [hid]⟩
          · obtain ⟨nd, hnd, hid⟩ := hPN2 nxt hproc3
            exact ⟨nd, hge.node_mem hnd, hid⟩
      · exact Or.inr hclosed
    · split at h
      · simp at h
      · rename_i nextY2 σ4 hc
        cases h
        have hg34 : Grows _ σ4 := hgrow _ _ _ _ (nextY2, σ4) hc
        have hPN3 : ProcNodes (LState.mk
            (processCatchF states stateName x y state.catchRules 0
              σ1).nodes
            ((processCatchF states stateName x y state.catchRules 0
              σ1).edges ++ [{ id := stateName ++ "-" ++ nxt, source := NPVal.nid stateName, target := nxt }])
            (processCatchF states stateName x y state.catchRules 0
              σ1).processed
            (processCatchF states stateName x y state.catchRules 0
              σ1).positions) := fun k hk => by
          obtain ⟨nd, hnd, hid⟩ := hPN2 k hk
          exact ⟨nd, hnd, hid⟩
        have hpos3 : PosInv (LState.mk
            (processCatchF states stateName x y state.catchRules 0
              σ1).nodes
            ((processCatchF states stateName x y state.catchRules 0
              σ1).edges ++ [{ id := stateName ++ "-" ++ nxt, source := NPVal.nid stateName, target := nxt }])
            (processCatchF states stateName x y state.catchRules 0
              σ1).processed
            (processCatchF states stateName x y state.catchRules 0
              σ1).positions) := fun kv hkv => hp2 kv hkv
        have hPN4 : ProcNodes σ4 :=
          procNodes_out (hPO _ _ _ _ (nextY2, σ4) hc) hg34 hPN3
        have hcl34 := hcc _ _ _ _ (nextY2, σ4) hPN3 hpos3 hc
        have hsn4 : ∃ nd ∈ σ4.nodes, nd.id = stateName :=
          hsn2.imp (fun nd hnd => ⟨hg34.node_mem hnd.1, hnd.2⟩)
        have hcl4e := endBlockF_closed stateName state.endFlag x nextY2 σ4
          hsn4
        have hge := endBlockF_grows stateName state.endFlag x nextY2 σ4
        intro e he
        rcases hcl4e e he with he4 | hclosed
        · rcases hcl34 e he4 with he3 | ⟨⟨n1, hn1, hi1⟩, ⟨n2, hn2, hi2⟩⟩
          · rcases List.mem_append.mp he3 with he3 | he3
            · rcases hcl12 e he3 with he1 | ⟨⟨n1, hn1, hi1⟩, ⟨n2, hn2, hi2⟩⟩
              · exact Or.inl he1
              · exact Or.inr
                  ⟨⟨n1, hge.node_mem (hg34.node_mem hn1), hi1⟩,
                   ⟨n2, hge.node_mem (hg34.node_mem hn2), hi2⟩⟩
            · have he' : e = { id := stateName ++ "-" ++ nxt, source := NPVal.nid stateName, target := nxt } := by
                simpa using he3
              subst he'
              refine Or.inr ⟨?_, ?_⟩
              · obtain ⟨nd, hnd, hid⟩ := hsn4
                exact ⟨nd, hge.node_mem hnd, by rw [hid]⟩
              · obtain ⟨nd, hnd, hid⟩ := hPN4 nxt
                  (hens _ _ _ _ (nextY2, σ4) hnkey hc)
                exact ⟨nd, hge.node_mem hnd, hid⟩
          · exact Or.inr ⟨⟨n1, hge.node_mem hn1, hi1⟩,
              ⟨n2, hge.node_mem hn2, hi2⟩⟩
        · exact Or.inr hclosed

theorem processStateF_closed (states : List (String × StateSpec))
    (hClean : CleanIds states)
    (hT2 : ∀ p ∈ states, ∀ t ∈ followedTargets p.2, t ∈ keysOf states)
    (hC2 : ∀ p ∈ states, ∀ t ∈ catchTargets p.2,
      (lookupState states t).map StateSpec.type = some (some "Fail")) :
    ∀ (fuel : Nat) (stateName : String) (x y : Int) (σ : LState)
      (res : Int × LState),
      processStateF states fuel stateName x y σ = some res →
      ProcNodes σ → PosInv σ → ClosedOut σ res.2
  | 0, stateName, x, y, σ, res => by intro h _ _; cases h
  | fuel+1, stateName, x, y, σ, res => by
    intro h hPN hpos
    have hgrow : ∀ n x y σ r,
        processStateF states fuel n x y σ = some r → Grows σ r.2 :=
      fun n x y σ r hr => processStateF_grows states fuel n x y σ r hr
    have hPO : ∀ n x y σ r,
        processStateF states fuel n x y σ = some r →
        ProcOut states σ r.2 :=
      fun n x y σ r hr => processStateF_procOut states fuel n x y σ r hr
    have hens : ∀ n x y σ r, n ∈ keysOf states →
        processStateF states fuel n x y σ = some r → n ∈ r.2.processed :=
      fun n x y σ r hk hr => processStateF_ensure states fuel n x y σ r hk hr
    have hcc : ∀ n x y σ r, ProcNodes σ → PosInv σ →
        processStateF states fuel n x y σ = some r → ClosedOut σ r.2 :=
      fun n x y σ r hp hpσ hr =>
        processStateF_closed states hClean hT2 hC2 fuel n x y σ r hr hp hpσ
    have hcpos : ∀ n x y σ r, PosInv σ →
        processStateF states fuel n x y σ = some r → PosInv r.2 :=
      fun n x y σ r hpσ hr =>
        processStateF_posInv states hClean fuel n x y σ r hr hpσ
    unfold processStateF at h
    split at h
    · cases h
      exact ClosedOut_refl σ
    · rename_i hproc
      split at h
      · cases h
        exact ClosedOut_refl σ
      · rename_i state hl
        dsimp only at h
        have hmem : (stateName, state) ∈ states := jsLookup_mem hl
        have hsome : (lookupState states stateName).isSome := by
          rw [hl]; rfl
        have hck : cleanKey stateName = true :=
          cleanKey_of_mem_keys hClean (keysOf_of_isSome hsome)
        have hPN1 : ProcNodes (LState.mk
            (σ.nodes ++
              [{ id := stateName, x := x, y := y, type := state.type }])
            σ.edges (insert stateName σ.processed)
            ((stateName, NPVal.pos x y) :: σ.positions)) := by
          intro k hk
          rcases Finset.mem_insert.mp hk with hkt | hkσ
          · subst hkt
            exact ⟨{ id := k, x := x, y := y, type := state.type },
              by simp, rfl⟩
          · obtain ⟨nd, hnd, hid⟩ := hPN k hkσ
            exact ⟨nd, by simp [hnd], hid⟩
        have hp1 : PosInv (LState.mk
            (σ.nodes ++
              [{ id := stateName, x := x, y := y, type := state.type }])
            σ.edges (insert stateName σ.processed)
            ((stateName, NPVal.pos x y) :: σ.positions)) := by
          intro kv hkv
          rcases List.mem_cons.mp hkv with rfl | hkv2
          · refine ⟨(fun m hm => by cases hm), ?_⟩
            intro a b _
            exact Or.inl hck
          · refine posInv_entry_mono ?_ (hpos kv hkv2)
            exact ⟨⟨_, rfl⟩, ⟨[], (List.append_nil _).symm⟩,
              fun a ha => Finset.mem_insert_of_mem ha⟩
        have hfresh1 : ∀ kv ∈ ((stateName, NPVal.pos x y) :: σ.positions),
            ∀ a b, kv.2 = NPVal.pos a b → ∀ i : Nat,
            kv.1 ≠ endKey stateName i := by
          intro kv hkv a b hab i
          rcases List.mem_cons.mp hkv with rfl | hkv2
          · exact cleanKey_ne_endKey hck stateName i
          · obtain ⟨_, h2⟩ := hpos kv hkv2
            rcases h2 a b hab with hc | ⟨p, j, inner, hkk, hpc, hpp⟩
            · exact cleanKey_ne_endKey hc stateName i
            · intro hke
              rw [hkk] at hke
              have hps : p = stateName :=
                branchNodeId_eq_endKey hpc hck hke
              subst hps
              exact hproc hpp
        have hsn1 : ∃ nd ∈ (LState.mk
            (σ.nodes ++
              [{ id := stateName, x := x, y := y, type := state.type }])
            σ.edges (insert stateName σ.processed)
            ((stateName, NPVal.pos x y) :: σ.positions)).nodes,
            nd.id = stateName :=
          ⟨{ id := stateName, x := x, y := y, type := state.type },
            by simp, rfl⟩
        have hcl01 : ClosedOut σ (LState.mk
            (σ.nodes ++
              [{ id := stateName, x := x, y := y, type := state.type }])
            σ.edges (insert stateName σ.processed)
            ((stateName, NPVal.pos x y) :: σ.positions)) :=
          fun e he => Or.inl he
        split at h
        · rename_i hpar
          refine ClosedOut_trans hcl01
            (doParallelF_closed hgrow hPO hens hcc _ _ _ _ _ _ h hPN1 hsn1
              ?_ hp1 hck (Finset.mem_insert_self _ _) hfresh1)
            (doParallelF_grows hgrow _ _ _ _ _ _ h)
          intro t ht
          refine hT2 (stateName, state) hmem t ?_
          simp [followedTargets, hpar, ht]
        · rename_i hpar
          split at h
          · rename_i hch
            refine ClosedOut_trans hcl01
              (doChoiceF_closed hgrow hPO hens hcc hcpos _ _ _ _ _ _ h
                hPN1 hsn1 ?_ ?_ hp1) (doChoiceF_grows hgrow _ _ _ _ _ _ h)
            · intro c hc t ht
              refine hT2 (stateName, state) hmem t ?_
              simp only [followedTargets, if_neg hpar, if_pos hch]
              exact List.mem_append_left _
                (List.mem_filterMap.mpr ⟨c, hc, ht⟩)
            · intro t ht
              refine hT2 (stateName, state) hmem t ?_
              simp only [followedTargets, if_neg hpar, if_pos hch]
              exact List.mem_append_right _ (by simp [ht])
          · rename_i hch
            refine ClosedOut_trans hcl01
              (doRegularF_closed states hgrow hPO hens hcc _ _ _ _ _ _ _ h
                hPN1 hsn1 ?_ ?_ hClean hp1)
              (doRegularF_grows states hgrow _ _ _ _ _ _ _ h)
            · intro cb hcb t ht
              refine hC2 (stateName, state) hmem t ?_
              simp only [catchTargets, if_neg hpar, if_neg hch]
              exact List.mem_filterMap.mpr ⟨cb, hcb, ht⟩
            · intro t ht
              refine hT2 (stateName, state) hmem t ?_
              simp only [followedTargets, if_neg hpar, if_neg hch]
              simp [ht]

/-- C1, counterexample: a `Next` target that is not a key of the `States`
map still gets an edge but never a node — on `dDangling` some edge's
target is the id of no node in the result. -/
theorem layout_dangling_edge :
    (((parseStateMachineCore dDangling).getD ⟨[], []⟩).edges.any (fun e =>
      ((parseStateMachineCore dDangling).getD ⟨[], []⟩).nodes.all
        (fun nd => !(nd.id == e.target)))) = true := by decide

/-- C1 (amended): in every graph the engine returns for a definition all
of whose followed transition targets (start, next, choice, default,
parallel successor) are keys of the `States` map, all of whose catch
targets are keys of `Fail` kind, and all of whose `States` keys are clean
identifiers (nonempty, not starting with an underscore and without the
substring `_branch_`, so no key can collide with a synthesized
`nodePositions` bookkeeping key), every edge's source and target name a
node present in the returned nodes. -/
theorem layout_edges_closed (d : StateMachineDef) (hT : TargetsOk d)
    (hC : CatchOk d) (hK : CleanIds d.states) (g : Graph)
    (hg : parseStateMachineCore d = some g) :
    ∀ e ∈ g.edges, (∃ nd ∈ g.nodes, NPVal.nid nd.id = e.source) ∧
      (∃ nd ∈ g.nodes, nd.id = e.target) := by
  unfold parseStateMachineCore at hg
  split at hg
  · cases hg
    intro e he
    cases he
  · rename_i startAt hstart
    split at hg
    · cases hg
      intro e he
      cases he
    · dsimp only at hg
      split at hg
      · cases hg
      · rename_i yv σf hres
        cases hg
        set σ0 : LState := LState.mk
          [{ id := "__START__", x := 0, y := 0, type := some "Start" }]
          [{ id := "__START__" ++ "-" ++ startAt, source := NPVal.nid "__START__",
             target := startAt }] ∅ [] with hσ0
        have hPN0 : ProcNodes σ0 := fun k hk => by
          rw [hσ0] at hk
          simp at hk
        have hpos0 : PosInv σ0 := fun kv hkv => by
          rw [hσ0] at hkv
          simp at hkv
        have hg0 : Grows σ0 σf :=
          processStateF_grows d.states _ _ _ _ _ (yv, σf) hres
        have hPO0 : ProcOut d.states σ0 σf :=
          processStateF_procOut d.states _ _ _ _ _ (yv, σf) hres
        have hPNf : ProcNodes σf := procNodes_out hPO0 hg0 hPN0
        have hskey : startAt ∈ keysOf d.states := by
          have := hT.1 startAt
          simp [hstart] at this
          exact this
        have hstartproc : startAt ∈ σf.processed :=
          processStateF_ensure d.states _ _ _ _ _ (yv, σf) hskey hres
        have hcl : ClosedOut σ0 σf :=
          processStateF_closed d.states hK hT.2 hC _ _ _ _ _ (yv, σf) hres
            hPN0 hpos0
        intro e he
        rcases hcl e he with he0 | hclosed
        · have he' : e = { id := "__START__" ++ "-" ++ startAt, source := NPVal.nid "__START__", target := startAt } := by
            rw [hσ0] at he0
            simpa using he0
          subst he'
          refine ⟨?_, ?_⟩
          · refine ⟨{ id := "__START__", x := 0, y := 0, type := some "Start" }, ?_, rfl⟩
            exact hg0.node_mem (by rw [hσ0]; simp)
          · exact hPNf startAt hstartproc
        · exact hclosed

/-- Witness for `layout_edges_closed`: on the Parallel-rejoin definition
the hypotheses hold and the rejoin edge into `S` ends at an existing
node. -/
theorem layout_edges_closed_witness :
    TargetsOk dParallel ∧ CatchOk dParallel ∧ CleanIds dParallel.states ∧
    (gParallel.nodes.any (fun nd => nd.id == "S")) = true := by
  refine ⟨by decide, by decide, by decide, ?_⟩
  have h := layout_edges_closed dParallel (by decide) (by decide)
    (by decide) gParallel (by decide)
  obtain ⟨_, nd, hnd, hid⟩ := h
    { id := "P_branch_0_A2" ++ "-to-" ++ "S", source := NPVal.nid "P_branch_0_A2", target := "S" }
    (by decide)
  exact List.any_eq_true.mpr ⟨nd, hnd, by simp [hid]⟩

/-- The shared `nodePositions` map is a live channel between states: on
`dPolluted` — whose state literally named `P_branch_0_end` is laid out
before the Parallel state `P`, and whose branch 0 is invalid so the
branch loop never overwrites that key — the rejoin loop reads the stale
position object and pushes an edge whose source is that object and names
no node, even though `TargetsOk` and `CatchOk` hold.  This is why
`layout_edges_closed` assumes clean state identifiers. -/
theorem parallel_rejoin_stale_position :
    TargetsOk dPolluted ∧ CatchOk dPolluted ∧
    (parseStateMachineCore dPolluted).isSome = true ∧
    ((parseStateMachineCore dPolluted).getD ⟨[], []⟩).edges.any
      (fun e => e.source == NPVal.pos 0 100 &&
        ((parseStateMachineCore dPolluted).getD ⟨[], []⟩).nodes.all
          (fun nd => !(NPVal.nid nd.id == e.source))) = true := by decide

/-- C6: for the Parallel state of `dParallel` — 2 branches, each a linear
chain of 2 states, followed by the shared successor `S` — the successor
appears exactly once in the returned nodes and receives exactly 2 incoming
edges, one from the last state of each branch. -/
theorem parallel_rejoin_two_edges :
    parseStateMachineCore dParallel = some gParallel ∧
    (gParallel.nodes.filter (fun nd => nd.id == "S")).length = 1 ∧
    (gParallel.edges.filter (fun e => e.target == "S")).length = 2 ∧
    (gParallel.edges.filter (fun e => e.target == "S")).map Edge.source
      = [NPVal.nid "P_branch_0_A2", NPVal.nid "P_branch_1_B2"] := by decide

/-! ### Reachability completeness -/

theorem FollowOut_refl (states : List (String × StateSpec)) (σ : LState) :
    FollowOut states σ σ := fun m hm => Or.inl hm

theorem FollowOut_trans {states : List (String × StateSpec)}
    {a b c : LState} (h1 : FollowOut states a b) (h2 : FollowOut states b c)
    (hg : Grows b c) : FollowOut states a c := by
  intro m hm
  rcases h2 m hm with hb | hcl
  · rcases h1 m hb with ha | hcl
    · exact Or.inl ha
    · exact Or.inr (fun spec hspec t ht hts =>
        hg.processed_mem (hcl spec hspec t ht hts))
  · exact Or.inr hcl

/-- A `Fail`-kind state with no truthy `Next` has no followed targets. -/
theorem followedTargets_fail_nil {spec : StateSpec}
    (hty : spec.type = some "Fail") (hnx : jsField spec.next = none) :
    followedTargets spec = [] := by
  have h1 : isParallelPath spec = false := by
    simp [isParallelPath, hty]
  have h2 : isChoicePath spec = false := by
    simp [isChoicePath, hty]
  simp [followedTargets, h1, h2, hnx]

theorem catchStepF_followOut (states : List (String × StateSpec))
    (hFI : ∀ p ∈ states, p.2.type = some "Fail" → jsField p.2.next = none)
    (stateName : String) (x y : Int) (index : Nat) (tgt : String)
    (σ : LState) :
    FollowOut states σ (catchStepF states stateName x y index tgt σ) := by
  unfold catchStepF
  dsimp only
  split
  · rename_i ts hts
    split
    · rename_i hcond
      intro m hm
      rcases Finset.mem_insert.mp hm with hmt | hmσ
      · subst hmt
        refine Or.inr ?_
        intro spec hspec t ht hts2
        rw [hts] at hspec
        cases hspec
        rw [followedTargets_fail_nil hcond.1
          (hFI (m, ts) (jsLookup_mem hts) hcond.1)] at ht
        cases ht
      · exact Or.inl hmσ
    · exact fun m hm => Or.inl hm
  · exact fun m hm => Or.inl hm

theorem processCatchF_followOut (states : List (String × StateSpec))
    (hFI : ∀ p ∈ states, p.2.type = some "Fail" → jsField p.2.next = none)
    (stateName : String) (x y : Int) :
    ∀ (rules : List CatchRule) (index : Nat) (σ : LState),
      FollowOut states σ (processCatchF states stateName x y rules index σ)
  | [], _, σ => FollowOut_refl states σ
  | cb :: rest, index, σ => by
    unfold processCatchF
    cases hn : jsField cb.next with
    | none =>
      exact processCatchF_followOut states hFI stateName x y rest (index+1)
        σ
    | some tgt =>
      exact FollowOut_trans
        (catchStepF_followOut states hFI stateName x y index tgt σ)
        (processCatchF_followOut states hFI stateName x y rest (index+1) _)
        (processCatchF_grows states stateName x y rest (index+1) _)

/-- The choice loop processes (or finds processed) every truthy choice
target, maintaining the invariant that every key in `choiceTargets` is in
the visited set. -/
theorem processChoicesGo_follow
    {states : List (String × StateSpec)}
    {child : String → Int → Int → LState → Option (Int × LState)}
    (hgrow : ∀ n x y σ r, child n x y σ = some r → Grows σ r.2)
    (hens : ∀ n x y σ r, n ∈ keysOf states → child n x y σ = some r →
      n ∈ r.2.processed)
    (hFO : ∀ n x y σ r, child n x y σ = some r → FollowOut states σ r.2)
    (stateName : String) (startX nextY : Int) :
    ∀ (cs : List ChoiceRule) (index : Nat) (targets : List String)
      (maxY : Int) (σ : LState) (res : List String × Int × LState),
      processChoicesGo child stateName startX nextY cs index targets maxY σ
        = some res →
      (∀ t ∈ targets, (lookupState states t).isSome → t ∈ σ.processed) →
      FollowOut states σ res.2.2 ∧
      (∀ t ∈ res.1, (lookupState states t).isSome →
        t ∈ res.2.2.processed) ∧
      (∀ c ∈ cs, ∀ t, jsField c.next = some t → t ∈ res.1) ∧
      (∀ t ∈ targets, t ∈ res.1)
  | [], index, targets, maxY, σ, res => by
    intro h hinv
    unfold processChoicesGo at h
    cases h
    exact ⟨FollowOut_refl states σ, hinv,
      (fun c hc => by cases hc), fun t ht => ht⟩
  | choice :: rest, index, targets, maxY, σ, res => by
    intro h hinv
    unfold processChoicesGo at h
    dsimp only at h
    split at h
    · rename_i hn
      obtain ⟨h1, h2, h3, h4⟩ := processChoicesGo_follow hgrow hens hFO
        stateName startX nextY rest (index+1) targets maxY σ res h hinv
      refine ⟨h1, h2, ?_, h4⟩
      intro c hc t ht
      rcases List.mem_cons.mp hc with rfl | hc
      · rw [hn] at ht; cases ht
      · exact h3 c hc t ht
    · rename_i tgt hn
      split at h
      · rename_i hdup
        obtain ⟨h1, h2, h3, h4⟩ := processChoicesGo_follow hgrow hens hFO
          stateName startX nextY rest (index+1) targets maxY σ res h hinv
        refine ⟨h1, h2, ?_, h4⟩
        intro c hc t ht
        rcases List.mem_cons.mp hc with rfl | hc
        · rw [hn] at ht
          cases ht
          exact h4 tgt (by simpa using hdup)
        · exact h3 c hc t ht
      · rename_i hdup
        split at h
        · rename_i hproc2
          have hinv2 : ∀ t ∈ targets ++ [tgt],
              (lookupState states t).isSome →
              t ∈ (LState.mk σ.nodes
                (σ.edges ++ [{ id := stateName ++ "-choice-" ++ toString index ++ "-" ++ tgt, source := NPVal.nid stateName, target := tgt }])
                σ.processed σ.positions).processed := by
            intro t ht hts
            rcases List.mem_append.mp ht with ht | ht
            · exact hinv t ht hts
            · have : t = tgt := by simpa using ht
              subst this
              exact hproc2
          obtain ⟨h1, h2, h3, h4⟩ := processChoicesGo_follow hgrow hens hFO
            stateName startX nextY rest (index+1) _ maxY _ res h hinv2
          refine ⟨?_, h2, ?_, ?_⟩
          · intro m hm
            rcases h1 m hm with hm2 | hcl
            · exact Or.inl hm2
            · exact Or.inr hcl
          · intro c hc t ht
            rcases List.mem_cons.mp hc with rfl | hc
            · rw [hn] at ht
              cases ht
              exact h4 tgt (List.mem_append_right _ (by simp))
            · exact h3 c hc t ht
          · exact fun t ht => h4 t (List.mem_append_left _ ht)
        · rename_i hproc2
          split at h
          · simp at h
          · rename_i choiceY σ3 hc
            have hg23 := hgrow _ _ _ _ (choiceY, σ3) hc
            have hinv3 : ∀ t ∈ targets ++ [tgt],
                (lookupState states t).isSome → t ∈ σ3.processed := by
              intro t ht hts
              rcases List.mem_append.mp ht with ht | ht
              · exact hg23.processed_mem (hinv t ht hts)
              · have : t = tgt := by simpa using ht
                subst this
                exact hens _ _ _ _ (choiceY, σ3) (keysOf_of_isSome hts) hc
            obtain ⟨h1, h2, h3, h4⟩ := processChoicesGo_follow hgrow hens
              hFO stateName startX nextY rest (index+1) _ _ σ3 res h hinv3
            refine ⟨?_, h2, ?_, ?_⟩
            · refine FollowOut_trans ?_
                (FollowOut_trans (hFO _ _ _ _ (choiceY, σ3) hc) h1
                  (processChoicesGo_grows hgrow stateName startX nextY rest
                    (index+1) _ _ _ res h))
                (Grows_trans (hgrow _ _ _ _ (choiceY, σ3) hc)
                  (processChoicesGo_grows hgrow stateName startX nextY rest
                    (index+1) _ _ _ res h))
              exact fun m hm => Or.inl hm
            · intro c hc2 t ht
              rcases List.mem_cons.mp hc2 with rfl | hc2
              · rw [hn] at ht
                cases ht
                exact h4 tgt (List.mem_append_right _ (by simp))
              · exact h3 c hc2 t ht
            · exact fun t ht => h4 t (List.mem_append_left _ ht)

theorem followedTargets_parallel {state : StateSpec}
    (hpar : isParallelPath state = true) :
    followedTargets state = (jsField state.next).toList := by
  simp [followedTargets, hpar]

theorem followedTargets_choice {state : StateSpec}
    (hpar : isParallelPath state = false)
    (hch : isChoicePath state = true) :
    followedTargets state =
      (state.choices.getD []).filterMap (fun c => jsField c.next) ++
        (jsField state.default).toList := by
  simp [followedTargets, hpar, hch]

theorem followedTargets_regular {state : StateSpec}
    (hpar : isParallelPath state = false)
    (hch : isChoicePath state = false) :
    followedTargets state = (jsField state.next).toList := by
  simp [followedTargets, hpar, hch]

theorem doParallelF_follow
    {states : List (String × StateSpec)}
    {child : String → Int → Int → LState → Option (Int × LState)}
    (hgrow : ∀ n x y σ r, child n x y σ = some r → Grows σ r.2)
    (hens : ∀ n x y σ r, n ∈ keysOf states → child n x y σ = some r →
      n ∈ r.2.processed)
    (hFO : ∀ n x y σ r, child n x y σ = some r → FollowOut states σ r.2)
    (stateName : String) (x nextY : Int) (state : StateSpec) (σ1 : LState)
    (res : Int × LState) (hpar : isParallelPath state = true)
    (h : doParallelF child stateName x nextY state σ1 = some res) :
    FollowOut states σ1 res.2 ∧
    (∀ t ∈ followedTargets state, (lookupState states t).isSome →
      t ∈ res.2.processed) := by
  unfold doParallelF at h
  dsimp only at h
  split at h
  · simp at h
  · rename_i built hb
    split at h
    · rename_i hnx
      cases h
      refine ⟨(fun m hm => Or.inl hm), ?_⟩
      intro t ht
      simp [followedTargets, hpar, hnx] at ht
    · rename_i nxt hnx
      constructor
      · refine FollowOut_trans ?_ (hFO _ _ _ _ res h) (hgrow _ _ _ _ res h)
        exact fun m hm => Or.inl hm
      · intro t ht hts
        have htn : t = nxt := by
          simp [followedTargets, hpar, hnx] at ht
          exact ht
        subst htn
        exact hens _ _ _ _ res (keysOf_of_isSome hts) h

theorem doChoiceF_follow
    {states : List (String × StateSpec)}
    {child : String → Int → Int → LState → Option (Int × LState)}
    (hgrow : ∀ n x y σ r, child n x y σ = some r → Grows σ r.2)
    (hens : ∀ n x y σ r, n ∈ keysOf states → child n x y σ = some r →
      n ∈ r.2.processed)
    (hFO : ∀ n x y σ r, child n x y σ = some r → FollowOut states σ r.2)
    (stateName : String) (x nextY : Int) (state : StateSpec) (σ1 : LState)
    (res : Int × LState) (hpar : isParallelPath state = false)
    (hch : isChoicePath state = true)
    (h : doChoiceF child stateName x nextY state σ1 = some res) :
    FollowOut states σ1 res.2 ∧
    (∀ t ∈ followedTargets state, (lookupState states t).isSome →
      t ∈ res.2.processed) := by
  unfold doChoiceF at h
  dsimp only at h
  split at h
  · simp at h
  · rename_i targets maxChoiceY σ2 hgo
    obtain ⟨h1, h2, h3, h4⟩ := processChoicesGo_follow hgrow hens hFO
      stateName _ _ _ _ _ _ _ _ hgo (fun t ht => by cases ht)
    have hgo_g : Grows σ1 σ2 :=
      processChoicesGo_grows hgrow _ _ _ _ _ _ _ _ _ hgo
    have hchoices : ∀ t ∈ (state.choices.getD []).filterMap
        (fun c => jsField c.next), (lookupState states t).isSome →
        t ∈ σ2.processed := by
      intro t ht hts
      obtain ⟨c, hc, hct⟩ := List.mem_filterMap.mp ht
      exact h2 t (h3 c hc t hct) hts
    split at h
    · rename_i hd
      cases h
      refine ⟨h1, ?_⟩
      intro t ht hts
      rw [followedTargets_choice hpar hch, hd] at ht
      rcases List.mem_append.mp ht with ht | ht
      · exact hchoices t ht hts
      · simp at ht
    · rename_i dflt hd
      split at h
      · rename_i hdup
        cases h
        refine ⟨h1, ?_⟩
        intro t ht hts
        rw [followedTargets_choice hpar hch, hd] at ht
        rcases List.mem_append.mp ht with ht | ht
        · exact hchoices t ht hts
        · have : t = dflt := by simpa using ht
          subst this
          exact h2 t (by simpa using hdup) hts
      · rename_i hdup
        split at h
        · rename_i hproc3
          cases h
          refine ⟨h1, ?_⟩
          intro t ht hts
          rw [followedTargets_choice hpar hch, hd] at ht
          rcases List.mem_append.mp ht with ht | ht
          · exact hchoices t ht hts
          · have : t = dflt := by simpa using ht
            subst this
            exact hproc3
        · split at h
          · simp at h
          · rename_i defaultY σ4 hc
            cases h
            have hg34 := hgrow _ _ _ _ (defaultY, σ4) hc
            refine ⟨?_, ?_⟩
            · refine FollowOut_trans h1
                (FollowOut_trans ?_ (hFO _ _ _ _ (defaultY, σ4) hc)
                  (hgrow _ _ _ _ (defaultY, σ4) hc))
                (Grows_trans ?_ (hgrow _ _ _ _ (defaultY, σ4) hc))
              · exact fun m hm => Or.inl hm
              · exact ⟨⟨[], by simp⟩, ⟨_, rfl⟩, Finset.Subset.refl _⟩
            · intro t ht hts
              rw [followedTargets_choice hpar hch, hd] at ht
              rcases List.mem_append.mp ht with ht | ht
              · exact hg34.processed_mem (hchoices t ht hts)
              · have : t = dflt := by simpa using ht
                subst this
                exact hens _ _ _ _ (defaultY, σ4) (keysOf_of_isSome hts) hc

theorem doRegularF_follow
    (states : List (String × StateSpec))
    (hFI : ∀ p ∈ states, p.2.type = some "Fail" → jsField p.2.next = none)
    {child : String → Int → Int → LState → Option (Int × LState)}
    (hgrow : ∀ n x y σ r, child n x y σ = some r → Grows σ r.2)
    (hens : ∀ n x y σ r, n ∈ keysOf states → child n x y σ = some r →
      n ∈ r.2.processed)
    (hFO : ∀ n x y σ r, child n x y σ = some r → FollowOut states σ r.2)
    (stateName : String) (x y nextY : Int) (state : StateSpec)
    (σ1 : LState) (res : Int × LState)
    (hpar : isParallelPath state = false)
    (hch : isChoicePath state = false)
    (h : doRegularF states child stateName x y nextY state σ1 = some res) :
    FollowOut states σ1 res.2 ∧
    (∀ t ∈ followedTargets state, (lookupState states t).isSome →
      t ∈ res.2.processed) := by
  unfold doRegularF at h
  dsimp only at h
  have hcatFO : FollowOut states σ1
      (processCatchF states stateName x y state.catchRules 0 σ1) :=
    processCatchF_followOut states hFI stateName x y state.catchRules 0 σ1
  have hcatg : Grows σ1
      (processCatchF states stateName x y state.catchRules 0 σ1) :=
    processCatchF_grows states stateName x y state.catchRules 0 σ1
  split at h
  · rename_i hnx
    cases h
    refine ⟨?_, ?_⟩
    · refine FollowOut_trans hcatFO ?_ (endBlockF_grows _ _ _ _ _)
      intro m hm
      rw [endBlockF_processed] at hm
      exact Or.inl hm
    · intro t ht
      simp [followedTargets, hpar, hch, hnx] at ht
  · rename_i nxt hnx
    split at h
    · rename_i hproc3
      cases h
      refine ⟨?_, ?_⟩
      · refine FollowOut_trans hcatFO ?_
          (Grows_trans ?_
            (endBlockF_grows stateName state.endFlag x nextY _))
        · intro m hm
          rw [endBlockF_processed] at hm
          exact Or.inl hm
        · exact ⟨⟨[], by simp⟩, ⟨_, rfl⟩, Finset.Subset.refl _⟩
      · intro t ht hts
        have htn : t = nxt := by
          simp [followedTargets, hpar, hch, hnx] at ht
          exact ht
        subst htn
        rw [endBlockF_processed]
        exact hproc3
    · rename_i hproc3
      split at h
      · simp at h
      · rename_i nextY2 σ4 hc
        cases h
        have hg34 := hgrow _ _ _ _ (nextY2, σ4) hc
        refine ⟨?_, ?_⟩
        · refine FollowOut_trans hcatFO
            (FollowOut_trans ?_
              (FollowOut_trans (hFO _ _ _ _ (nextY2, σ4) hc) ?_
                (endBlockF_grows stateName state.endFlag x nextY2 σ4))
              (Grows_trans hg34
                (endBlockF_grows stateName state.endFlag x nextY2 σ4)))
            (Grows_trans ?_
              (Grows_trans hg34
                (endBlockF_grows stateName state.endFlag x nextY2 σ4)))
          · exact fun m hm => Or.inl hm
          · intro m hm
            rw [endBlockF_processed] at hm
            exact Or.inl hm
          · exact ⟨⟨[], by simp⟩, ⟨_, rfl⟩, Finset.Subset.refl _⟩
        · intro t ht hts
          have htn : t = nxt := by
            simp [followedTargets, hpar, hch, hnx] at ht
            exact ht
          subst htn
          rw [endBlockF_processed]
          exact hens _ _ _ _ (nextY2, σ4) (keysOf_of_isSome hts) hc

theorem processStateF_follow (states : List (String × StateSpec))
    (hFI : ∀ p ∈ states, p.2.type = some "Fail" →
      jsField p.2.next = none) :
    ∀ (fuel : Nat) (stateName : String) (x y : Int) (σ : LState)
      (res : Int × LState),
      processStateF states fuel stateName x y σ = some res →
      FollowOut states σ res.2
  | 0, stateName, x, y, σ, res => by intro h; cases h
  | fuel+1, stateName, x, y, σ, res => by
    intro h
    have hgrow : ∀ n x y σ r,
        processStateF states fuel n x y σ = some r → Grows σ r.2 :=
      fun n x y σ r hr => processStateF_grows states fuel n x y σ r hr
    have hens : ∀ n x y σ r, n ∈ keysOf states →
        processStateF states fuel n x y σ = some r → n ∈ r.2.processed :=
      fun n x y σ r hk hr => processStateF_ensure states fuel n x y σ r hk hr
    have hFO : ∀ n x y σ r,
        processStateF states fuel n x y σ = some r →
        FollowOut states σ r.2 :=
      fun n x y σ r hr => processStateF_follow states hFI fuel n x y σ r hr
    unfold processStateF at h
    split at h
    · cases h
      exact FollowOut_refl states σ
    · rename_i hproc
      split at h
      · cases h
        exact FollowOut_refl states σ
      · rename_i state hl
        dsimp only at h
        have harm : FollowOut states (LState.mk
            (σ.nodes ++
              [{ id := stateName, x := x, y := y, type := state.type }])
            σ.edges (insert stateName σ.processed)
            ((stateName, NPVal.pos x y) :: σ.positions)) res.2 ∧
            (∀ t ∈ followedTargets state, (lookupState states t).isSome →
              t ∈ res.2.processed) := by
          split at h
          · rename_i hpar
            exact doParallelF_follow hgrow hens hFO _ _ _ _ _ _ hpar h
          · rename_i hpar
            split at h
            · rename_i hch
              exact doChoiceF_follow hgrow hens hFO _ _ _ _ _ _
                (by simpa using hpar) hch h
            · rename_i hch
              exact doRegularF_follow states hFI hgrow hens hFO _ _ _ _ _ _
                _ (by simpa using hpar) (by simpa using hch) h
        obtain ⟨hfo1, htargets⟩ := harm
        intro m hm
        rcases hfo1 m hm with hm1 | hcl
        · rcases Finset.mem_insert.mp hm1 with rfl | hmσ
          · refine Or.inr ?_
            intro spec hspec t ht hts
            rw [hl] at hspec
            cases hspec
            exact htargets t ht hts
          · exact Or.inl hmσ
        · exact Or.inr hcl

/-! ### Node uniqueness -/

theorem cleanKey_ne_branchNodeId {k : String} (h : cleanKey k = true)
    (stateName : String) (index : Nat) (inner : String) :
    k ≠ branchNodeId stateName index inner := by
  intro hk
  unfold cleanKey at h
  rw [Bool.and_eq_true] at h
  have h2 := h.2
  rw [hk, branchNodeId_data] at h2
  rw [show ("_branch_".data ++ ((toString index).data ++
      ("_".data ++ inner.data))) =
      ("_branch_".data ++ ((toString index).data ++
        ("_".data ++ inner.data))) from rfl] at h2
  have : hasSeq "_branch_".data (stateName.data ++
      ("_branch_".data ++ ((toString index).data ++
        ("_".data ++ inner.data)))) = true := by
    have := hasSeq_middle stateName.data "_branch_".data
      ((toString index).data ++ ("_".data ++ inner.data))
    simpa using this
  rw [this] at h2
  simp at h2

theorem cleanKey_head {k : String} (h : cleanKey k = true) :
    ∃ c cs, k.data = c :: cs ∧ (c == '_') = false := by
  unfold cleanKey at h
  rw [Bool.and_eq_true] at h
  have h1 := h.1
  cases hd : k.data with
  | nil => rw [hd] at h1; simp at h1
  | cons c cs =>
    rw [hd] at h1
    simp only [Bool.not_eq_true'] at h1
    exact ⟨c, cs, rfl, h1⟩

theorem cleanKey_ne_of_underscore {k l : String} (h : cleanKey k = true)
    (hl : ∃ rest, l.data = '_' :: rest) : k ≠ l := by
  intro hk
  obtain ⟨c, cs, hkd, hc⟩ := cleanKey_head h
  obtain ⟨rest, hld⟩ := hl
  rw [hk, hld] at hkd
  cases hkd
  simp at hc

theorem cleanKey_ne_start {k : String} (h : cleanKey k = true) :
    k ≠ "__START__" :=
  cleanKey_ne_of_underscore h ⟨"_START__".data, rfl⟩

theorem cleanKey_ne_endNodeId {k : String} (h : cleanKey k = true)
    (s : String) : k ≠ endNodeId s := by
  refine cleanKey_ne_of_underscore h ⟨("_END_" ++ s ++ "__").data, ?_⟩
  show ("__END_" ++ s ++ "__").data = '_' :: ("_END_" ++ s ++ "__").data
  simp [String.data_append]

theorem nodeCount_append (a b : List Node) (k : String) :
    nodeCount (a ++ b) k = nodeCount a k + nodeCount b k := by
  unfold nodeCount
  rw [List.filter_append, List.length_append]

theorem nodeCount_single_ne {nd : Node} {k : String} (h : nd.id ≠ k) :
    nodeCount [nd] k = 0 := by
  unfold nodeCount
  have hb : (nd.id == k) = false := beq_eq_false_iff_ne.mpr h
  simp [List.filter, hb]

theorem nodeCount_single_eq {nd : Node} {k : String} (h : nd.id = k) :
    nodeCount [nd] k = 1 := by
  unfold nodeCount
  have hb : (nd.id == k) = true := beq_iff_eq.mpr h
  simp [List.filter, hb]

theorem nodeCount_zero_of_ne {nodes : List Node} {k : String}
    (h : ∀ nd ∈ nodes, nd.id ≠ k) : nodeCount nodes k = 0 := by
  unfold nodeCount
  rw [List.length_eq_zero]
  rw [List.filter_eq_nil]
  intro nd hnd
  simp [h nd hnd]

theorem nodeCount_pos {nodes : List Node} {k : String}
    (h : ∃ nd ∈ nodes, nd.id = k) : 1 ≤ nodeCount nodes k := by
  obtain ⟨nd, hnd, hid⟩ := h
  unfold nodeCount
  rw [Nat.succ_le_iff, List.length_pos]
  intro hnil
  have : nd ∈ List.filter (fun nd => nd.id == k) nodes :=
    List.mem_filter.mpr ⟨hnd, by simp [hid]⟩
  rw [hnil] at this
  cases this

theorem buildBranchesF_node_ids (stateName : String) (startX nextY : Int) :
    ∀ (bs : List Branch) (index : Nat) (maxY : Int)
      (built : BuiltBranches),
      buildBranchesF stateName startX nextY bs index maxY = some built →
      ∀ nd ∈ built.nodes, ∃ i inner, nd.id = branchNodeId stateName i inner
  | [], index, maxY, built, h => by
    unfold buildBranchesF at h
    cases h
    intro nd hnd
    cases hnd
  | branch :: rest, index, maxY, built, h => by
    unfold buildBranchesF at h
    cases hs : jsField branch.startAt with
    | none =>
      rw [hs] at h
      exact buildBranchesF_node_ids stateName startX nextY rest (index+1)
        maxY built h
    | some s =>
      rw [hs] at h
      dsimp only at h
      cases hst : jsLookup branch.states s with
      | none =>
        rw [hst] at h
        exact buildBranchesF_node_ids stateName startX nextY rest (index+1)
          maxY built h
      | some st =>
        rw [hst] at h
        dsimp only at h
        cases hch : chainF branch.states (branch.states.length + 1) st with
        | none => rw [hch] at h; cases h
        | some chain =>
          rw [hch] at h
          dsimp only at h
          split at h
          · cases h
          · rename_i rec hrec
            cases h
            intro nd hnd
            dsimp only at hnd
            rcases List.mem_append.mp hnd with hnd | hnd
            · rcases List.mem_cons.mp hnd with rfl | hnd
              · exact ⟨index, s, rfl⟩
              · obtain ⟨p, hp, hpe⟩ := List.mem_map.mp hnd
                subst hpe
                exact ⟨index, p.2.1, rfl⟩
            · exact buildBranchesF_node_ids stateName startX nextY rest
                (index+1) _ rec hrec nd hnd

theorem catchStepF_nodesInv (states : List (String × StateSpec))
    (stateName : String) (x y : Int) (index : Nat) (tgt : String)
    (σ : LState) (h : NodesInv states σ) :
    NodesInv states (catchStepF states stateName x y index tgt σ) := by
  unfold catchStepF
  dsimp only
  split
  · rename_i ts hts
    split
    · rename_i hcond
      intro k hk
      obtain ⟨hle, hzero⟩ := h k hk
      by_cases hkt : k = tgt
      · subst hkt
        have h0 : nodeCount σ.nodes k = 0 := hzero hcond.2
        constructor
        · rw [nodeCount_append, h0, nodeCount_single_eq rfl]
        · intro hk2
          exact absurd (Finset.mem_insert_self _ _) hk2
      · constructor
        · rw [nodeCount_append, nodeCount_single_ne (fun he => hkt he.symm)]
          omega
        · intro hk2
          rw [nodeCount_append, nodeCount_single_ne (fun he => hkt he.symm)]
          rw [hzero (fun hmem => hk2 (Finset.mem_insert_of_mem hmem))]
    · exact h
  · exact h

theorem processCatchF_nodesInv (states : List (String × StateSpec))
    (stateName : String) (x y : Int) :
    ∀ (rules : List CatchRule) (index : Nat) (σ : LState),
      NodesInv states σ →
      NodesInv states (processCatchF states stateName x y rules index σ)
  | [], _, σ, h => h
  | cb :: rest, index, σ, h => by
    unfold processCatchF
    cases hn : jsField cb.next with
    | none =>
      exact processCatchF_nodesInv states stateName x y rest (index+1) σ h
    | some tgt =>
      exact processCatchF_nodesInv states stateName x y rest (index+1) _
        (catchStepF_nodesInv states stateName x y index tgt σ h)

theorem endBlockF_nodesInv {states : List (String × StateSpec)}
    (hClean : CleanIds states) (stateName : String) (endFlag : Bool)
    (x nextY : Int) (σ : LState) (h : NodesInv states σ) :
    NodesInv states (endBlockF stateName endFlag x nextY σ).2 := by
  unfold endBlockF
  split
  · intro k hk
    obtain ⟨hle, hzero⟩ := h k hk
    have hne : ∀ nd ∈ [({ id := endNodeId stateName, x := x, y := nextY, type := some "End" } : Node)], nd.id ≠ k := by
      intro nd hnd
      have : nd = { id := endNodeId stateName, x := x, y := nextY, type := some "End" } := by simpa using hnd
      subst this
      exact fun he =>
        cleanKey_ne_endNodeId (cleanKey_of_mem_keys hClean hk) stateName
          he.symm
    constructor
    · rw [nodeCount_append, nodeCount_zero_of_ne hne]
      omega
    · intro hk2
      rw [nodeCount_append, nodeCount_zero_of_ne hne, hzero hk2]
  · exact h

theorem processChoicesGo_nodesInv
    {states : List (String × StateSpec)}
    {child : String → Int → Int → LState → Option (Int × LState)}
    (hchild : ∀ n x y σ r, child n x y σ = some r → NodesInv states σ →
      NodesInv states r.2)
    (stateName : String) (startX nextY : Int) :
    ∀ (cs : List ChoiceRule) (index : Nat) (targets : List String)
      (maxY : Int) (σ : LState) (res : List String × Int × LState),
      processChoicesGo child stateName startX nextY cs index targets maxY σ
        = some res → NodesInv states σ → NodesInv states res.2.2
  | [], index, targets, maxY, σ, res => by
    intro h hNI
    unfold processChoicesGo at h
    cases h
    exact hNI
  | choice :: rest, index, targets, maxY, σ, res => by
    intro h hNI
    unfold processChoicesGo at h
    dsimp only at h
    split at h
    · exact processChoicesGo_nodesInv hchild stateName startX nextY rest
        (index+1) targets maxY σ res h hNI
    · split at h
      · exact processChoicesGo_nodesInv hchild stateName startX nextY rest
          (index+1) targets maxY σ res h hNI
      · split at h
        · exact processChoicesGo_nodesInv hchild stateName startX nextY
            rest (index+1) _ maxY _ res h (fun k hk => hNI k hk)
        · split at h
          · simp at h
          · rename_i choiceY σ3 hc
            exact processChoicesGo_nodesInv hchild stateName startX nextY
              rest (index+1) _ _ σ3 res h
              (hchild _ _ _ _ (choiceY, σ3) hc (fun k hk => hNI k hk))

theorem doParallelF_nodesInv
    {states : List (String × StateSpec)} (hClean : CleanIds states)
    {child : String → Int → Int → LState → Option (Int × LState)}
    (hchild : ∀ n x y σ r, child n x y σ = some r → NodesInv states σ →
      NodesInv states r.2)
    (stateName : String) (x nextY : Int) (state : StateSpec) (σ1 : LState)
    (res : Int × LState)
    (h : doParallelF child stateName x nextY state σ1 = some res)
    (hNI : NodesInv states σ1) : NodesInv states res.2 := by
  unfold doParallelF at h
  dsimp only at h
  split at h
  · simp at h
  · rename_i built hb
    have hids := buildBranchesF_node_ids stateName _ _ _ _ _ built hb
    have hNI2 : NodesInv states (LState.mk (σ1.nodes ++ built.nodes)
        (σ1.edges ++ built.edges) σ1.processed
        (built.poss ++ σ1.positions)) := by
      intro k hk
      obtain ⟨hle, hzero⟩ := hNI k hk
      have hbz : nodeCount built.nodes k = 0 := by
        refine nodeCount_zero_of_ne ?_
        intro nd hnd he
        obtain ⟨i, inner, hni⟩ := hids nd hnd
        exact cleanKey_ne_branchNodeId (cleanKey_of_mem_keys hClean hk)
          stateName i inner (he ▸ hni)
      constructor
      · rw [nodeCount_append, hbz]
        omega
      · intro hk2
        rw [nodeCount_append, hbz, hzero hk2]
    split at h
    · cases h
      exact hNI2
    · rename_i nxt hnx
      exact hchild _ _ _ _ res h (fun k hk => hNI2 k hk)

theorem doChoiceF_nodesInv
    {states : List (String × StateSpec)}
    {child : String → Int → Int → LState → Option (Int × LState)}
    (hchild : ∀ n x y σ r, child n x y σ = some r → NodesInv states σ →
      NodesInv states r.2)
    (stateName : String) (x nextY : Int) (state : StateSpec) (σ1 : LState)
    (res : Int × LState)
    (h : doChoiceF child stateName x nextY state σ1 = some res)
    (hNI : NodesInv states σ1) : NodesInv states res.2 := by
  unfold doChoiceF at h
  dsimp only at h
  split at h
  · simp at h
  · rename_i targets maxChoiceY σ2 hgo
    have hNI2 : NodesInv states σ2 :=
      processChoicesGo_nodesInv hchild stateName _ _ _ _ _ _ _ _ hgo hNI
    split at h
    · cases h
      exact hNI2
    · rename_i dflt hd
      split at h
      · cases h
        exact hNI2
      · split at h
        · cases h
          exact fun k hk => hNI2 k hk
        · split at h
          · simp at h
          · rename_i defaultY σ4 hc
            cases h
            exact hchild _ _ _ _ (defaultY, σ4) hc (fun k hk => hNI2 k hk)

theorem doRegularF_nodesInv
    (states : List (String × StateSpec)) (hClean : CleanIds states)
    {child : String → Int → Int → LState → Option (Int × LState)}
    (hchild : ∀ n x y σ r, child n x y σ = some r → NodesInv states σ →
      NodesInv states r.2)
    (stateName : String) (x y nextY : Int) (state : StateSpec)
    (σ1 : LState) (res : Int × LState)
    (h : doRegularF states child stateName x y nextY state σ1 = some res)
    (hNI : NodesInv states σ1) : NodesInv states res.2 := by
  unfold doRegularF at h
  dsimp only at h
  have hNI2 : NodesInv states
      (processCatchF states stateName x y state.catchRules 0 σ1) :=
    processCatchF_nodesInv states stateName x y state.catchRules 0 σ1 hNI
  split at h
  · cases h
    exact endBlockF_nodesInv hClean stateName state.endFlag x nextY _ hNI2
  · rename_i nxt hnx
    split at h
    · cases h
      exact endBlockF_nodesInv hClean stateName state.endFlag x nextY _
        (fun k hk => hNI2 k hk)
    · split at h
      · simp at h
      · rename_i nextY2 σ4 hc
        cases h
        exact endBlockF_nodesInv hClean stateName state.endFlag x nextY2 σ4
          (hchild _ _ _ _ (nextY2, σ4) hc (fun k hk => hNI2 k hk))

theorem processStateF_nodesInv (states : List (String × StateSpec))
    (hClean : CleanIds states) :
    ∀ (fuel : Nat) (stateName : String) (x y : Int) (σ : LState)
      (res : Int × LState),
      processStateF states fuel stateName x y σ = some res →
      NodesInv states σ → NodesInv states res.2
  | 0, stateName, x, y, σ, res => by intro h _; cases h
  | fuel+1, stateName, x, y, σ, res => by
    intro h hNI
    have hchild : ∀ n x y σ r,
        processStateF states fuel n x y σ = some r → NodesInv states σ →
        NodesInv states r.2 :=
      fun n x y σ r hr hni =>
        processStateF_nodesInv states hClean fuel n x y σ r hr hni
    unfold processStateF at h
    split at h
    · cases h
      exact hNI
    · rename_i hproc
      split at h
      · cases h
        exact hNI
      · rename_i state hl
        dsimp only at h
        have hNI1 : NodesInv states (LState.mk
            (σ.nodes ++
              [{ id := stateName, x := x, y := y, type := state.type }])
            σ.edges (insert stateName σ.processed)
            ((stateName, NPVal.pos x y) :: σ.positions)) := by
          intro k hk
          obtain ⟨hle, hzero⟩ := hNI k hk
          by_cases hks : k = stateName
          · subst hks
            constructor
            · rw [nodeCount_append, hzero hproc, nodeCount_single_eq rfl]
            · intro hk2
              exact absurd (Finset.mem_insert_self _ _) hk2
          · constructor
            · rw [nodeCount_append,
                nodeCount_single_ne (fun he => hks he.symm)]
              omega
            · intro hk2
              rw [nodeCount_append,
                nodeCount_single_ne (fun he => hks he.symm),
                hzero (fun hmem => hk2 (Finset.mem_insert_of_mem hmem))]
        split at h
        · exact doParallelF_nodesInv hClean hchild _ _ _ _ _ _ h hNI1
        · split at h
          · exact doChoiceF_nodesInv hchild _ _ _ _ _ _ h hNI1
          · exact doRegularF_nodesInv states hClean hchild _ _ _ _ _ _ _ h
              hNI1

/-- Dissect a successful `parseStateMachineCore` run: either a degenerate
empty result, or the traversal ran from the start state. -/
theorem parse_success_facts (d : StateMachineDef) (g : Graph)
    (hg : parseStateMachineCore d = some g) :
    (g = ⟨[], []⟩ ∧ (jsField d.startAt = none ∨ d.states = [])) ∨
    ∃ startAt yv σf, jsField d.startAt = some startAt ∧
      processStateF d.states (suffFuel d.states) startAt 0 VERTICAL_SPACING
        (LState.mk
          [{ id := "__START__", x := 0, y := 0, type := some "Start" }]
          [{ id := "__START__" ++ "-" ++ startAt, source := NPVal.nid "__START__", target := startAt }]
          ∅ []) = some (yv, σf) ∧
      g = ⟨σf.nodes, σf.edges⟩ := by
  unfold parseStateMachineCore at hg
  split at hg
  · rename_i hstart
    cases hg
    exact Or.inl ⟨rfl, Or.inl hstart⟩
  · rename_i startAt hstart
    split at hg
    · rename_i hlen
      cases hg
      exact Or.inl ⟨rfl, Or.inr (List.length_eq_zero.mp hlen)⟩
    · dsimp only at hg
      split at hg
      · cases hg
      · rename_i yv σf hres
        cases hg
        exact Or.inr ⟨startAt, yv, σf, hstart, hres, rfl⟩

theorem reach_not_degenerate {d : StateMachineDef} {s : String}
    (h : Reach d s) :
    (jsField d.startAt = none ∨ d.states = []) → False := by
  induction h with
  | start s hs hsome =>
    intro hd
    rcases hd with hd | hd
    · rw [hd] at hs
      cases hs
    · rw [hd] at hsome
      simp [lookupState, jsLookup] at hsome
  | step p spec t hp hspec ht hsome ih =>
    intro hd
    exact ih hd

theorem reach_processed_of_run (d : StateMachineDef)
    (hFI : FailInert d.states) {startAt : String} {yv : Int} {σf : LState}
    (hstart : jsField d.startAt = some startAt)
    (hres : processStateF d.states (suffFuel d.states) startAt 0
      VERTICAL_SPACING
      (LState.mk
        [{ id := "__START__", x := 0, y := 0, type := some "Start" }]
        [{ id := "__START__" ++ "-" ++ startAt, source := NPVal.nid "__START__", target := startAt }]
        ∅ []) = some (yv, σf)) :
    ∀ s, Reach d s → s ∈ σf.processed := by
  have hFO := processStateF_follow d.states hFI (suffFuel d.states) startAt
    0 VERTICAL_SPACING _ (yv, σf) hres
  intro s hs
  induction hs with
  | start s hs0 hsome =>
    have heq : s = startAt := by
      rw [hstart] at hs0
      exact (Option.some.inj hs0).symm
    subst heq
    exact processStateF_ensure d.states _ _ _ _ _ (yv, σf)
      (keysOf_of_isSome hsome) hres
  | step p spec t hp hspec ht hsome ih =>
    rcases hFO p ih with h0 | hcl
    · simp at h0
    · exact hcl spec hspec t ht hsome

/-- C4, counterexample: `G` is reachable from the start of `dFailNext` by
following `next` transitions (`A -> F -> G`), but `F` is created by the
catch handling, which never follows `F`'s own `Next`; `G` gets no node. -/
theorem layout_fail_next_missing :
    Reach dFailNext "G" ∧
    nodeCount ((parseStateMachineCore dFailNext).getD ⟨[], []⟩).nodes "G"
      = 0 := by
  constructor
  · refine Reach.step "F"
      { type := some "Fail", next := some "G", endFlag := false,
        catchRules := [], choices := none, default := none,
        branches := none } "G" ?_ (by decide) (by decide) (by decide)
    refine Reach.step "A"
      { type := some "Task", next := some "F", endFlag := false,
        catchRules := [{ next := some "F" }], choices := none,
        default := none, branches := none } "F" ?_ (by decide) (by decide)
      (by decide)
    exact Reach.start "A" (by decide) (by decide)
  · decide

/-- C4 (amended): for a definition whose state identifiers are clean (no
collision with synthesized id forms) and whose `Fail` states carry no
`next`, every state reachable from the start appears exactly once in the
returned nodes, and every state identifier produces at most one node;
re-encountering a visited state never adds a duplicate node. -/
theorem layout_reachable_exactly_once (d : StateMachineDef)
    (hClean : CleanIds d.states) (hFI : FailInert d.states) (g : Graph)
    (hg : parseStateMachineCore d = some g) :
    (∀ s, Reach d s → nodeCount g.nodes s = 1) ∧
    (∀ k ∈ keysOf d.states, nodeCount g.nodes k ≤ 1) := by
  rcases parse_success_facts d g hg with ⟨hge, hdeg⟩ |
    ⟨startAt, yv, σf, hstart, hres, hgf⟩
  · constructor
    · intro s hs
      exact (reach_not_degenerate hs hdeg).elim
    · intro k hk
      rw [hge]
      simp [nodeCount]
  · subst hgf
    have hNI0 : NodesInv d.states (LState.mk
        [{ id := "__START__", x := 0, y := 0, type := some "Start" }]
        [{ id := "__START__" ++ "-" ++ startAt, source := NPVal.nid "__START__", target := startAt }]
        ∅ []) := by
      intro k hk
      have hne : ∀ nd ∈ [({ id := "__START__", x := 0, y := 0, type := some "Start" } : Node)], nd.id ≠ k := by
        intro nd hnd
        have : nd = { id := "__START__", x := 0, y := 0, type := some "Start" } := by simpa using hnd
        subst this
        exact fun he =>
          cleanKey_ne_start (cleanKey_of_mem_keys hClean hk) he.symm
      constructor
      · rw [show nodeCount [({ id := "__START__", x := 0, y := 0, type := some "Start" } : Node)] k = 0 from nodeCount_zero_of_ne hne]
        omega
      · intro _
        exact nodeCount_zero_of_ne hne
    have hNIf : NodesInv d.states σf :=
      processStateF_nodesInv d.states hClean _ _ _ _ _ (yv, σf) hres hNI0
    have hPN0 : ProcNodes (LState.mk
        [{ id := "__START__", x := 0, y := 0, type := some "Start" }]
        [{ id := "__START__" ++ "-" ++ startAt, source := NPVal.nid "__START__", target := startAt }]
        ∅ []) := fun k hk => by simp at hk
    have hPNf : ProcNodes σf :=
      procNodes_out (processStateF_procOut d.states _ _ _ _ _ (yv, σf)
        hres) (processStateF_grows d.states _ _ _ _ _ (yv, σf) hres) hPN0
    have hPOf := processStateF_procOut d.states _ _ _ _ _ (yv, σf) hres
    constructor
    · intro s hs
      have hproc := reach_processed_of_run d hFI hstart hres s hs
      have h1 : 1 ≤ nodeCount σf.nodes s := nodeCount_pos (hPNf s hproc)
      have hkey : s ∈ keysOf d.states := by
        rcases hPOf s hproc with h0 | ⟨hk, _⟩
        · simp at h0
        · exact hk
      have h2 := (hNIf s hkey).1
      show nodeCount σf.nodes s = 1
      omega
    · intro k hk
      exact (hNIf k hk).1

/-- Witness for `layout_reachable_exactly_once`: on `dParallel` the
reachable successor `S` has exactly one node. -/
theorem layout_reachable_exactly_once_witness :
    CleanIds dParallel.states ∧ FailInert dParallel.states ∧
    nodeCount gParallel.nodes "S" = 1 := by
  refine ⟨by decide, by decide, ?_⟩
  have h := layout_reachable_exactly_once dParallel (by decide) (by decide)
    gParallel (by decide)
  refine h.1 "S" ?_
  refine Reach.step "P" ((dParallel.states.get ⟨0, by decide⟩).2) "S"
    (Reach.start "P" (by decide) (by decide)) (by decide) (by decide)
    (by decide)

/-! ### Monotonicity of the returned `nextY`

Every arm of `processState` returns a `nextY` at least as large as the one
it received; the exit marker of a state is therefore always strictly below
the state's own node. -/

theorem endBlockF_y (stateName : String) (endFlag : Bool) (x nextY : Int)
    (σ : LState) : nextY ≤ (endBlockF stateName endFlag x nextY σ).1 := by
  unfold endBlockF
  split
  · show nextY ≤ nextY + VERTICAL_SPACING
    unfold VERTICAL_SPACING
    omega
  · exact le_refl _

theorem buildBranchesF_maxY (stateName : String) (startX nextY : Int) :
    ∀ (bs : List Branch) (index : Nat) (maxY : Int) (b : BuiltBranches),
      buildBranchesF stateName startX nextY bs index maxY = some b →
      maxY ≤ b.maxY
  | [], index, maxY, b => by
    intro h
    unfold buildBranchesF at h
    cases h
    exact le_refl _
  | branch :: rest, index, maxY, b => by
    intro h
    unfold buildBranchesF at h
    dsimp only at h
    split at h
    · exact buildBranchesF_maxY stateName startX nextY rest (index+1)
        maxY b h
    · rename_i s hs
      split at h
      · exact buildBranchesF_maxY stateName startX nextY rest (index+1)
          maxY b h
      · rename_i st hst
        split at h
        · cases h
        · rename_i chain hchain
          split at h
          · cases h
          · rename_i built hb
            cases h
            have h1 := buildBranchesF_maxY stateName startX nextY rest
              (index+1) _ built hb
            exact le_trans (le_max_left _ _) h1

theorem processChoicesGo_maxY
    {child : String → Int → Int → LState → Option (Int × LState)}
    (stateName : String) (startX nextY : Int) :
    ∀ (rest : List ChoiceRule) (index : Nat) (targets : List String)
      (maxY : Int) (σ : LState) (r : List String × Int × LState),
      processChoicesGo child stateName startX nextY rest index targets
        maxY σ = some r → maxY ≤ r.2.1
  | [], index, targets, maxY, σ, r => by
    intro h
    unfold processChoicesGo at h
    cases h
    exact le_refl _
  | choice :: rest, index, targets, maxY, σ, r => by
    intro h
    unfold processChoicesGo at h
    split at h
    · exact processChoicesGo_maxY stateName startX nextY rest (index+1)
        targets maxY σ r h
    · rename_i tgt htgt
      split at h
      · exact processChoicesGo_maxY stateName startX nextY rest (index+1)
          targets maxY σ r h
      · dsimp only at h
        split at h
        · exact processChoicesGo_maxY stateName startX nextY rest (index+1)
            _ maxY _ r h
        · split at h
          · cases h
          · rename_i choiceY σ3 hc
            have := processChoicesGo_maxY stateName startX nextY rest
              (index+1) _ (max maxY choiceY) σ3 r h
            exact le_trans (le_max_left _ _) this

theorem doParallelF_ymono
    {child : String → Int → Int → LState → Option (Int × LState)}
    (hchild : ∀ n x y σ r, child n x y σ = some r → y ≤ r.1)
    (stateName : String) (x nextY : Int) (state : StateSpec) (σ1 : LState)
    (res : Int × LState)
    (h : doParallelF child stateName x nextY state σ1 = some res) :
    nextY ≤ res.1 := by
  unfold doParallelF at h
  dsimp only at h
  split at h
  · simp at h
  · rename_i built hb
    have hm := buildBranchesF_maxY stateName _ nextY _ 0 nextY built hb
    split at h
    · cases h
      exact hm
    · exact le_trans hm (hchild _ _ _ _ _ h)

theorem doChoiceF_ymono
    {child : String → Int → Int → LState → Option (Int × LState)}
    (stateName : String) (x nextY : Int) (state : StateSpec) (σ1 : LState)
    (res : Int × LState)
    (h : doChoiceF child stateName x nextY state σ1 = some res) :
    nextY ≤ res.1 := by
  unfold doChoiceF at h
  dsimp only at h
  split at h
  · simp at h
  · rename_i targets maxChoiceY σ2 hgo
    have hm := processChoicesGo_maxY stateName _ nextY _ 0 [] nextY σ1
      (targets, maxChoiceY, σ2) hgo
    split at h
    · cases h
      exact hm
    · rename_i dflt hd
      split at h
      · cases h
        exact hm
      · split at h
        · cases h
          exact hm
        · split at h
          · simp at h
          · rename_i defaultY σ4 hc
            cases h
            exact le_trans hm (le_max_left _ _)

theorem doRegularF_ymono (states : List (String × StateSpec))
    {child : String → Int → Int → LState → Option (Int × LState)}
    (hchild : ∀ n x y σ r, child n x y σ = some r → y ≤ r.1)
    (stateName : String) (x y nextY : Int) (state : StateSpec)
    (σ1 : LState) (res : Int × LState)
    (h : doRegularF states child stateName x y nextY state σ1 = some res) :
    nextY ≤ res.1 := by
  unfold doRegularF at h
  dsimp only at h
  split at h
  · cases h
    exact endBlockF_y _ _ _ _ _
  · rename_i nxt hnx
    split at h
    · cases h
      exact endBlockF_y _ _ _ _ _
    · split at h
      · simp at h
      · rename_i nextY2 σ4 hc
        cases h
        exact le_trans (hchild _ _ _ _ (nextY2, σ4) hc)
          (endBlockF_y stateName state.endFlag x nextY2 σ4)

theorem processStateF_ymono (states : List (String × StateSpec)) :
    ∀ (fuel : Nat) (stateName : String) (x y : Int) (σ : LState)
      (res : Int × LState),
      processStateF states fuel stateName x y σ = some res → y ≤ res.1
  | 0, stateName, x, y, σ, res => by intro h; cases h
  | fuel+1, stateName, x, y, σ, res => by
    intro h
    have hchild : ∀ n x y σ r,
        processStateF states fuel n x y σ = some r → y ≤ r.1 :=
      fun n x y σ r hr => processStateF_ymono states fuel n x y σ r hr
    have hstep : y ≤ y + VERTICAL_SPACING := by
      unfold VERTICAL_SPACING
      omega
    unfold processStateF at h
    split at h
    · cases h
      exact le_refl _
    · rename_i hproc
      split at h
      · cases h
        exact le_refl _
      · rename_i state hl
        dsimp only at h
        split at h
        · exact le_trans hstep (doParallelF_ymono hchild _ _ _ _ _ _ h)
        · split at h
          · exact le_trans hstep (doChoiceF_ymono _ _ _ _ _ _ h)
          · exact le_trans hstep
              (doRegularF_ymono states hchild _ _ _ _ _ _ _ h)

/-! ### Exit markers on the regular path

`processState` runs the `if (state.End)` block only on the regular
dispatch path; the invariant `EndOkP` tracks the exit-marker artifact for
every finished regular-path state with a truthy `End` flag. -/

theorem MarkerFor_grows {σ σ' : LState} (hg : Grows σ σ') {s : String}
    (hm : MarkerFor s σ) : MarkerFor s σ' := by
  obtain ⟨nd, hnd, hid, me, hme, hid2, hx, hy, e, he, hsrc, htg⟩ := hm
  exact ⟨nd, hg.node_mem hnd, hid, me, hg.node_mem hme, hid2, hx, hy,
    e, hg.edge_mem he, hsrc, htg⟩

theorem EndOkP_grows_eqproc {states : List (String × StateSpec)}
    {P : Finset String} {σ σ' : LState} (hg : Grows σ σ')
    (hp : σ'.processed = σ.processed) (hE : EndOkP states P σ) :
    EndOkP states P σ' := by
  intro s hs hsP spec hspec hpar hcho htype hflag
  rw [hp] at hs
  exact MarkerFor_grows hg (hE s hs hsP spec hspec hpar hcho htype hflag)

theorem catchStepF_endOkP (states : List (String × StateSpec))
    (stateName : String) (x y : Int) (index : Nat) (tgt : String)
    (σ : LState) (P : Finset String) (hE : EndOkP states P σ) :
    EndOkP states P (catchStepF states stateName x y index tgt σ) := by
  have hg := catchStepF_grows states stateName x y index tgt σ
  intro s hs hsP spec hspec hpar hcho htype hflag
  unfold catchStepF at hs hg ⊢
  cases hlk : lookupState states tgt with
  | none =>
    rw [hlk] at hs hg
    dsimp only at hs hg ⊢
    exact MarkerFor_grows hg (hE s hs hsP spec hspec hpar hcho htype hflag)
  | some ts =>
    rw [hlk] at hs hg
    dsimp only at hs hg ⊢
    by_cases hcond : ts.type = some "Fail" ∧ tgt ∉ σ.processed
    · rw [if_pos hcond] at hs hg ⊢
      rcases Finset.mem_insert.mp hs with heq | hs2
      · subst heq
        rw [hlk] at hspec
        cases Option.some.inj hspec
        exact absurd hcond.1 htype
      · exact MarkerFor_grows hg
          (hE s hs2 hsP spec hspec hpar hcho htype hflag)
    · rw [if_neg hcond] at hs hg ⊢
      exact MarkerFor_grows hg
        (hE s hs hsP spec hspec hpar hcho htype hflag)

theorem processCatchF_endOkP (states : List (String × StateSpec))
    (stateName : String) (x y : Int) (P : Finset String) :
    ∀ (rules : List CatchRule) (index : Nat) (σ : LState),
      EndOkP states P σ →
      EndOkP states P
        (processCatchF states stateName x y rules index σ)
  | [], index, σ, hE => hE
  | cb :: rest, index, σ, hE => by
    unfold processCatchF
    split
    · exact processCatchF_endOkP states stateName x y P rest (index+1)
        σ hE
    · exact processCatchF_endOkP states stateName x y P rest (index+1)
        _ (catchStepF_endOkP states stateName x y index _ σ P hE)

theorem processChoicesGo_endOkP
    {states : List (String × StateSpec)} {P : Finset String}
    {child : String → Int → Int → LState → Option (Int × LState)}
    (hpres : ∀ n x y σ r, child n x y σ = some r →
      EndOkP states P σ → EndOkP states P r.2)
    (stateName : String) (startX nextY : Int) :
    ∀ (rest : List ChoiceRule) (index : Nat) (targets : List String)
      (maxY : Int) (σ : LState) (r : List String × Int × LState),
      processChoicesGo child stateName startX nextY rest index targets
        maxY σ = some r →
      EndOkP states P σ → EndOkP states P r.2.2
  | [], index, targets, maxY, σ, r => by
    intro h hE
    unfold processChoicesGo at h
    cases h
    exact hE
  | choice :: rest, index, targets, maxY, σ, r => by
    intro h hE
    unfold processChoicesGo at h
    split at h
    · exact processChoicesGo_endOkP hpres stateName startX nextY rest
        (index+1) targets maxY σ r h hE
    · rename_i tgt htgt
      split at h
      · exact processChoicesGo_endOkP hpres stateName startX nextY rest
          (index+1) targets maxY σ r h hE
      · dsimp only at h
        have hE2 : EndOkP states P { σ with edges := σ.edges ++
            [{ id := stateName ++ "-choice-" ++ toString index ++ "-"
                 ++ tgt,
               source := NPVal.nid stateName, target := tgt }] } :=
          EndOkP_grows_eqproc
            ⟨⟨[], by simp⟩, ⟨_, rfl⟩, Finset.Subset.refl _⟩ rfl hE
        split at h
        · exact processChoicesGo_endOkP hpres stateName startX nextY rest
            (index+1) _ maxY _ r h hE2
        · split at h
          · cases h
          · rename_i choiceY σ3 hc
            exact processChoicesGo_endOkP hpres stateName startX nextY
              rest (index+1) _ (max maxY choiceY) σ3 r h
              (hpres _ _ _ _ (choiceY, σ3) hc hE2)

theorem doParallelF_endOkP {states : List (String × StateSpec)}
    {P : Finset String}
    {child : String → Int → Int → LState → Option (Int × LState)}
    (hpres : ∀ n x y σ r, child n x y σ = some r →
      EndOkP states P σ → EndOkP states P r.2)
    (stateName : String) (x nextY : Int) (state : StateSpec)
    (σ1 : LState) (res : Int × LState)
    (h : doParallelF child stateName x nextY state σ1 = some res)
    (hE : EndOkP states P σ1) : EndOkP states P res.2 := by
  unfold doParallelF at h
  dsimp only at h
  split at h
  · simp at h
  · rename_i built hb
    have hE2 : EndOkP states P
        { nodes := σ1.nodes ++ built.nodes,
          edges := σ1.edges ++ built.edges,
          processed := σ1.processed,
          positions := built.poss ++ σ1.positions } :=
      EndOkP_grows_eqproc ⟨⟨_, rfl⟩, ⟨_, rfl⟩, Finset.Subset.refl _⟩
        rfl hE
    split at h
    · cases h
      exact hE2
    · rename_i nxt hnx
      refine hpres _ _ _ _ _ h (EndOkP_grows_eqproc ?_ ?_ hE2)
      · exact ⟨⟨[], by simp⟩, ⟨_, rfl⟩, Finset.Subset.refl _⟩
      · rfl

theorem doChoiceF_endOkP {states : List (String × StateSpec)}
    {P : Finset String}
    {child : String → Int → Int → LState → Option (Int × LState)}
    (hpres : ∀ n x y σ r, child n x y σ = some r →
      EndOkP states P σ → EndOkP states P r.2)
    (stateName : String) (x nextY : Int) (state : StateSpec)
    (σ1 : LState) (res : Int × LState)
    (h : doChoiceF child stateName x nextY state σ1 = some res)
    (hE : EndOkP states P σ1) : EndOkP states P res.2 := by
  unfold doChoiceF at h
  dsimp only at h
  split at h
  · simp at h
  · rename_i targets maxChoiceY σ2 hgo
    have hE2 : EndOkP states P σ2 :=
      processChoicesGo_endOkP hpres stateName _ nextY _ 0 [] nextY σ1
        (targets, maxChoiceY, σ2) hgo hE
    split at h
    · cases h
      exact hE2
    · rename_i dflt hd
      split at h
      · cases h
        exact hE2
      · have hE3 : EndOkP states P { σ2 with edges := σ2.edges ++
            [{ id := stateName ++ "-default-" ++ dflt, source := NPVal.nid stateName, target := dflt }] } :=
          EndOkP_grows_eqproc
            ⟨⟨[], by simp⟩, ⟨_, rfl⟩, Finset.Subset.refl _⟩ rfl hE2
        split at h
        · cases h
          exact hE3
        · split at h
          · simp at h
          · rename_i defaultY σ4 hc
            cases h
            exact hpres _ _ _ _ (defaultY, σ4) hc hE3

theorem doRegularF_endOkP (states : List (String × StateSpec))
    {P : Finset String}
    {child : String → Int → Int → LState → Option (Int × LState)}
    (hpres : ∀ n x y σ r, child n x y σ = some r →
      EndOkP states P σ → EndOkP states P r.2)
    (stateName : String) (x y nextY : Int) (state : StateSpec)
    (σ1 : LState) (res : Int × LState)
    (h : doRegularF states child stateName x y nextY state σ1 = some res)
    (hE : EndOkP states P σ1) : EndOkP states P res.2 := by
  unfold doRegularF at h
  dsimp only at h
  have hE2 : EndOkP states P
      (processCatchF states stateName x y state.catchRules 0 σ1) :=
    processCatchF_endOkP states stateName x y P state.catchRules 0 σ1 hE
  split at h
  · cases h
    exact EndOkP_grows_eqproc (endBlockF_grows _ _ _ _ _)
      (endBlockF_processed _ _ _ _ _) hE2
  · rename_i nxt hnx
    split at h
    · cases h
      refine EndOkP_grows_eqproc (endBlockF_grows _ _ _ _ _)
        (endBlockF_processed _ _ _ _ _) ?_
      exact EndOkP_grows_eqproc
        ⟨⟨[], by simp⟩, ⟨_, rfl⟩, Finset.Subset.refl _⟩ rfl hE2
    · split at h
      · simp at h
      · rename_i nextY2 σ4 hc
        cases h
        refine EndOkP_grows_eqproc (endBlockF_grows _ _ _ _ _)
          (endBlockF_processed _ _ _ _ _) ?_
        refine hpres _ _ _ _ (nextY2, σ4) hc ?_
        exact EndOkP_grows_eqproc
          ⟨⟨[], by simp⟩, ⟨_, rfl⟩, Finset.Subset.refl _⟩ rfl hE2

theorem endBlockF_marker (stateName : String) (endFlag : Bool)
    (x y nextY : Int) (t : Option String) (σ : LState)
    (hnd : ({ id := stateName, x := x, y := y, type := t } : Node) ∈
      σ.nodes)
    (hy : y < nextY) (hflag : endFlag = true) :
    MarkerFor stateName (endBlockF stateName endFlag x nextY σ).2 := by
  subst hflag
  unfold endBlockF
  rw [if_pos rfl]
  refine ⟨{ id := stateName, x := x, y := y, type := t },
    List.mem_append_left _ hnd, rfl,
    { id := endNodeId stateName, x := x, y := nextY, type := some "End" },
    List.mem_append_right _ (List.mem_singleton_self _), rfl, rfl, hy,
    { id := stateName ++ "-" ++ endNodeId stateName, source := NPVal.nid stateName, target := endNodeId stateName },
    List.mem_append_right _ (List.mem_singleton_self _), rfl, rfl⟩

theorem doRegularF_marker (states : List (String × StateSpec))
    {child : String → Int → Int → LState → Option (Int × LState)}
    (hgrow : ∀ n x y σ r, child n x y σ = some r → Grows σ r.2)
    (hmono : ∀ n x y σ r, child n x y σ = some r → y ≤ r.1)
    (stateName : String) (x y nextY : Int) (state : StateSpec)
    (σ1 : LState) (res : Int × LState)
    (hnd : ({ id := stateName, x := x, y := y, type := state.type } :
      Node) ∈ σ1.nodes)
    (hy : y < nextY) (hflag : state.endFlag = true)
    (h : doRegularF states child stateName x y nextY state σ1 = some res) :
    MarkerFor stateName res.2 := by
  unfold doRegularF at h
  dsimp only at h
  have hg2 : Grows σ1
      (processCatchF states stateName x y state.catchRules 0 σ1) :=
    processCatchF_grows states stateName x y state.catchRules 0 σ1
  have hnd2 := hg2.node_mem hnd
  split at h
  · cases h
    exact endBlockF_marker stateName state.endFlag x y nextY state.type
      _ hnd2 hy hflag
  · rename_i nxt hnx
    split at h
    · cases h
      refine endBlockF_marker stateName state.endFlag x y nextY state.type
        _ ?_ hy hflag
      exact hnd2
    · split at h
      · simp at h
      · rename_i nextY2 σ4 hc
        cases h
        have hge : Grows (processCatchF states stateName x y
            state.catchRules 0 σ1) σ4 := by
          refine Grows_trans ?_ (hgrow _ _ _ _ (nextY2, σ4) hc)
          exact ⟨⟨[], by simp⟩, ⟨_, rfl⟩, Finset.Subset.refl _⟩
        have hy2 : y < nextY2 :=
          lt_of_lt_of_le hy (hmono _ _ _ _ (nextY2, σ4) hc)
        exact endBlockF_marker stateName state.endFlag x y nextY2
          state.type σ4 (hge.node_mem hnd2) hy2 hflag

theorem processStateF_endOk (states : List (String × StateSpec)) :
    ∀ (fuel : Nat) (stateName : String) (x y : Int) (σ : LState)
      (res : Int × LState) (P : Finset String),
      processStateF states fuel stateName x y σ = some res →
      EndOkP states P σ → EndOkP states P res.2
  | 0, stateName, x, y, σ, res, P => by intro h _; cases h
  | fuel+1, stateName, x, y, σ, res, P => by
    intro h hE
    have hchild : ∀ n x y σ r,
        processStateF states fuel n x y σ = some r →
        EndOkP states (insert stateName P) σ →
        EndOkP states (insert stateName P) r.2 :=
      fun n x y σ r hr hEσ =>
        processStateF_endOk states fuel n x y σ r (insert stateName P)
          hr hEσ
    unfold processStateF at h
    split at h
    · cases h
      exact hE
    · rename_i hproc
      split at h
      · cases h
        exact hE
      · rename_i state hl
        dsimp only at h
        have hE1 : EndOkP states (insert stateName P) (LState.mk
            (σ.nodes ++
              [{ id := stateName, x := x, y := y, type := state.type }])
            σ.edges (insert stateName σ.processed)
            ((stateName, NPVal.pos x y) :: σ.positions)) := by
          intro s hs hsP spec hspec hpar hcho htype hflag
          rcases Finset.mem_insert.mp hs with heq | hs2
          · exact absurd (heq ▸ Finset.mem_insert_self stateName P) hsP
          · refine MarkerFor_grows ?_
              (hE s hs2 (fun hmem =>
                hsP (Finset.mem_insert_of_mem hmem))
                spec hspec hpar hcho htype hflag)
            exact ⟨⟨_, rfl⟩, ⟨[], by simp⟩, Finset.subset_insert _ _⟩
        have hyv : y < y + VERTICAL_SPACING := by
          unfold VERTICAL_SPACING
          omega
        have hfin : EndOkP states (insert stateName P) res.2 →
            (state.endFlag = true →
              isParallelPath state = false → isChoicePath state = false →
              MarkerFor stateName res.2) →
            EndOkP states P res.2 := by
          intro hE4 hmk s hs hsP spec hspec hpar hcho htype hflag
          by_cases heq : s = stateName
          · subst heq
            rw [hl] at hspec
            cases Option.some.inj hspec
            exact hmk hflag hpar hcho
          · exact hE4 s hs (fun hmem => (Finset.mem_insert.mp hmem).elim
              heq (fun hmem2 => hsP hmem2)) spec hspec hpar hcho htype
              hflag
        split at h
        · rename_i hdisp
          refine hfin (doParallelF_endOkP hchild _ _ _ _ _ _ h hE1) ?_
          intro _ hpar _
          rw [hdisp] at hpar
          cases hpar
        · rename_i hdisp1
          split at h
          · rename_i hdisp
            refine hfin (doChoiceF_endOkP hchild _ _ _ _ _ _ h hE1) ?_
            intro _ _ hcho
            rw [hdisp] at hcho
            cases hcho
          · refine hfin
              (doRegularF_endOkP states hchild _ _ _ _ _ _ _ h hE1) ?_
            intro hflag _ _
            refine doRegularF_marker states
              (fun n x y σ r hr => processStateF_grows states fuel
                n x y σ r hr)
              (fun n x y σ r hr => processStateF_ymono states fuel
                n x y σ r hr)
              stateName x y _ state _ res ?_ hyv hflag h
            exact List.mem_append_right _ (List.mem_singleton_self _)

/-! ### No exit marker without the flag

The only statement that pushes a node with an `__END_..__` id is the
`if (state.End)` block, and it runs only for the state whose flag is
truthy; all other pushed node ids are clean keys, branch-shaped ids or
`__START__`. -/

theorem endNodeId_inj {a b : String} (h : endNodeId a = endNodeId b) :
    a = b := by
  have hd := congrArg String.data h
  unfold endNodeId at hd
  rw [String.data_append, String.data_append, String.data_append,
    String.data_append] at hd
  have h1 := List.append_cancel_right hd
  have h2 := List.append_cancel_left h1
  cases a
  cases b
  exact congrArg String.mk h2

theorem start_ne_endNodeId (s : String) : "__START__" ≠ endNodeId s := by
  intro h
  have hd := congrArg String.data h
  unfold endNodeId at hd
  rw [String.data_append, String.data_append] at hd
  rw [show "__START__".data =
      '_' :: '_' :: 'S' :: 'T' :: 'A' :: 'R' :: 'T' :: '_' :: '_' :: []
      from rfl,
    show "__END_".data = '_' :: '_' :: 'E' :: 'N' :: 'D' :: '_' :: []
      from rfl] at hd
  rw [List.cons_append, List.cons_append, List.cons_append] at hd
  injection hd with ha hd
  injection hd with hb hd
  injection hd with hc hd
  exact absurd hc (by decide)

theorem branchNodeId_ne_endNodeId {p : String} (hp : cleanKey p = true)
    (i : Nat) (inner s : String) :
    branchNodeId p i inner ≠ endNodeId s := by
  intro h
  obtain ⟨c, cs, hpd, hc⟩ := cleanKey_head hp
  have hd := congrArg String.data h
  rw [branchNodeId_data, hpd] at hd
  have he : (endNodeId s).data = '_' :: ("_END_" ++ s ++ "__").data := by
    show ("__END_" ++ s ++ "__").data = '_' :: ("_END_" ++ s ++ "__").data
    simp [String.data_append]
  rw [he, List.cons_append] at hd
  injection hd with h1 _
  rw [h1] at hc
  simp at hc

theorem cleanKey_ne_endNodeId_of_key
    {states : List (String × StateSpec)} (hClean : CleanIds states)
    {k : String} (hk : k ∈ keysOf states) (s : String) :
    k ≠ endNodeId s :=
  cleanKey_ne_endNodeId (cleanKey_of_mem_keys hClean hk) s

theorem catchStepF_noEnd {states : List (String × StateSpec)}
    (hClean : CleanIds states) (stateName : String) (x y : Int)
    (index : Nat) (tgt : String) (σ : LState) {s : String}
    (hN : NoEndNode s σ) :
    NoEndNode s (catchStepF states stateName x y index tgt σ) := by
  intro nd hnd
  unfold catchStepF at hnd
  cases hlk : lookupState states tgt with
  | none =>
    rw [hlk] at hnd
    exact hN nd hnd
  | some ts =>
    rw [hlk] at hnd
    dsimp only at hnd
    by_cases hcond : ts.type = some "Fail" ∧ tgt ∉ σ.processed
    · rw [if_pos hcond] at hnd
      rcases List.mem_append.mp hnd with h1 | h2
      · exact hN nd h1
      · have : nd = { id := tgt, x := x + HORIZONTAL_SPACING, y := y, type := ts.type } := by simpa using h2
        subst this
        exact cleanKey_ne_endNodeId_of_key hClean
          (keysOf_of_isSome (hlk ▸ rfl)) s
    · rw [if_neg hcond] at hnd
      exact hN nd hnd

theorem processCatchF_noEnd {states : List (String × StateSpec)}
    (hClean : CleanIds states) (stateName : String) (x y : Int)
    {s : String} :
    ∀ (rules : List CatchRule) (index : Nat) (σ : LState),
      NoEndNode s σ →
      NoEndNode s (processCatchF states stateName x y rules index σ)
  | [], index, σ, hN => hN
  | cb :: rest, index, σ, hN => by
    unfold processCatchF
    split
    · exact processCatchF_noEnd hClean stateName x y rest (index+1) σ hN
    · exact processCatchF_noEnd hClean stateName x y rest (index+1) _
        (catchStepF_noEnd hClean stateName x y index _ σ hN)

theorem endBlockF_noEnd (stateName : String) (endFlag : Bool)
    (x nextY : Int) (σ : LState) {s : String}
    (hne : endFlag = true → stateName ≠ s) (hN : NoEndNode s σ) :
    NoEndNode s (endBlockF stateName endFlag x nextY σ).2 := by
  intro nd hnd
  unfold endBlockF at hnd
  split at hnd
  · rename_i hflag
    rcases List.mem_append.mp hnd with h1 | h2
    · exact hN nd h1
    · have : nd = { id := endNodeId stateName, x := x, y := nextY, type := some "End" } := by simpa using h2
      subst this
      intro hid
      exact hne hflag (endNodeId_inj hid)
  · exact hN nd hnd

theorem processChoicesGo_noEnd
    {child : String → Int → Int → LState → Option (Int × LState)}
    {s : String}
    (hchild : ∀ n x y σ r, child n x y σ = some r →
      NoEndNode s σ → NoEndNode s r.2)
    (stateName : String) (startX nextY : Int) :
    ∀ (rest : List ChoiceRule) (index : Nat) (targets : List String)
      (maxY : Int) (σ : LState) (r : List String × Int × LState),
      processChoicesGo child stateName startX nextY rest index targets
        maxY σ = some r →
      NoEndNode s σ → NoEndNode s r.2.2
  | [], index, targets, maxY, σ, r => by
    intro h hN
    unfold processChoicesGo at h
    cases h
    exact hN
  | choice :: rest, index, targets, maxY, σ, r => by
    intro h hN
    unfold processChoicesGo at h
    split at h
    · exact processChoicesGo_noEnd hchild stateName startX nextY rest
        (index+1) targets maxY σ r h hN
    · rename_i tgt htgt
      split at h
      · exact processChoicesGo_noEnd hchild stateName startX nextY rest
          (index+1) targets maxY σ r h hN
      · dsimp only at h
        split at h
        · exact processChoicesGo_noEnd hchild stateName startX nextY rest
            (index+1) _ maxY _ r h hN
        · split at h
          · cases h
          · rename_i choiceY σ3 hc
            exact processChoicesGo_noEnd hchild stateName startX nextY
              rest (index+1) _ (max maxY choiceY) σ3 r h
              (hchild _ _ _ _ (choiceY, σ3) hc hN)

theorem doParallelF_noEnd
    {child : String → Int → Int → LState → Option (Int × LState)}
    {s : String}
    (hchild : ∀ n x y σ r, child n x y σ = some r →
      NoEndNode s σ → NoEndNode s r.2)
    {stateName : String} (hsn : cleanKey stateName = true)
    (x nextY : Int) (state : StateSpec) (σ1 : LState)
    (res : Int × LState)
    (h : doParallelF child stateName x nextY state σ1 = some res)
    (hN : NoEndNode s σ1) : NoEndNode s res.2 := by
  unfold doParallelF at h
  dsimp only at h
  split at h
  · simp at h
  · rename_i built hb
    have hN2 : NoEndNode s
        { nodes := σ1.nodes ++ built.nodes,
          edges := σ1.edges ++ built.edges,
          processed := σ1.processed,
          positions := built.poss ++ σ1.positions } := by
      intro nd hnd
      rcases List.mem_append.mp hnd with h1 | h2
      · exact hN nd h1
      · obtain ⟨i, inner, hid⟩ :=
          buildBranchesF_node_ids stateName _ nextY _ 0 nextY built hb
            nd h2
        rw [hid]
        exact branchNodeId_ne_endNodeId hsn i inner s
    split at h
    · cases h
      exact hN2
    · exact hchild _ _ _ _ _ h hN2

theorem doChoiceF_noEnd
    {child : String → Int → Int → LState → Option (Int × LState)}
    {s : String}
    (hchild : ∀ n x y σ r, child n x y σ = some r →
      NoEndNode s σ → NoEndNode s r.2)
    (stateName : String) (x nextY : Int) (state : StateSpec)
    (σ1 : LState) (res : Int × LState)
    (h : doChoiceF child stateName x nextY state σ1 = some res)
    (hN : NoEndNode s σ1) : NoEndNode s res.2 := by
  unfold doChoiceF at h
  dsimp only at h
  split at h
  · simp at h
  · rename_i targets maxChoiceY σ2 hgo
    have hN2 : NoEndNode s σ2 :=
      processChoicesGo_noEnd hchild stateName _ nextY _ 0 [] nextY σ1
        (targets, maxChoiceY, σ2) hgo hN
    split at h
    · cases h
      exact hN2
    · rename_i dflt hd
      split at h
      · cases h
        exact hN2
      · split at h
        · cases h
          exact hN2
        · split at h
          · simp at h
          · rename_i defaultY σ4 hc
            cases h
            exact hchild _ _ _ _ (defaultY, σ4) hc hN2

theorem doRegularF_noEnd {states : List (String × StateSpec)}
    (hClean : CleanIds states)
    {child : String → Int → Int → LState → Option (Int × LState)}
    {s : String}
    (hchild : ∀ n x y σ r, child n x y σ = some r →
      NoEndNode s σ → NoEndNode s r.2)
    (stateName : String) (x y nextY : Int) (state : StateSpec)
    (hne : state.endFlag = true → stateName ≠ s)
    (σ1 : LState) (res : Int × LState)
    (h : doRegularF states child stateName x y nextY state σ1 = some res)
    (hN : NoEndNode s σ1) : NoEndNode s res.2 := by
  unfold doRegularF at h
  dsimp only at h
  have hN2 : NoEndNode s
      (processCatchF states stateName x y state.catchRules 0 σ1) :=
    processCatchF_noEnd hClean stateName x y state.catchRules 0 σ1 hN
  split at h
  · cases h
    exact endBlockF_noEnd stateName state.endFlag x _ _ hne hN2
  · rename_i nxt hnx
    split at h
    · cases h
      exact endBlockF_noEnd stateName state.endFlag x _ _ hne hN2
    · split at h
      · simp at h
      · rename_i nextY2 σ4 hc
        cases h
        refine endBlockF_noEnd stateName state.endFlag x _ σ4 hne ?_
        exact hchild _ _ _ _ (nextY2, σ4) hc hN2

theorem processStateF_noEnd {states : List (String × StateSpec)}
    (hClean : CleanIds states) {s : String}
    (hflag : ∀ spec, lookupState states s = some spec →
      spec.endFlag = false) :
    ∀ (fuel : Nat) (stateName : String) (x y : Int) (σ : LState)
      (res : Int × LState),
      processStateF states fuel stateName x y σ = some res →
      NoEndNode s σ → NoEndNode s res.2
  | 0, stateName, x, y, σ, res => by intro h _; cases h
  | fuel+1, stateName, x, y, σ, res => by
    intro h hN
    have hchild : ∀ n x y σ r,
        processStateF states fuel n x y σ = some r →
        NoEndNode s σ → NoEndNode s r.2 :=
      fun n x y σ r hr => processStateF_noEnd hClean hflag fuel n x y σ
        r hr
    unfold processStateF at h
    split at h
    · cases h
      exact hN
    · rename_i hproc
      split at h
      · cases h
        exact hN
      · rename_i state hl
        dsimp only at h
        have hkey : stateName ∈ keysOf states :=
          keysOf_of_isSome (hl ▸ rfl)
        have hN1 : NoEndNode s (LState.mk
            (σ.nodes ++
              [{ id := stateName, x := x, y := y, type := state.type }])
            σ.edges (insert stateName σ.processed)
            ((stateName, NPVal.pos x y) :: σ.positions)) := by
          intro nd hnd
          rcases List.mem_append.mp hnd with h1 | h2
          · exact hN nd h1
          · have : nd = { id := stateName, x := x, y := y, type := state.type } := by simpa using h2
            subst this
            exact cleanKey_ne_endNodeId_of_key hClean hkey s
        have hne : state.endFlag = true → stateName ≠ s := by
          intro hf heq
          subst heq
          rw [hflag state hl] at hf
          cases hf
        split at h
        · exact doParallelF_noEnd hchild
            (cleanKey_of_mem_keys hClean hkey) _ _ state _ _ h hN1
        · split at h
          · exact doChoiceF_noEnd hchild _ _ _ state _ _ h hN1
          · exact doRegularF_noEnd hClean hchild _ _ _ _ state hne _ _
              h hN1

/-- C9, counterexample: the Parallel state `P` of `dParallelEnd` is
reachable and carries a truthy `End` flag, yet the Parallel dispatch arm
returns before the `if (state.End)` block, so no exit marker node is
created for it. -/
theorem layout_parallel_end_ignored :
    Reach dParallelEnd "P" ∧
    (lookupState dParallelEnd.states "P").map StateSpec.endFlag =
      some true ∧
    ∀ nd ∈ ((parseStateMachineCore dParallelEnd).getD ⟨[], []⟩).nodes,
      nd.id ≠ endNodeId "P" :=
  ⟨Reach.start "P" (by decide) (by decide), by decide, by decide⟩

/-- C9 (amended): in a successful layout of a definition with clean state
identifiers and inert `Fail` states, every reachable state that is
dispatched on the regular path (neither Parallel-with-branches nor
Choice-with-choices) with a kind other than `Fail` and a truthy `End`
flag has an exit marker node in its column strictly below it and an exit
edge to it; and a state whose `End` flag is falsy — in particular an
inherently terminal `Fail` or `Succeed` state without the flag — never
gets an exit marker node.  States dispatched on the Parallel or Choice
arms never reach the `if (state.End)` block, so the original
regardless-of-kind claim fails. -/
theorem layout_end_markers (d : StateMachineDef)
    (hClean : CleanIds d.states) (hFI : FailInert d.states) (g : Graph)
    (hg : parseStateMachineCore d = some g) :
    (∀ s spec, Reach d s → lookupState d.states s = some spec →
      isParallelPath spec = false → isChoicePath spec = false →
      spec.type ≠ some "Fail" → spec.endFlag = true →
      ∃ nd ∈ g.nodes, nd.id = s ∧
        ∃ me ∈ g.nodes, me.id = endNodeId s ∧ me.x = nd.x ∧
          nd.y < me.y ∧
          ∃ e ∈ g.edges, e.source = NPVal.nid s ∧ e.target = endNodeId s) ∧
    (∀ s, (∀ spec, lookupState d.states s = some spec →
        spec.endFlag = false) →
      ∀ nd ∈ g.nodes, nd.id ≠ endNodeId s) := by
  rcases parse_success_facts d g hg with ⟨hge, hdeg⟩ |
    ⟨startAt, yv, σf, hstart, hres, hgf⟩
  · constructor
    · intro s spec hreach
      exact (reach_not_degenerate hreach hdeg).elim
    · intro s hsflag nd hnd
      rw [hge] at hnd
      cases hnd
  · subst hgf
    constructor
    · intro s spec hreach hlspec hpar hcho htype hflag
      have hE0 : EndOkP d.states ∅ (LState.mk
          [{ id := "__START__", x := 0, y := 0, type := some "Start" }]
          [{ id := "__START__" ++ "-" ++ startAt, source := NPVal.nid "__START__", target := startAt }]
          ∅ []) := by
        intro t ht
        simp at ht
      have hEf : EndOkP d.states ∅ σf :=
        processStateF_endOk d.states _ _ _ _ _ (yv, σf) ∅ hres hE0
      have hproc := reach_processed_of_run d hFI hstart hres s hreach
      exact hEf s hproc (Finset.not_mem_empty s) spec hlspec hpar hcho
        htype hflag
    · intro s hsflag
      have hN0 : NoEndNode s (LState.mk
          [{ id := "__START__", x := 0, y := 0, type := some "Start" }]
          [{ id := "__START__" ++ "-" ++ startAt, source := NPVal.nid "__START__", target := startAt }]
          ∅ []) := by
        intro nd hnd
        have : nd = { id := "__START__", x := 0, y := 0, type := some "Start" } := by simpa using hnd
        subst this
        exact start_ne_endNodeId s
      exact processStateF_noEnd hClean hsflag _ _ _ _ _ (yv, σf) hres hN0

/-- Witness for `layout_end_markers`: on `dParallel` the reachable
end-flagged Task `S` gets its exit marker. -/
theorem layout_end_markers_witness :
    CleanIds dParallel.states ∧ FailInert dParallel.states ∧
    ∃ nd ∈ gParallel.nodes, nd.id = "S" ∧
      ∃ me ∈ gParallel.nodes, me.id = endNodeId "S" ∧ me.x = nd.x ∧
        nd.y < me.y ∧
        ∃ e ∈ gParallel.edges, e.source = NPVal.nid "S" ∧
          e.target = endNodeId "S" := by
  refine ⟨by decide, by decide, ?_⟩
  have h := layout_end_markers dParallel (by decide) (by decide)
    gParallel (by decide)
  refine h.1 "S" (mkTask none true) ?_ (by decide) (by decide) (by decide)
    (by decide) (by decide)
  refine Reach.step "P" ((dParallel.states.get ⟨0, by decide⟩).2) "S"
    (Reach.start "P" (by decide) (by decide)) (by decide) (by decide)
    (by decide)

/-! ### Provenance of processed names

Apart from the traversal root, a name enters `processedStates` only as a
followed transition target of some state of the map or as a `Fail`-kind
catch target. -/

theorem lookupState_mem_pair {states : List (String × StateSpec)}
    {k : String} {spec : StateSpec}
    (h : lookupState states k = some spec) :
    ∃ p ∈ states, p.2 = spec := by
  unfold lookupState jsLookup at h
  cases hf : states.find? (fun p => p.1 == k) with
  | none =>
    rw [hf] at h
    cases h
  | some pr =>
    rw [hf] at h
    exact ⟨pr, List.mem_of_find?_eq_some hf, Option.some.inj h⟩

theorem catchStepF_prov {states : List (String × StateSpec)}
    (stateName : String) (x y : Int) (index : Nat) (tgt : String)
    (σ : LState) :
    ∀ t ∈ (catchStepF states stateName x y index tgt σ).processed,
      t ∈ σ.processed ∨ ProvT states t := by
  intro t ht
  unfold catchStepF at ht
  cases hlk : lookupState states tgt with
  | none =>
    rw [hlk] at ht
    exact Or.inl ht
  | some ts =>
    rw [hlk] at ht
    dsimp only at ht
    by_cases hcond : ts.type = some "Fail" ∧ tgt ∉ σ.processed
    · rw [if_pos hcond] at ht
      rcases Finset.mem_insert.mp ht with heq | ht2
      · subst heq
        exact Or.inr (Or.inr ⟨ts, hlk, hcond.1⟩)
      · exact Or.inl ht2
    · rw [if_neg hcond] at ht
      exact Or.inl ht

theorem processCatchF_prov {states : List (String × StateSpec)}
    (stateName : String) (x y : Int) :
    ∀ (rules : List CatchRule) (index : Nat) (σ : LState),
      ∀ t ∈ (processCatchF states stateName x y rules index σ).processed,
        t ∈ σ.processed ∨ ProvT states t
  | [], index, σ => fun t ht => Or.inl ht
  | cb :: rest, index, σ => by
    intro t ht
    unfold processCatchF at ht
    split at ht
    · exact processCatchF_prov stateName x y rest (index+1) σ t ht
    · rcases processCatchF_prov stateName x y rest (index+1) _ t ht with
        h1 | h2
      · exact catchStepF_prov stateName x y _ _ σ t h1
      · exact Or.inr h2

theorem processChoicesGo_prov {states : List (String × StateSpec)}
    {child : String → Int → Int → LState → Option (Int × LState)}
    (hchild : ∀ n x y σ r, child n x y σ = some r →
      ∀ t ∈ r.2.processed, t ∈ σ.processed ∨ t = n ∨ ProvT states t)
    (stateName : String) (startX nextY : Int) :
    ∀ (rest : List ChoiceRule) (index : Nat) (targets : List String)
      (maxY : Int) (σ : LState) (r : List String × Int × LState),
      (∀ c ∈ rest, ∀ t, jsField c.next = some t → ProvT states t) →
      processChoicesGo child stateName startX nextY rest index targets
        maxY σ = some r →
      ∀ t ∈ r.2.2.processed, t ∈ σ.processed ∨ ProvT states t
  | [], index, targets, maxY, σ, r => by
    intro hT h t ht
    unfold processChoicesGo at h
    cases h
    exact Or.inl ht
  | choice :: rest, index, targets, maxY, σ, r => by
    intro hT h t ht
    have hTr : ∀ c ∈ rest, ∀ t, jsField c.next = some t →
        ProvT states t :=
      fun c hc => hT c (List.mem_cons_of_mem _ hc)
    unfold processChoicesGo at h
    split at h
    · exact processChoicesGo_prov hchild stateName startX nextY rest
        (index+1) targets maxY σ r hTr h t ht
    · rename_i tgt htgt
      split at h
      · exact processChoicesGo_prov hchild stateName startX nextY rest
          (index+1) targets maxY σ r hTr h t ht
      · dsimp only at h
        split at h
        · exact processChoicesGo_prov hchild stateName startX nextY rest
            (index+1) _ maxY _ r hTr h t ht
        · split at h
          · cases h
          · rename_i choiceY σ3 hc
            rcases processChoicesGo_prov hchild stateName startX nextY
                rest (index+1) _ (max maxY choiceY) σ3 r hTr h t ht with
              h1 | h2
            · rcases hchild _ _ _ _ (choiceY, σ3) hc t h1 with
                ha | hb | hcp
              · exact Or.inl ha
              · exact Or.inr (hb ▸
                  hT choice (List.mem_cons_self _ _) tgt htgt)
              · exact Or.inr hcp
            · exact Or.inr h2

theorem doParallelF_prov {states : List (String × StateSpec)}
    {child : String → Int → Int → LState → Option (Int × LState)}
    (hchild : ∀ n x y σ r, child n x y σ = some r →
      ∀ t ∈ r.2.processed, t ∈ σ.processed ∨ t = n ∨ ProvT states t)
    {stateName : String} {state : StateSpec}
    (hpair : ∃ p ∈ states, p.2 = state)
    (hdisp : isParallelPath state = true)
    (x nextY : Int) (σ1 : LState) (res : Int × LState)
    (h : doParallelF child stateName x nextY state σ1 = some res) :
    ∀ t ∈ res.2.processed, t ∈ σ1.processed ∨ ProvT states t := by
  intro t ht
  unfold doParallelF at h
  dsimp only at h
  split at h
  · simp at h
  · rename_i built hb
    split at h
    · cases h
      exact Or.inl ht
    · rename_i nxt hnx
      rcases hchild _ _ _ _ _ h t ht with h1 | h2 | h3
      · exact Or.inl h1
      · subst h2
        obtain ⟨p, hp, hps⟩ := hpair
        refine Or.inr (Or.inl ⟨p, hp, ?_⟩)
        rw [hps, followedTargets_parallel hdisp, hnx]
        exact List.mem_singleton_self _
      · exact Or.inr h3

theorem doChoiceF_prov {states : List (String × StateSpec)}
    {child : String → Int → Int → LState → Option (Int × LState)}
    (hchild : ∀ n x y σ r, child n x y σ = some r →
      ∀ t ∈ r.2.processed, t ∈ σ.processed ∨ t = n ∨ ProvT states t)
    {stateName : String} {state : StateSpec}
    (hpair : ∃ p ∈ states, p.2 = state)
    (hnpar : isParallelPath state = false)
    (hdisp : isChoicePath state = true)
    (x nextY : Int) (σ1 : LState) (res : Int × LState)
    (h : doChoiceF child stateName x nextY state σ1 = some res) :
    ∀ t ∈ res.2.processed, t ∈ σ1.processed ∨ ProvT states t := by
  intro t ht
  obtain ⟨p, hp, hps⟩ := hpair
  have hT : ∀ c ∈ state.choices.getD [], ∀ t,
      jsField c.next = some t → ProvT states t := by
    intro c hc t2 ht2
    refine Or.inl ⟨p, hp, ?_⟩
    rw [hps, followedTargets_choice hnpar hdisp]
    exact List.mem_append_left _
      (List.mem_filterMap.mpr ⟨c, hc, ht2⟩)
  unfold doChoiceF at h
  dsimp only at h
  split at h
  · simp at h
  · rename_i targets maxChoiceY σ2 hgo
    have hgoal2 := processChoicesGo_prov hchild stateName _ nextY
      (state.choices.getD []) 0 [] nextY σ1 (targets, maxChoiceY, σ2)
      hT hgo
    split at h
    · cases h
      exact hgoal2 t ht
    · rename_i dflt hd
      split at h
      · cases h
        exact hgoal2 t ht
      · split at h
        · cases h
          exact hgoal2 t ht
        · split at h
          · simp at h
          · rename_i defaultY σ4 hc
            cases h
            rcases hchild _ _ _ _ (defaultY, σ4) hc t ht with h1 | h2 | h3
            · exact hgoal2 t h1
            · subst h2
              refine Or.inr (Or.inl ⟨p, hp, ?_⟩)
              rw [hps, followedTargets_choice hnpar hdisp]
              refine List.mem_append_right _ ?_
              rw [hd]
              exact List.mem_singleton_self _
            · exact Or.inr h3

theorem doRegularF_prov {states : List (String × StateSpec)}
    {child : String → Int → Int → LState → Option (Int × LState)}
    (hchild : ∀ n x y σ r, child n x y σ = some r →
      ∀ t ∈ r.2.processed, t ∈ σ.processed ∨ t = n ∨ ProvT states t)
    {stateName : String} {state : StateSpec}
    (hpair : ∃ p ∈ states, p.2 = state)
    (hnpar : isParallelPath state = false)
    (hncho : isChoicePath state = false)
    (x y nextY : Int) (σ1 : LState) (res : Int × LState)
    (h : doRegularF states child stateName x y nextY state σ1 = some res) :
    ∀ t ∈ res.2.processed, t ∈ σ1.processed ∨ ProvT states t := by
  intro t ht
  obtain ⟨p, hp, hps⟩ := hpair
  unfold doRegularF at h
  dsimp only at h
  split at h
  · cases h
    rw [endBlockF_processed] at ht
    exact processCatchF_prov stateName x y state.catchRules 0 σ1 t ht
  · rename_i nxt hnx
    split at h
    · cases h
      rw [endBlockF_processed] at ht
      exact processCatchF_prov stateName x y state.catchRules 0 σ1 t ht
    · split at h
      · simp at h
      · rename_i nextY2 σ4 hc
        cases h
        rw [endBlockF_processed] at ht
        rcases hchild _ _ _ _ (nextY2, σ4) hc t ht with h1 | h2 | h3
        · exact processCatchF_prov stateName x y state.catchRules 0 σ1
            t h1
        · subst h2
          refine Or.inr (Or.inl ⟨p, hp, ?_⟩)
          rw [hps, followedTargets_regular hnpar hncho, hnx]
          exact List.mem_singleton_self _
        · exact Or.inr h3

theorem processStateF_prov {states : List (String × StateSpec)} :
    ∀ (fuel : Nat) (stateName : String) (x y : Int) (σ : LState)
      (res : Int × LState),
      processStateF states fuel stateName x y σ = some res →
      ∀ t ∈ res.2.processed,
        t ∈ σ.processed ∨ t = stateName ∨ ProvT states t
  | 0, stateName, x, y, σ, res => by intro h; cases h
  | fuel+1, stateName, x, y, σ, res => by
    intro h t ht
    have hchild : ∀ n x y σ r,
        processStateF states fuel n x y σ = some r →
        ∀ t ∈ r.2.processed, t ∈ σ.processed ∨ t = n ∨ ProvT states t :=
      fun n x y σ r hr => processStateF_prov fuel n x y σ r hr
    unfold processStateF at h
    split at h
    · cases h
      exact Or.inl ht
    · rename_i hproc
      split at h
      · cases h
        exact Or.inl ht
      · rename_i state hl
        dsimp only at h
        have habsorb : t ∈ (LState.mk
            (σ.nodes ++
              [{ id := stateName, x := x, y := y, type := state.type }])
            σ.edges (insert stateName σ.processed)
            ((stateName, NPVal.pos x y) :: σ.positions)).processed ∨
            ProvT states t →
            t ∈ σ.processed ∨ t = stateName ∨ ProvT states t := by
          intro hcase
          rcases hcase with hmem | hpv
          · rcases Finset.mem_insert.mp hmem with heq | hmem2
            · exact Or.inr (Or.inl heq)
            · exact Or.inl hmem2
          · exact Or.inr (Or.inr hpv)
        have hpair : ∃ p ∈ states, p.2 = state :=
          lookupState_mem_pair hl
        split at h
        · rename_i hdisp
          exact habsorb (doParallelF_prov hchild hpair hdisp _ _ _
            res h t ht)
        · rename_i hnpar
          split at h
          · rename_i hdisp
            exact habsorb (doChoiceF_prov hchild hpair
              (Bool.not_eq_true _ ▸ Bool.of_not_eq_true hnpar) hdisp
              _ _ _ res h t ht)
          · rename_i hncho
            exact habsorb (doRegularF_prov hchild hpair
              (Bool.not_eq_true _ ▸ Bool.of_not_eq_true hnpar)
              (Bool.not_eq_true _ ▸ Bool.of_not_eq_true hncho)
              _ _ _ _ res h t ht)

theorem catchStepF_edge {states : List (String × StateSpec)}
    (stateName : String) (x y : Int) (index : Nat) (tgt : String)
    (σ : LState) :
    ∃ e ∈ (catchStepF states stateName x y index tgt σ).edges,
      e.source = NPVal.nid stateName ∧ e.target = tgt := by
  refine ⟨{ id := stateName ++ "-catch-" ++ toString index ++ "-" ++ tgt, source := NPVal.nid stateName, target := tgt }, ?_, rfl, rfl⟩
  unfold catchStepF
  cases hlk : lookupState states tgt with
  | none => exact List.mem_append_right _ (List.mem_singleton_self _)
  | some ts =>
    dsimp only
    by_cases hcond : ts.type = some "Fail" ∧ tgt ∉ σ.processed
    · rw [if_pos hcond]
      exact List.mem_append_right _ (List.mem_singleton_self _)
    · rw [if_neg hcond]
      exact List.mem_append_right _ (List.mem_singleton_self _)

theorem processCatchF_edge {states : List (String × StateSpec)}
    (stateName : String) (x y : Int) :
    ∀ (rules : List CatchRule) (index : Nat) (σ : LState)
      (rule : CatchRule) (tgt : String), rule ∈ rules →
      jsField rule.next = some tgt →
      ∃ e ∈ (processCatchF states stateName x y rules index σ).edges,
        e.source = NPVal.nid stateName ∧ e.target = tgt
  | [], index, σ, rule, tgt => by
    intro hr hn
    cases hr
  | cb :: rest, index, σ, rule, tgt => by
    intro hr hn
    rcases List.mem_cons.mp hr with heq | hrest
    · subst heq
      unfold processCatchF
      rw [hn]
      obtain ⟨e, he, hsrc, htg⟩ :=
        catchStepF_edge stateName x y index tgt σ
      exact ⟨e, (processCatchF_grows states stateName x y rest (index+1)
        _).edge_mem he, hsrc, htg⟩
    · unfold processCatchF
      split
      · exact processCatchF_edge stateName x y rest (index+1) σ rule
          tgt hrest hn
      · exact processCatchF_edge stateName x y rest (index+1) _ rule
          tgt hrest hn

/-- C10: a state of the map whose kind is not `Fail` and which is never
the start state nor a followed transition target — i.e. referenced only
by catch rules, if at all — never appears in the returned nodes; and the
catch loop emits an error edge for every catch rule with a truthy
`Next`. -/
theorem catch_only_non_fail_unlaid (d : StateMachineDef)
    (hClean : CleanIds d.states) (g : Graph)
    (hg : parseStateMachineCore d = some g) (s : String)
    (hkey : s ∈ keysOf d.states)
    (hstart : ∀ a ∈ (jsField d.startAt).toList, a ≠ s)
    (hnofollow : ∀ p ∈ d.states, s ∉ followedTargets p.2)
    (hnotfail : ∀ spec ∈ (lookupState d.states s).toList,
      spec.type ≠ some "Fail") :
    nodeCount g.nodes s = 0 ∧
    ∀ (stateName : String) (x y : Int) (rules : List CatchRule)
      (index : Nat) (σ : LState) (rule : CatchRule) (tgt : String),
      rule ∈ rules → jsField rule.next = some tgt →
      ∃ e ∈ (processCatchF d.states stateName x y rules index σ).edges,
        e.source = NPVal.nid stateName ∧ e.target = tgt := by
  constructor
  · rcases parse_success_facts d g hg with ⟨hge, hdeg⟩ |
      ⟨startAt, yv, σf, hstartAt, hres, hgf⟩
    · rw [hge]
      simp [nodeCount]
    · subst hgf
      have hNI0 : NodesInv d.states (LState.mk
          [{ id := "__START__", x := 0, y := 0, type := some "Start" }]
          [{ id := "__START__" ++ "-" ++ startAt, source := NPVal.nid "__START__", target := startAt }]
          ∅ []) := by
        intro k hk
        have hne : ∀ nd ∈ [({ id := "__START__", x := 0, y := 0, type := some "Start" } : Node)], nd.id ≠ k := by
          intro nd hnd
          have : nd = { id := "__START__", x := 0, y := 0, type := some "Start" } := by simpa using hnd
          subst this
          exact fun he =>
            cleanKey_ne_start (cleanKey_of_mem_keys hClean hk) he.symm
        constructor
        · rw [show nodeCount [({ id := "__START__", x := 0, y := 0, type := some "Start" } : Node)] k = 0 from nodeCount_zero_of_ne hne]
          omega
        · intro _
          exact nodeCount_zero_of_ne hne
      have hNIf : NodesInv d.states σf :=
        processStateF_nodesInv d.states hClean _ _ _ _ _ (yv, σf) hres
          hNI0
      have hnotproc : s ∉ σf.processed := by
        intro hmem
        rcases processStateF_prov _ startAt _ _ _ (yv, σf) hres s hmem
          with h0 | heq | hpv
        · simp at h0
        · exact absurd heq.symm
            (hstart startAt (by rw [hstartAt]; simp))
        · rcases hpv with ⟨p, hp, hmem2⟩ | ⟨ts, hlk, hfail⟩
          · exact hnofollow p hp hmem2
          · exact hnotfail ts (by rw [hlk]; simp) hfail
      exact (hNIf s hkey).2 hnotproc
  · intro stateName x y rules index σ rule tgt hr hn
    exact processCatchF_edge stateName x y rules index σ rule tgt hr hn

/-- Witness for `catch_only_non_fail_unlaid` on `dCatchTask`: the Task `H`
referenced only by `A`'s catch rule gets no node, while the error edge
`A -> H` is present. -/
theorem catch_only_non_fail_unlaid_witness :
    CleanIds dCatchTask.states ∧
    nodeCount
      ((parseStateMachineCore dCatchTask).getD ⟨[], []⟩).nodes "H" = 0 ∧
    ∃ e ∈ ((parseStateMachineCore dCatchTask).getD ⟨[], []⟩).edges,
      e.source = NPVal.nid "A" ∧ e.target = "H" := by
  refine ⟨by decide, ?_, by decide⟩
  have h := catch_only_non_fail_unlaid dCatchTask (by decide)
    ((parseStateMachineCore dCatchTask).getD ⟨[], []⟩) (by decide) "H"
    (by decide) (by decide) (by decide) (by decide)
  exact h.1

/-- C7, counterexample: in `dChoiceDup` both choice rules of `CH` target
`T`, yet the returned graph has a single `CH -> T` edge — the duplicate
reference is skipped entirely and adds no edge of its own. -/
theorem choice_dup_single_edge :
    nodeCount
      ((parseStateMachineCore dChoiceDup).getD ⟨[], []⟩).nodes "T" = 1 ∧
    (((parseStateMachineCore dChoiceDup).getD ⟨[], []⟩).edges.filter
      (fun e => e.source == NPVal.nid "CH" && e.target == "T")).length = 1 := by
  decide

/-- C7 (amended): a choice rule whose target is already recorded in
`choiceTargets` is skipped entirely by the choice loop — the loop state
(targets, running maximum, nodes, edges, visited set) is exactly what it
would be without the rule, so the duplicate reference adds no edge; only
the first reference to a target adds its labelled edge (and lays the
target out, at most once). -/
theorem choice_duplicate_reference_skipped
    (child : String → Int → Int → LState → Option (Int × LState))
    (stateName : String) (startX nextY : Int) (choice : ChoiceRule)
    (rest : List ChoiceRule) (index : Nat) (targets : List String)
    (maxY : Int) (σ : LState) (tgt : String)
    (hn : jsField choice.next = some tgt)
    (hdup : targets.contains tgt = true) :
    processChoicesGo child stateName startX nextY (choice :: rest) index
      targets maxY σ =
      processChoicesGo child stateName startX nextY rest (index+1)
        targets maxY σ := by
  conv_lhs => unfold processChoicesGo
  rw [hn]
  dsimp only
  rw [if_pos hdup]

/-- Witness for `choice_duplicate_reference_skipped` at a concrete loop
state. -/
theorem choice_duplicate_reference_skipped_witness :
    jsField (ChoiceRule.mk (some "T")).next = some "T" ∧
    (["T"].contains "T") = true ∧
    processChoicesGo (fun _ _ _ _ => none) "CH" 0 0
      [ChoiceRule.mk (some "T")] 1 ["T"] 0 (LState.mk [] [] ∅ []) =
      processChoicesGo (fun _ _ _ _ => none) "CH" 0 0 [] 2 ["T"] 0
        (LState.mk [] [] ∅ []) :=
  ⟨by decide, by decide,
    choice_duplicate_reference_skipped (fun _ _ _ _ => none) "CH" 0 0
      (ChoiceRule.mk (some "T")) [] 1 ["T"] 0 (LState.mk [] [] ∅ []) "T"
      (by decide) (by decide)⟩

/-- C8: the catch loop lays an unvisited `Fail`-kind catch target out at
`(x + HORIZONTAL_SPACING, y)` — strictly to the right of the throwing
state's position `(x, y)`, at the same `y`; concretely, in `dCatch` the
`Fail` node `F` sits right of the throwing Task `T` at equal `y`, with
the error edge `T -> F`. -/
theorem catch_side_lane (states : List (String × StateSpec))
    (stateName : String) (x y : Int) (index : Nat) (tgt : String)
    (σ : LState) (ts : StateSpec)
    (hlk : lookupState states tgt = some ts)
    (hfail : ts.type = some "Fail") (hnew : tgt ∉ σ.processed) :
    (catchStepF states stateName x y index tgt σ).nodes =
      σ.nodes ++ [{ id := tgt, x := x + HORIZONTAL_SPACING, y := y, type := ts.type }] ∧
    ∃ nT ∈ ((parseStateMachineCore dCatch).getD ⟨[], []⟩).nodes,
      ∃ nF ∈ ((parseStateMachineCore dCatch).getD ⟨[], []⟩).nodes,
        nT.id = "T" ∧ nF.id = "F" ∧ nT.x < nF.x ∧ nF.y = nT.y ∧
        ∃ e ∈ ((parseStateMachineCore dCatch).getD ⟨[], []⟩).edges,
          e.source = NPVal.nid "T" ∧ e.target = "F" := by
  constructor
  · unfold catchStepF
    rw [hlk]
    dsimp only
    rw [if_pos ⟨hfail, hnew⟩]
  · decide

/-- Witness for `catch_side_lane` at a concrete catch step. -/
theorem catch_side_lane_witness :
    (catchStepF dCatch.states "T" 0 100 0 "F" (LState.mk [] [] ∅ [])).nodes =
      [] ++ [{ id := "F", x := 0 + HORIZONTAL_SPACING, y := 100, type := some "Fail" }] :=
  (catch_side_lane dCatch.states "T" 0 100 0 "F" (LState.mk [] [] ∅ [])
    { type := some "Fail", next := none, endFlag := false, catchRules := [], choices := none, default := none, branches := none }
    (by decide) (by decide) (by decide)).1

/-! ### Fuel independence

Above the visited-set bound, the traversal's result does not depend on
the recursion budget: the embedded fuel is an artifact and the layout is
a function of the input definition alone. -/

theorem processChoicesGo_child_mono
    {child1 child2 : String → Int → Int → LState → Option (Int × LState)}
    (hc : ∀ n x y σ r, child1 n x y σ = some r → child2 n x y σ = some r)
    (stateName : String) (startX nextY : Int) :
    ∀ (rest : List ChoiceRule) (index : Nat) (targets : List String)
      (maxY : Int) (σ : LState) (r : List String × Int × LState),
      processChoicesGo child1 stateName startX nextY rest index targets
        maxY σ = some r →
      processChoicesGo child2 stateName startX nextY rest index targets
        maxY σ = some r
  | [], index, targets, maxY, σ, r => by
    intro h
    exact h
  | choice :: rest, index, targets, maxY, σ, r => by
    intro h
    unfold processChoicesGo at h ⊢
    split at h
    · exact processChoicesGo_child_mono hc stateName startX nextY rest
        (index+1) targets maxY σ r h
    · rename_i tgt hn
      dsimp only at h ⊢
      split at h
      · rename_i hdup
        rw [if_pos hdup]
        exact processChoicesGo_child_mono hc stateName startX nextY rest
          (index+1) targets maxY σ r h
      · rename_i hdup
        rw [if_neg hdup]
        split at h
        · rename_i hproc
          rw [if_pos hproc]
          exact processChoicesGo_child_mono hc stateName startX nextY
            rest (index+1) _ maxY _ r h
        · rename_i hproc
          rw [if_neg hproc]
          split at h
          · cases h
          · rename_i choiceY σ3 hch
            rw [hc _ _ _ _ (choiceY, σ3) hch]
            exact processChoicesGo_child_mono hc stateName startX nextY
              rest (index+1) _ (max maxY choiceY) σ3 r h

theorem doParallelF_child_mono
    {child1 child2 : String → Int → Int → LState → Option (Int × LState)}
    (hc : ∀ n x y σ r, child1 n x y σ = some r → child2 n x y σ = some r)
    (stateName : String) (x nextY : Int) (state : StateSpec)
    (σ1 : LState) (res : Int × LState)
    (h : doParallelF child1 stateName x nextY state σ1 = some res) :
    doParallelF child2 stateName x nextY state σ1 = some res := by
  unfold doParallelF at h ⊢
  dsimp only at h ⊢
  split at h
  · simp at h
  · rename_i built hb
    split at h
    · exact h
    · rename_i nxt hn
      exact hc _ _ _ _ res h

theorem doChoiceF_child_mono
    {child1 child2 : String → Int → Int → LState → Option (Int × LState)}
    (hc : ∀ n x y σ r, child1 n x y σ = some r → child2 n x y σ = some r)
    (stateName : String) (x nextY : Int) (state : StateSpec)
    (σ1 : LState) (res : Int × LState)
    (h : doChoiceF child1 stateName x nextY state σ1 = some res) :
    doChoiceF child2 stateName x nextY state σ1 = some res := by
  unfold doChoiceF at h ⊢
  dsimp only at h ⊢
  split at h
  · simp at h
  · rename_i targets maxChoiceY σ2 hgo
    rw [processChoicesGo_child_mono hc stateName _ nextY _ 0 [] nextY σ1
      (targets, maxChoiceY, σ2) hgo]
    split at h
    · exact h
    · rename_i dflt hd
      dsimp only at h ⊢
      split at h
      · rename_i hdup
        rw [if_pos hdup]
        exact h
      · rename_i hdup
        rw [if_neg hdup]
        split at h
        · rename_i hproc
          rw [if_pos hproc]
          exact h
        · rename_i hproc
          rw [if_neg hproc]
          split at h
          · simp at h
          · rename_i defaultY σ4 hch
            rw [hc _ _ _ _ (defaultY, σ4) hch]
            exact h

theorem doRegularF_child_mono (states : List (String × StateSpec))
    {child1 child2 : String → Int → Int → LState → Option (Int × LState)}
    (hc : ∀ n x y σ r, child1 n x y σ = some r → child2 n x y σ = some r)
    (stateName : String) (x y nextY : Int) (state : StateSpec)
    (σ1 : LState) (res : Int × LState)
    (h : doRegularF states child1 stateName x y nextY state σ1 =
      some res) :
    doRegularF states child2 stateName x y nextY state σ1 = some res := by
  unfold doRegularF at h ⊢
  dsimp only at h ⊢
  split at h
  · exact h
  · rename_i nxt hn
    split at h
    · rename_i hproc
      rw [if_pos hproc]
      exact h
    · rename_i hproc
      rw [if_neg hproc]
      split at h
      · simp at h
      · rename_i nextY2 σ4 hch
        rw [hc _ _ _ _ (nextY2, σ4) hch]
        exact h

theorem processStateF_fuel_succ (states : List (String × StateSpec)) :
    ∀ (fuel : Nat) (stateName : String) (x y : Int) (σ : LState)
      (res : Int × LState),
      processStateF states fuel stateName x y σ = some res →
      processStateF states (fuel+1) stateName x y σ = some res
  | 0, stateName, x, y, σ, res => by intro h; cases h
  | fuel+1, stateName, x, y, σ, res => by
    intro h
    have hc : ∀ n x y σ r,
        processStateF states fuel n x y σ = some r →
        processStateF states (fuel+1) n x y σ = some r :=
      fun n x y σ r hr => processStateF_fuel_succ states fuel n x y σ r hr
    unfold processStateF at h ⊢
    split at h
    · rename_i hproc
      rw [if_pos hproc]
      exact h
    · rename_i hproc
      rw [if_neg hproc]
      split at h
      · exact h
      · rename_i state hl
        dsimp only at h ⊢
        split at h
        · rename_i hdisp
          rw [if_pos hdisp]
          exact doParallelF_child_mono hc _ _ _ state _ res h
        · rename_i hdisp
          rw [if_neg hdisp]
          split at h
          · rename_i hdisp2
            rw [if_pos hdisp2]
            exact doChoiceF_child_mono hc _ _ _ state _ res h
          · rename_i hdisp2
            rw [if_neg hdisp2]
            exact doRegularF_child_mono states hc _ _ _ _ state _ res h

theorem processStateF_fuel_ge (states : List (String × StateSpec))
    {fuel1 fuel2 : Nat} (hf : fuel1 ≤ fuel2) (stateName : String)
    (x y : Int) (σ : LState) (res : Int × LState)
    (h : processStateF states fuel1 stateName x y σ = some res) :
    processStateF states fuel2 stateName x y σ = some res := by
  induction hf with
  | refl => exact h
  | step hle ih =>
    exact processStateF_fuel_succ states _ stateName x y σ res ih

theorem parseStateMachineFuel_stable (d : StateMachineDef) (fuel : Nat)
    (hf : suffFuel d.states ≤ fuel) (g : Graph)
    (hg : parseStateMachineCore d = some g) :
    parseStateMachineFuel fuel d = some g := by
  unfold parseStateMachineCore at hg
  unfold parseStateMachineFuel
  cases hstart : jsField d.startAt with
  | none =>
    rw [hstart] at hg
    exact hg
  | some startAt =>
    rw [hstart] at hg
    dsimp only at hg
    dsimp only
    by_cases hlen : d.states.length = 0
    · rw [if_pos hlen] at hg ⊢
      exact hg
    · rw [if_neg hlen] at hg ⊢
      split at hg
      · cases hg
      · rename_i yv σf hres
        rw [processStateF_fuel_ge d.states hf startAt 0 VERTICAL_SPACING
          _ (yv, σf) hres]
        exact hg

/-- C5: on any definition whose Parallel branch walks halt, the layout
computation succeeds and its result is a function of the input definition
and the engine constants alone — every invocation, whatever recursion
budget at or above the engine's bound it is given, returns the identical
graph (same nodes with exact positions, same edges), with no dependence
on state shared across invocations (each run starts from fresh empty
`nodes`/`edges`/`processedStates`). -/
theorem layout_deterministic (d : StateMachineDef)
    (hBr : BranchesOk d.states) :
    ∃ g : Graph, parseStateMachineCore d = some g ∧
      ∀ fuel, suffFuel d.states ≤ fuel →
        parseStateMachineFuel fuel d = some g := by
  have hs := parseStateMachineCore_isSome d hBr
  cases hg : parseStateMachineCore d with
  | none =>
    rw [hg] at hs
    cases hs
  | some g =>
    exact ⟨g, rfl,
      fun fuel hf => parseStateMachineFuel_stable d fuel hf g hg⟩

/-- Witness for `layout_deterministic`: on the cyclic two-state
definition `dCycle`, the budgets 3 (the engine's bound) and 10 return the
same graph. -/
theorem layout_deterministic_witness :
    BranchesOk dCycle.states ∧
    ∃ g : Graph, parseStateMachineCore dCycle = some g ∧
      parseStateMachineFuel 10 dCycle = some g := by
  refine ⟨by decide, ?_⟩
  obtain ⟨g, hg, hstable⟩ := layout_deterministic dCycle (by decide)
  exact ⟨g, hg, hstable 10 (by decide)⟩
